import Mathlib

/-!
# stsmapgen_forSiv3D: shortest routes on a Delaunay graph

A shallow embedding of `Main.cpp`: the adjacency-list graph, `CreateGraphFromDelaunay`,
`IncreaseEdgeCost`, `Dijkstra`, `addPath` and the two buttons of `Main`, followed by the
properties of the specification that concern them.

Conventions of the embedding.

* C++ `int` and `long long` values are exact integers (`Int`).  With non-negative costs and
  distances at most `INF` no `long long` sum of `Dijkstra` leaves its range.  The sum
  `edge.cost += increaseAmount` is an `int` in the source and overflows above 2147483647;
  `IncreaseEdgeCost` adds exactly, and every statement about the costs after a penalty
  assumes that they stay in the range of `int` (`IntCosts`, `CostsAtMost`), where the two
  agree.
* `Array<T>` is `List T`.  A function returns `none` where the source has no defined result:
  an access `a[i]` outside `0 .. size-1` (`getAt?`), `.value()` of an empty `Optional`, or a
  loop that is cut off by its fuel.  For non-negative costs and an all-`INF` array the cuts
  are never reached (`dijkstraRun_inv`, `walkBack_fuel`).
* The `double` that `Pair` stores is represented by the integer it is equal to: converting a
  `long long` to `double` rounds to 53 significant bits (`toDouble`, round to nearest, ties
  to even), converting back is exact.
* `std::priority_queue<Pair, Array<Pair>, std::greater<Pair>>` is a list of pairs from which
  `top`/`pop` take the least pair in the lexicographic order of `std::pair` (`popMin`).
* `Random<int>(0, path.size() - 2)` is an extra argument `randomIndex`, the value drawn.
* Siv3D geometry (`Subdivision2D`, `Line::length`) is an argument of the graph builder.

Plan of the proofs.  The `while` loop of `Dijkstra` is treated as a relaxation procedure:
the invariant `Inv` holds whatever entry the queue hands out and however the keys are
rounded, and gives termination and the shape of the returned path.  Optimality needs that a
reached vertex keeps a queue entry that is not skipped (`Pending`), which holds as long as
the keys are exact, that is for distances up to 2^53; `chainGraph` shows what happens beyond.
-/

namespace StsMapGen

/-! ## Data model -/

/-- Edge record of the source: destination index (field `to` there, a reserved word here)
and cost. -/
structure Edge where
  to_ : Int
  cost : Int
deriving DecidableEq, Repr

/-- Adjacency lists, `Array<Array<Edge>>`. -/
abbrev Graph := List (List Edge)

/-- Sentinel distance `1LL << 60`. -/
def INF : Int := ((1 <<< 60 : Nat) : Int)

/-- Queue entry `std::pair<double, int>`: the key (an integer-valued double) and the vertex. -/
abbrev Pair := Int × Int

/-- Read `xs[i]` for a C++ `int` index; `none` when the index is out of range. -/
def getAt? {α : Type} (xs : List α) (i : Int) : Option α :=
  if 0 ≤ i then xs[i.toNat]? else none

/-- Write `xs[i] = a` for an index already known to be in range. -/
def setAt {α : Type} (xs : List α) (i : Int) (a : α) : List α :=
  if 0 ≤ i then xs.set i.toNat a else xs

/-! ## Conversion `long long -> double` -/

/-- Number of low bits a natural number loses when it is rounded to 53 significant bits. -/
def lostBits : Nat → Nat → Nat
  | 0, _ => 0
  | fuel + 1, n => if n < 2 ^ 53 then 0 else 1 + lostBits fuel (n / 2)

/-- Round a natural number to the nearest number with 53 significant bits, ties to even. -/
def roundNat (n : Nat) : Nat :=
  let e := lostBits n n
  let m := n / 2 ^ e
  let r := n % 2 ^ e
  if 2 * r < 2 ^ e then m * 2 ^ e
  else if 2 ^ e < 2 * r then (m + 1) * 2 ^ e
  else if m % 2 = 0 then m * 2 ^ e
  else (m + 1) * 2 ^ e

/-- Value of the `double` obtained from a `long long` (IEEE 754 binary64, default rounding). -/
def toDouble (x : Int) : Int :=
  if 0 ≤ x then (roundNat x.toNat : Int) else -(roundNat (-x).toNat : Int)

/-! ## Priority queue -/

/-- Order of `std::pair<double, int>`: by key, then by vertex. -/
def pairLe (a b : Pair) : Bool :=
  decide (a.1 < b.1) || (decide (a.1 = b.1) && decide (a.2 ≤ b.2))

/-- Operations `top` and `pop` of the min-queue: the least pair and the remaining entries. -/
def popMin : List Pair → Option (Pair × List Pair)
  | [] => none
  | x :: xs =>
    match popMin xs with
    | none => some (x, [])
    | some (m, rest) => if pairLe x m then some (x, xs) else some (m, x :: rest)

/-! ## Dijkstra -/

/-- Local state of `Dijkstra`: its copy of `distances`, the predecessor array `p`, the queue `q`. -/
structure DState where
  distances : List Int
  p : List Int
  q : List Pair
deriving DecidableEq, Repr

/-- Body of the inner `for` loop of `Dijkstra` for one edge leaving `src`. -/
def relaxEdge (src : Int) (st : DState) (edge : Edge) : Option DState :=
  match getAt? st.distances src, getAt? st.distances edge.to_ with
  | some dfrom, some dto =>
    let d := dfrom + edge.cost
    if d < dto then
      some { distances := setAt st.distances edge.to_ d
             p := setAt st.p edge.to_ src
             q := (toDouble d, edge.to_) :: st.q }
    else some st
  | _, _ => none

/-- Inner `for` loop of `Dijkstra` over the edges of `graph[from]`. -/
def relaxAll (src : Int) : DState → List Edge → Option DState
  | st, [] => some st
  | st, edge :: rest =>
    match relaxEdge src st edge with
    | some st1 => relaxAll src st1 rest
    | none => none

/-- One iteration of the `while (!q.empty())` loop. -/
def step (graph : Graph) (st : DState) : Option DState :=
  match popMin st.q with
  | none => some st
  | some ((key, src), q1) =>
    match getAt? st.distances src with
    | none => none
    | some dfrom =>
      if dfrom < key then some { st with q := q1 }
      else
        match getAt? graph src with
        | none => none
        | some row => relaxAll src { st with q := q1 } row

/-- The `while` loop, cut off after `fuel` iterations (`none` when the cut is reached). -/
def loop (graph : Graph) : Nat → DState → Option DState
  | 0, st => if st.q = [] then some st else none
  | fuel + 1, st =>
    if st.q = [] then some st
    else
      match step graph st with
      | some st1 => loop graph fuel st1
      | none => none

/-- Number of iterations after which the `while` loop has ended, for non-negative costs:
every iteration lowers the sum of the distances plus the queue length. -/
def loopBound (st : DState) : Nat :=
  (st.distances.map Int.toNat).sum + st.q.length + 1

/-- State of `Dijkstra` at the `while` loop: `distances[startIndex] = 0` is queued. -/
def initState (distances : List Int) (startIndex : Int) : Option DState :=
  match getAt? distances startIndex with
  | none => none
  | some _ =>
    some { distances := setAt distances startIndex 0
           p := List.replicate distances.length (-1)
           q := [(toDouble 0, startIndex)] }

/-- State of `Dijkstra` when the `while` loop has ended. -/
def DijkstraRun (graph : Graph) (distances : List Int) (startIndex : Int) : Option DState :=
  match initState distances startIndex with
  | none => none
  | some st => loop graph (loopBound st) st

/-- Loop `for (int i = targetIndex; i != -1; i = p[i])`: the indices pushed, in that order. -/
def walkBack (p : List Int) : Nat → Int → Option (List Int)
  | 0, i => if i = -1 then some [] else none
  | fuel + 1, i =>
    if i = -1 then some []
    else
      match getAt? p i with
      | none => none
      | some next =>
        match walkBack p fuel next with
        | some rest => some (i :: rest)
        | none => none

/-- Function `Dijkstra`: the final contents of the in/out argument `path`. -/
def Dijkstra (graph : Graph) (distances : List Int) (startIndex targetIndex : Int)
    (path : List Int) : Option (List Int) :=
  match DijkstraRun graph distances startIndex with
  | none => none
  | some st =>
    match getAt? st.distances targetIndex with
    | none => none
    | some dt =>
      if dt ≠ INF then
        match walkBack st.p st.p.length targetIndex with
        | some visited => some (path ++ visited).reverse
        | none => none
      else some path

/-! ## Penalty step and `addPath` -/

/-- Function `IncreaseEdgeCost`; `randomIndex` is the value of `Random<int>(0, path.size() - 2)`.
The sum `edge.cost + increaseAmount` is exact; it is the `int` sum of the source as long as it
does not exceed 2147483647. -/
def IncreaseEdgeCost (graph : Graph) (path : List Int) (randomIndex : Int)
    (increaseAmount : Int) : Option Graph :=
  match getAt? path randomIndex, getAt? path (randomIndex + 1) with
  | some srcIndex, some destIndex =>
    match getAt? graph srcIndex with
    | none => none
    | some row =>
      some (setAt graph srcIndex
        (row.map fun edge =>
          if edge.to_ = destIndex then { edge with cost := edge.cost + increaseAmount } else edge))
  | _, _ => none

/-- Function `addPath` on the variables it receives by reference (`graph`, `distances`,
`paths`); `numPoints` is `points.size()`. -/
def addPath (graph : Graph) (distances : List Int) (numPoints : Nat) (paths : List (List Int))
    (randomIndex : Int) : Option (Graph × List Int × List (List Int)) :=
  match Dijkstra graph distances ((numPoints : Int) - 2) ((numPoints : Int) - 1) [] with
  | none => none
  | some path =>
    match IncreaseEdgeCost graph path randomIndex 10000 with
    | none => none
    | some graph1 => some (graph1, distances, paths ++ [path])

/-! ## Graph construction and the session of `Main` -/

/-- Triangle of the triangulation with its three vertices, `triangle.asPolygon().vertices()`. -/
structure Triangle (V : Type) where
  p0 : V
  p1 : V
  p2 : V

/-- The Siv3D calls of the graph builder, taken as functions of their arguments:
`subdiv.findNearest` (an `Optional` vertex id), `subdiv.getVertex`, and
`Line{ src, dest }.length()` converted to `int`. -/
structure Geometry (V : Type) where
  findNearest : V → Option Nat
  getVertex : Nat → V
  lineLength : V → V → Int

/-- Index found by `std::distance(points.begin(), std::find(...))`: `points.size()` when absent. -/
def indexOfPoint {V : Type} [DecidableEq V] (points : List V) (v : V) : Int :=
  (points.indexOf v : Int)

/-- Two statements `graph[srcIndex].push_back({ destIndex, cost })` and
`graph[destIndex].push_back({ srcIndex, cost })`. -/
def pushBoth (graph : Graph) (srcIndex destIndex cost : Int) : Option Graph :=
  match getAt? graph srcIndex with
  | none => none
  | some rowSrc =>
    let graph1 := setAt graph srcIndex (rowSrc ++ [{ to_ := destIndex, cost := cost }])
    match getAt? graph1 destIndex with
    | none => none
    | some rowDest => some (setAt graph1 destIndex (rowDest ++ [{ to_ := srcIndex, cost := cost }]))

/-- Body of the loops over `i < j` of `CreateGraphFromDelaunay` for the triangle vertices
`a` and `b`; `none` when `.value()` is taken of an empty `Optional` or an index is out of range. -/
def connectVertices {V : Type} [DecidableEq V] (geo : Geometry V) (points : List V)
    (graph : Graph) (a b : V) : Option Graph :=
  match geo.findNearest a, geo.findNearest b with
  | some idSrc, some idDest =>
    let src := geo.getVertex idSrc
    let dest := geo.getVertex idDest
    let cost := geo.lineLength src dest
    let srcIndex := indexOfPoint points src
    let destIndex := indexOfPoint points dest
    if 0 < cost then pushBoth graph srcIndex destIndex cost else some graph
  | _, _ => none

/-- Loops over `i` and `j > i` for one triangle: the pairs (0,1), (0,2), (1,2). -/
def addTriangle {V : Type} [DecidableEq V] (geo : Geometry V) (points : List V)
    (graph : Graph) (t : Triangle V) : Option Graph :=
  match connectVertices geo points graph t.p0 t.p1 with
  | none => none
  | some graph1 =>
    match connectVertices geo points graph1 t.p0 t.p2 with
    | none => none
    | some graph2 => connectVertices geo points graph2 t.p1 t.p2

/-- Loop over the triangles of `CreateGraphFromDelaunay`. -/
def addTriangles {V : Type} [DecidableEq V] (geo : Geometry V) (points : List V) :
    Graph → List (Triangle V) → Option Graph
  | graph, [] => some graph
  | graph, t :: rest =>
    match addTriangle geo points graph t with
    | none => none
    | some graph1 => addTriangles geo points graph1 rest

/-- Function `CreateGraphFromDelaunay`. -/
def CreateGraphFromDelaunay {V : Type} [DecidableEq V] (geo : Geometry V)
    (triangles : List (Triangle V)) (points : List V) : Option Graph :=
  addTriangles geo points (List.replicate points.length []) triangles

/-- Variables of `Main` that the two buttons change. -/
structure Session where
  graph : Graph
  paths : List (List Int)
  distances : List Int
deriving DecidableEq

/-- Lines 212 to 217 of `Main`: the graph is built, `paths` is empty, `distances` all `INF`. -/
def startSession {V : Type} [DecidableEq V] (geo : Geometry V)
    (triangles : List (Triangle V)) (points : List V) : Option Session :=
  match CreateGraphFromDelaunay geo triangles points with
  | none => none
  | some graph =>
    some { graph := graph, paths := [], distances := List.replicate points.length INF }

/-- Button "add Path": `addPath(graph, distances, points, paths)`. -/
def addPathButton (numPoints : Nat) (s : Session) (randomIndex : Int) : Option Session :=
  match addPath s.graph s.distances numPoints s.paths randomIndex with
  | none => none
  | some (graph1, distances1, paths1) =>
    some { graph := graph1, paths := paths1, distances := distances1 }

/-- Button "reset Path": clear `paths`, refill `distances`, rebuild `graph`. -/
def resetButton {V : Type} [DecidableEq V] (geo : Geometry V)
    (triangles : List (Triangle V)) (points : List V) (_s : Session) : Option Session :=
  match CreateGraphFromDelaunay geo triangles points with
  | none => none
  | some graph =>
    some { graph := graph, paths := [], distances := List.replicate points.length INF }

/-- Any number of presses of "add Path", one drawn index per press. -/
def addPathPresses (numPoints : Nat) : Session → List Int → Option Session
  | s, [] => some s
  | s, r :: rest =>
    match addPathButton numPoints s r with
    | none => none
    | some s1 => addPathPresses numPoints s1 rest

/-! ## Notions of the specification -/

/-- Edges leaving vertex `u` (none for an index outside the graph). -/
def adj (graph : Graph) (u : Int) : List Edge :=
  (getAt? graph u).getD []

/-- Every edge target is a vertex index of the graph. -/
def ValidTargets (graph : Graph) : Prop :=
  ∀ row ∈ graph, ∀ e ∈ row, 0 ≤ e.to_ ∧ e.to_ < (graph.length : Int)

/-- Every edge cost is non-negative. -/
def NonNegCosts (graph : Graph) : Prop :=
  ∀ row ∈ graph, ∀ e ∈ row, 0 ≤ e.cost

/-- Predicate `Walk graph u v c`: some sequence of edges leads from `u` to `v` with total cost `c`. -/
inductive Walk (graph : Graph) : Int → Int → Int → Prop
  | nil (u : Int) : Walk graph u u 0
  | cons {u v : Int} {c : Int} (e : Edge) :
      e ∈ adj graph u → Walk graph e.to_ v c → Walk graph u v (e.cost + c)

/-- Predicate `SimplePath graph s v c vs`: a path from `s` to `v` of cost `c` that visits the
vertices `vs` (last one first), none of them twice. -/
inductive SimplePath (graph : Graph) (s : Int) : Int → Int → List Int → Prop
  | nil : SimplePath graph s s 0 [s]
  | snoc {u : Int} {c : Int} {vs : List Int} (e : Edge) :
      SimplePath graph s u c vs → e ∈ adj graph u → e.to_ ∉ vs →
      SimplePath graph s e.to_ (c + e.cost) (e.to_ :: vs)

/-- Graph symmetry: every edge `u -> v` of cost `c` has a twin `v -> u` of cost `c`. -/
def Symmetric (graph : Graph) : Prop :=
  ∀ u : Int, ∀ e ∈ adj graph u, ({ to_ := u, cost := e.cost } : Edge) ∈ adj graph e.to_

/-- Cost of the cheapest edge `u -> v`, when there is one. -/
def cheapest (graph : Graph) (u v : Int) : Option Int :=
  (((adj graph u).filter fun e => decide (e.to_ = v)).map Edge.cost).min?

/-- Sum over the consecutive pairs of a path of the cheapest edge joining them; `none` when
some pair is not joined by an edge. -/
def pathCost (graph : Graph) : List Int → Option Int
  | [] => some 0
  | [_] => some 0
  | u :: v :: rest =>
    match cheapest graph u v, pathCost graph (v :: rest) with
    | some c, some total => some (c + total)
    | _, _ => none

/-- Distance recorded for vertex `v`; `INF` for an index outside the array. -/
def distAt (distances : List Int) (v : Int) : Int :=
  (getAt? distances v).getD INF

/-- Every edge cost is at most `bound`. -/
def CostsAtMost (graph : Graph) (bound : Int) : Prop :=
  ∀ row ∈ graph, ∀ e ∈ row, e.cost ≤ bound

/-- Predicate `WalkAvoiding graph a b u v c`: a walk from `u` to `v` of cost `c` that never
takes an edge from `a` to `b`. -/
inductive WalkAvoiding (graph : Graph) (a b : Int) : Int → Int → Int → Prop
  | nil (u : Int) : WalkAvoiding graph a b u u 0
  | cons {u v : Int} {c : Int} (e : Edge) :
      e ∈ adj graph u → ¬ (u = a ∧ e.to_ = b) → WalkAvoiding graph a b e.to_ v c →
      WalkAvoiding graph a b u v (e.cost + c)

/-- Value in the range of a 32-bit `int`. -/
def InIntRange (x : Int) : Prop :=
  -2147483648 ≤ x ∧ x ≤ 2147483647

/-- Every edge cost is in the range of `int`. -/
def IntCosts (graph : Graph) : Prop :=
  ∀ row ∈ graph, ∀ e ∈ row, InIntRange e.cost

/-- Any number of penalty steps, each with its path, drawn index and amount. -/
def applyPenalties : Graph → List (List Int × Int × Int) → Option Graph
  | graph, [] => some graph
  | graph, (path, randomIndex, amount) :: rest =>
    match IncreaseEdgeCost graph path randomIndex amount with
    | none => none
    | some graph1 => applyPenalties graph1 rest

/-- Total amount of the penalty steps that chose the pair `u`, `v`, that is the steps with
`path[randomIndex] = u` and `path[randomIndex + 1] = v`. -/
def penaltyOn : List (List Int × Int × Int) → Int → Int → Int
  | [], _, _ => 0
  | (path, randomIndex, amount) :: rest, u, v =>
    (if getAt? path randomIndex = some u ∧ getAt? path (randomIndex + 1) = some v
      then amount else 0) + penaltyOn rest u v

/-- Every edge `u -> v` has a twin `v -> u`, and the costs of the two agree once the
penalties `penalty u v` and `penalty v u` are taken off. -/
def TwinCosts (graph : Graph) (penalty : Int → Int → Int) : Prop :=
  ∀ u : Int, ∀ e ∈ adj graph u, ∃ e1 ∈ adj graph e.to_, e1.to_ = u ∧
    e.cost - penalty u e.to_ = e1.cost - penalty e.to_ u

/-! ## Invariants of the `while` loop of `Dijkstra` -/

/-- Predicate `Realized graph s distances v c vs`: a simple path from `s` to `v` of cost `c`
through the vertices `vs` on which every vertex has a recorded distance that is at most the
cost of the path up to it. -/
inductive Realized (graph : Graph) (s : Int) (distances : List Int) :
    Int → Int → List Int → Prop
  | nil : distAt distances s ≤ 0 → Realized graph s distances s 0 [s]
  | snoc {u : Int} {c : Int} {vs : List Int} (e : Edge) :
      Realized graph s distances u c vs → e ∈ adj graph u → e.to_ ∉ vs →
      distAt distances e.to_ ≤ c + e.cost →
      Realized graph s distances e.to_ (c + e.cost) (e.to_ :: vs)

/-- Invariant of the `while` loop for source `s`; it does not depend on the order in which the
queue hands out its entries nor on the rounding of the keys. -/
structure Inv (graph : Graph) (s : Int) (st : DState) : Prop where
  lenD : st.distances.length = graph.length
  lenP : st.p.length = graph.length
  range : ∀ v d, getAt? st.distances v = some d → 0 ≤ d ∧ d ≤ INF
  src0 : getAt? st.distances s = some 0
  srcP : getAt? st.p s = some (-1)
  queue : ∀ x ∈ st.q, distAt st.distances x.2 < INF
  pred : ∀ v, v ≠ s → distAt st.distances v < INF →
    ∃ u e, getAt? st.p v = some u ∧ e ∈ adj graph u ∧ e.to_ = v ∧
      distAt st.distances u + e.cost ≤ distAt st.distances v
  back : ∀ v, distAt st.distances v < INF → ∃ k c, walkBack st.p k v = some c
  real : ∀ v, distAt st.distances v < INF →
    ∃ vs, Realized graph s st.distances v (distAt st.distances v) vs

/-- Vertex `v` is either waiting in the queue with a key that will not be skipped, or all its
edges are relaxed. -/
def Settled (graph : Graph) (st : DState) (v : Int) : Prop :=
  (∃ key, (key, v) ∈ st.q ∧ key ≤ distAt st.distances v) ∨
  (∀ e ∈ adj graph v, distAt st.distances e.to_ ≤ distAt st.distances v + e.cost)

/-- Every reached vertex is settled. -/
def Pending (graph : Graph) (st : DState) : Prop :=
  ∀ v, distAt st.distances v < INF → Settled graph st v

/-- Every reached vertex other than `x` is settled. -/
def PendingExcept (graph : Graph) (x : Int) (st : DState) : Prop :=
  ∀ v, v ≠ x → distAt st.distances v < INF → Settled graph st v

/-- No simple path that starts at `s` costs more than `bound`. -/
def SimplePathCostsAtMost (graph : Graph) (s : Int) (bound : Int) : Prop :=
  ∀ v c vs, SimplePath graph s v c vs → c ≤ bound

/-! ## A long chain: distances beyond 2^53 -/

/-- Chain `0 -> 1 -> ... -> k` with edges of cost `c`, followed by two routes from `k` to
vertex `k+3`: over `k+1` (costs `c` and 1) and over `k+2` (costs `c-1` and 4); vertex `k+4`
is entered from `k+1` only. -/
def chainGraph (k : Nat) (c : Int) : Graph :=
  (List.range k).map (fun i : Nat => [({ to_ := (i : Int) + 1, cost := c } : Edge)]) ++
    [[{ to_ := (k : Int) + 1, cost := c }, { to_ := (k : Int) + 2, cost := c - 1 }],
     [{ to_ := (k : Int) + 3, cost := 1 }, { to_ := (k : Int) + 4, cost := 1 }],
     [{ to_ := (k : Int) + 3, cost := 4 }],
     [],
     []]

/-- Distances of `Dijkstra` on the chain when the vertices up to `i` are reached. -/
def chainDistances (k : Nat) (c : Int) (i : Nat) : List Int :=
  (List.range (k + 5)).map fun j : Nat => if j ≤ i then (j : Int) * c else INF

/-- Predecessors of `Dijkstra` on the chain when the vertices up to `i` are reached. -/
def chainPred (k : Nat) (i : Nat) : List Int :=
  (List.range (k + 5)).map fun j : Nat => if 1 ≤ j ∧ j ≤ i then (j : Int) - 1 else -1

/-- State of `Dijkstra` on the chain after `i` iterations of the `while` loop, `i ≤ k`. -/
def chainState (k : Nat) (c : Int) (i : Nat) : DState :=
  { distances := chainDistances k c i
    p := chainPred k i
    q := [((i : Int) * c, (i : Int))] }

/-- Final state of `Dijkstra` on the chain when `x = (k+1) * c` is rounded up to `x + 1`. -/
def chainFinal (k : Nat) (c : Int) : DState :=
  { distances :=
      setAt (setAt (setAt (chainDistances k c k) ((k : Int) + 1) (((k : Int) + 1) * c))
        ((k : Int) + 2) (((k : Int) + 1) * c - 1)) ((k : Int) + 3) (((k : Int) + 1) * c + 3)
    p := setAt (setAt (setAt (chainPred k k) ((k : Int) + 1) (k : Int))
        ((k : Int) + 2) (k : Int)) ((k : Int) + 3) ((k : Int) + 2)
    q := [] }

/-- The long chain with 2^22 edges of cost 2^31 - 1, the largest `int`. -/
def longChain : Graph := chainGraph 4194304 2147483647

/-- The four points of the example: `p1` is index 0, `p2` index 1, `start` index 2 and `end`
index 3; every adjacency list in some order. -/
def fourPoints : Graph :=
  [[{ to_ := 2, cost := 7 }, { to_ := 3, cost := 7 }, { to_ := 1, cost := 10 }],
   [{ to_ := 2, cost := 7 }, { to_ := 3, cost := 7 }, { to_ := 0, cost := 10 }],
   [{ to_ := 0, cost := 7 }, { to_ := 1, cost := 7 }],
   [{ to_ := 0, cost := 7 }, { to_ := 1, cost := 7 }]]

/-- Three points with a cheap direct edge from the source (index 1) to the target (index 2)
and a detour over index 0 that costs 40000. -/
def detour : Graph :=
  [[{ to_ := 1, cost := 20000 }, { to_ := 2, cost := 20000 }],
   [{ to_ := 2, cost := 1 }, { to_ := 0, cost := 20000 }],
   [{ to_ := 1, cost := 1 }, { to_ := 0, cost := 20000 }]]

/-- Geometry on integer points of a line: every point is its own nearest vertex, the length
is the distance. -/
def lineGeometry : Geometry Int :=
  { findNearest := fun v => some v.toNat
    getVertex := fun i => (i : Int)
    lineLength := fun a b => (a - b).natAbs }

/-- Two points joined by an edge of cost 5 in both directions. -/
def twoPoints : Graph :=
  [[{ to_ := 1, cost := 5 }], [{ to_ := 0, cost := 5 }]]

/-- Four points on a line; the last two are `start` and `end`. -/
def linePoints : List Int := [0, 3, 7, 9]

/-- Two triangles over the four points of the line. -/
def lineTriangles : List (Triangle Int) :=
  [{ p0 := 0, p1 := 3, p2 := 7 }, { p0 := 3, p1 := 7, p2 := 9 }]

/-- Session that `Main` starts with on the four points of the line. -/
def lineSession : Session :=
  { graph :=
      [[{ to_ := 1, cost := 3 }, { to_ := 2, cost := 7 }],
       [{ to_ := 0, cost := 3 }, { to_ := 2, cost := 4 }, { to_ := 2, cost := 4 },
        { to_ := 3, cost := 6 }],
       [{ to_ := 0, cost := 7 }, { to_ := 1, cost := 4 }, { to_ := 1, cost := 4 },
        { to_ := 3, cost := 2 }],
       [{ to_ := 1, cost := 6 }, { to_ := 2, cost := 2 }]]
    paths := []
    distances := List.replicate 4 INF }

/-- Session on the four points of the line after two presses of "add Path". -/
def lineSessionAfter : Session :=
  { graph :=
      [[{ to_ := 1, cost := 3 }, { to_ := 2, cost := 7 }],
       [{ to_ := 0, cost := 3 }, { to_ := 2, cost := 4 }, { to_ := 2, cost := 4 },
        { to_ := 3, cost := 6 }],
       [{ to_ := 0, cost := 7 }, { to_ := 1, cost := 10004 }, { to_ := 1, cost := 10004 },
        { to_ := 3, cost := 10002 }],
       [{ to_ := 1, cost := 6 }, { to_ := 2, cost := 2 }]]
    paths := [[2, 3], [2, 1, 3]]
    distances := List.replicate 4 INF }

/-- Check of two presses of "add Path" on a pristine graph of `n` points, the first with the
drawn index `r`: the first call records `path1`, and the second call, whatever index it
draws, records `path2`, whose cost in the penalised graph is `cost2`. -/
def secondCallOk (graph : Graph) (n : Nat) (path1 path2 : List Int) (cost2 : Int)
    (r : Int) : Bool :=
  match addPath graph (List.replicate n INF) n [] r with
  | none => false
  | some (graph1, distances1, paths1) =>
    decide (distances1 = List.replicate n INF) && decide (paths1 = [path1]) &&
    decide (pathCost graph1 path2 = some cost2) &&
    (List.range (path2.length - 1)).all fun r2 =>
      match addPath graph1 distances1 n paths1 (r2 : Int) with
      | none => false
      | some (_, _, paths2) => decide (paths2 = [path1, path2])

/-! ## Array access -/

theorem getAt?_eq_some_iff {α : Type} {xs : List α} {i : Int} {a : α} :
    getAt? xs i = some a ↔ 0 ≤ i ∧ xs[i.toNat]? = some a := by
  unfold getAt?
  split <;> simp [*]

theorem getAt?_lt {α : Type} {xs : List α} {i : Int} {a : α} (h : getAt? xs i = some a) :
    0 ≤ i ∧ i < (xs.length : Int) := by
  obtain ⟨h0, h1⟩ := getAt?_eq_some_iff.mp h
  obtain ⟨hlt, -⟩ := List.getElem?_eq_some.mp h1
  exact ⟨h0, by omega⟩

theorem getAt?_of_lt {α : Type} {l : List α} {i : Int} (h0 : 0 ≤ i) (h1 : i < (l.length : Int)) :
    ∃ a, getAt? l i = some a := by
  have hlt : i.toNat < l.length := by omega
  exact ⟨l[i.toNat], getAt?_eq_some_iff.mpr ⟨h0, List.getElem?_eq_getElem hlt⟩⟩

theorem getAt?_mem {α : Type} {xs : List α} {i : Int} {a : α} (h : getAt? xs i = some a) :
    a ∈ xs := by
  obtain ⟨-, h1⟩ := getAt?_eq_some_iff.mp h
  exact List.mem_iff_getElem?.mpr ⟨_, h1⟩

theorem length_setAt {α : Type} (xs : List α) (i : Int) (a : α) :
    (setAt xs i a).length = xs.length := by
  unfold setAt
  split <;> simp

theorem getAt?_setAt_self {α : Type} {xs : List α} {i : Int} (a : α)
    (h0 : 0 ≤ i) (h1 : i < (xs.length : Int)) : getAt? (setAt xs i a) i = some a := by
  have hlt : i.toNat < xs.length := by omega
  simp [getAt?, setAt, h0, hlt]

theorem getAt?_setAt_ne {α : Type} {xs : List α} {i j : Int} (a : α) (h : i ≠ j) :
    getAt? (setAt xs i a) j = getAt? xs j := by
  unfold getAt? setAt
  by_cases hi : 0 ≤ i <;> by_cases hj : 0 ≤ j <;> simp [hi, hj]
  have : i.toNat ≠ j.toNat := by omega
  simp [List.getElem?_set_ne this]

theorem getAt?_setAt {α : Type} {xs : List α} {i j : Int} (a : α) :
    getAt? (setAt xs i a) j =
      if i = j ∧ 0 ≤ i ∧ i < (xs.length : Int) then some a else getAt? xs j := by
  by_cases hij : i = j
  · subst hij
    by_cases h0 : 0 ≤ i
    · by_cases h1 : i < (xs.length : Int)
      · simp [getAt?_setAt_self a h0 h1, h0, h1]
      · have hle : xs.length ≤ i.toNat := by omega
        simp [h1, getAt?, setAt, h0, List.set_eq_of_length_le hle]
    · simp [h0, setAt]
  · simp [hij, getAt?_setAt_ne a hij]

theorem getAt?_replicate {α : Type} {n : Nat} {a : α} {i : Int}
    (h0 : 0 ≤ i) (h1 : i < (n : Int)) : getAt? (List.replicate n a) i = some a := by
  have hlt : i.toNat < n := by omega
  simp [getAt?, h0, List.getElem?_replicate, hlt]

theorem getAt?_natCast {α : Type} (xs : List α) (i : Nat) : getAt? xs (i : Int) = xs[i]? := by
  simp [getAt?]

/-! ## Adjacency -/

theorem adj_eq_of_getAt? {graph : Graph} {u : Int} {row : List Edge}
    (h : getAt? graph u = some row) : adj graph u = row := by
  simp [adj, h]

theorem adj_mem_graph {graph : Graph} {u : Int} {e : Edge} (h : e ∈ adj graph u) :
    ∃ row, getAt? graph u = some row ∧ e ∈ row := by
  unfold adj at h
  cases hrow : getAt? graph u with
  | none => simp [hrow] at h
  | some row => exact ⟨row, rfl, by simpa [hrow] using h⟩

theorem adj_valid {graph : Graph} (hv : ValidTargets graph) {u : Int} {e : Edge}
    (h : e ∈ adj graph u) : 0 ≤ e.to_ ∧ e.to_ < (graph.length : Int) := by
  obtain ⟨row, hrow, hmem⟩ := adj_mem_graph h
  exact hv row (getAt?_mem hrow) e hmem

theorem adj_nonneg {graph : Graph} (hc : NonNegCosts graph) {u : Int} {e : Edge}
    (h : e ∈ adj graph u) : 0 ≤ e.cost := by
  obtain ⟨row, hrow, hmem⟩ := adj_mem_graph h
  exact hc row (getAt?_mem hrow) e hmem

theorem adj_src_lt {graph : Graph} {u : Int} {e : Edge} (h : e ∈ adj graph u) :
    0 ≤ u ∧ u < (graph.length : Int) := by
  obtain ⟨row, hrow, -⟩ := adj_mem_graph h
  exact getAt?_lt hrow

theorem adj_setAt {graph : Graph} {u v : Int} {row : List Edge}
    (h0 : 0 ≤ u) (h1 : u < (graph.length : Int)) :
    adj (setAt graph u row) v = if u = v then row else adj graph v := by
  unfold adj
  rw [getAt?_setAt]
  by_cases huv : u = v <;> simp [huv, h0, h1]
  subst huv
  simp [h0, h1]

/-! ## The penalty step -/

/-- Adjacency lists after `IncreaseEdgeCost`: the edges `src -> dest` are dearer by the amount,
every list keeps its edges in place. -/
theorem increaseEdgeCost_adj {graph graph1 : Graph} {path : List Int} {k amount : Int}
    (h : IncreaseEdgeCost graph path k amount = some graph1) :
    ∃ src dest, getAt? path k = some src ∧ getAt? path (k + 1) = some dest ∧
      graph1.length = graph.length ∧
      ∀ u : Int, adj graph1 u = (adj graph u).map fun e =>
        if u = src ∧ e.to_ = dest then { e with cost := e.cost + amount } else e := by
  unfold IncreaseEdgeCost at h
  cases hs : getAt? path k with
  | none => simp [hs] at h
  | some src =>
    cases hd : getAt? path (k + 1) with
    | none => simp [hs, hd] at h
    | some dest =>
      cases hrow : getAt? graph src with
      | none => simp [hs, hd, hrow] at h
      | some row =>
        simp only [hs, hd, hrow, Option.some.injEq] at h
        subst h
        refine ⟨src, dest, rfl, rfl, length_setAt _ _ _, ?_⟩
        intro u
        obtain ⟨h0, h1⟩ := getAt?_lt hrow
        rw [adj_setAt h0 h1]
        by_cases hu : src = u
        · subst hu
          simp [adj_eq_of_getAt? hrow]
        · have hu' : ¬ u = src := fun h => hu h.symm
          simp [hu, hu']

theorem increaseEdgeCost_isSome (graph : Graph) (path : List Int) (k amount : Int)
    (hpath : ∀ x ∈ path, 0 ≤ x ∧ x < (graph.length : Int))
    (hk0 : 0 ≤ k) (hk : k + 2 ≤ (path.length : Int)) :
    ∃ graph1, IncreaseEdgeCost graph path k amount = some graph1 := by
  obtain ⟨src, hs⟩ := getAt?_of_lt (l := path) hk0 (by omega)
  obtain ⟨dest, hd⟩ := getAt?_of_lt (l := path) (i := k + 1) (by omega) (by omega)
  obtain ⟨hs0, hs1⟩ := hpath src (getAt?_mem hs)
  obtain ⟨row, hrow⟩ := getAt?_of_lt hs0 hs1
  simp [IncreaseEdgeCost, hs, hd, hrow]

theorem increaseEdgeCost_validTargets {graph graph1 : Graph} {path : List Int} {k amount : Int}
    (h : IncreaseEdgeCost graph path k amount = some graph1) (hv : ValidTargets graph) :
    ValidTargets graph1 := by
  obtain ⟨src, dest, -, -, hlen, hadj⟩ := increaseEdgeCost_adj h
  intro row hrow e he
  obtain ⟨i, hi⟩ := List.mem_iff_getElem?.mp hrow
  have hget : getAt? graph1 (i : Int) = some row := by rw [getAt?_natCast]; exact hi
  have hmem : e ∈ adj graph1 (i : Int) := by rw [adj_eq_of_getAt? hget]; exact he
  rw [hadj] at hmem
  obtain ⟨e0, he0, rfl⟩ := List.mem_map.mp hmem
  have := adj_valid hv he0
  rw [hlen]
  split <;> simpa using this

theorem increaseEdgeCost_nonNeg {graph graph1 : Graph} {path : List Int} {k amount : Int}
    (h : IncreaseEdgeCost graph path k amount = some graph1) (hc : NonNegCosts graph)
    (hamount : 0 ≤ amount) : NonNegCosts graph1 := by
  obtain ⟨src, dest, -, -, hlen, hadj⟩ := increaseEdgeCost_adj h
  intro row hrow e he
  obtain ⟨i, hi⟩ := List.mem_iff_getElem?.mp hrow
  have hget : getAt? graph1 (i : Int) = some row := by rw [getAt?_natCast]; exact hi
  have hmem : e ∈ adj graph1 (i : Int) := by rw [adj_eq_of_getAt? hget]; exact he
  rw [hadj] at hmem
  obtain ⟨e0, he0, rfl⟩ := List.mem_map.mp hmem
  have := adj_nonneg hc he0
  split
  · simp; omega
  · exact this

theorem increaseEdgeCost_costsAtMost {graph graph1 : Graph} {path : List Int} {k amount : Int}
    (h : IncreaseEdgeCost graph path k amount = some graph1) {bound : Int}
    (hb : CostsAtMost graph bound) (hamount : 0 ≤ amount) :
    CostsAtMost graph1 (bound + amount) := by
  obtain ⟨src, dest, -, -, hlen, hadj⟩ := increaseEdgeCost_adj h
  intro row hrow e he
  obtain ⟨i, hi⟩ := List.mem_iff_getElem?.mp hrow
  have hget : getAt? graph1 (i : Int) = some row := by rw [getAt?_natCast]; exact hi
  have hmem : e ∈ adj graph1 (i : Int) := by rw [adj_eq_of_getAt? hget]; exact he
  rw [hadj] at hmem
  obtain ⟨e0, he0, rfl⟩ := List.mem_map.mp hmem
  obtain ⟨row0, hrow0, hmem0⟩ := adj_mem_graph he0
  have := hb row0 (getAt?_mem hrow0) e0 hmem0
  split
  · simp; omega
  · omega

/-- C9. Frame of the penalty step: for a path of at least two in-range indices, a position
`0 ≤ k ≤ length - 2` and a non-negative amount, `IncreaseEdgeCost` returns a graph with the
same number of vertices in which every adjacency list has the same length and, edge by edge,
the same target and a cost that is not lower; a cost changes only on an edge from `path[k]`
to `path[k+1]`, and every such edge is dearer by exactly the amount. -/
theorem increaseEdgeCost_frame (graph : Graph) (path : List Int) (k amount : Int)
    (hpath : ∀ x ∈ path, 0 ≤ x ∧ x < (graph.length : Int))
    (hk0 : 0 ≤ k) (hk : k + 2 ≤ (path.length : Int)) (hamount : 0 ≤ amount) :
    ∃ graph1 src dest, getAt? path k = some src ∧ getAt? path (k + 1) = some dest ∧
      IncreaseEdgeCost graph path k amount = some graph1 ∧
      graph1.length = graph.length ∧
      ∀ u : Int, (adj graph1 u).length = (adj graph u).length ∧
        List.Forall₂ (fun e e1 : Edge =>
          e1.to_ = e.to_ ∧ e.cost ≤ e1.cost ∧
          (e1.cost ≠ e.cost → u = src ∧ e.to_ = dest) ∧
          (u = src ∧ e.to_ = dest → e1.cost = e.cost + amount))
        (adj graph u) (adj graph1 u) := by
  obtain ⟨graph1, h⟩ := increaseEdgeCost_isSome graph path k amount hpath hk0 hk
  obtain ⟨src, dest, hs, hd, hlen, hadj⟩ := increaseEdgeCost_adj h
  refine ⟨graph1, src, dest, hs, hd, h, hlen, ?_⟩
  intro u
  refine ⟨by rw [hadj, List.length_map], ?_⟩
  rw [hadj, List.forall₂_map_right_iff, List.forall₂_same]
  intro e _
  by_cases hcase : u = src ∧ e.to_ = dest
  · simp [hcase, hamount]
  · simp [hcase]

/-- The frame theorem at the path `[1, 0]` of a two-vertex graph. -/
theorem increaseEdgeCost_frame_witness :
    ∃ graph1 src dest, getAt? [1, 0] 0 = some src ∧ getAt? [1, 0] (0 + 1) = some dest ∧
      IncreaseEdgeCost [[⟨1, 5⟩], [⟨0, 5⟩]] [1, 0] 0 10000 = some graph1 ∧
      graph1.length = ([[⟨1, 5⟩], [⟨0, 5⟩]] : Graph).length ∧
      ∀ u : Int, (adj graph1 u).length = (adj [[⟨1, 5⟩], [⟨0, 5⟩]] u).length ∧
        List.Forall₂ (fun e e1 : Edge =>
          e1.to_ = e.to_ ∧ e.cost ≤ e1.cost ∧
          (e1.cost ≠ e.cost → u = src ∧ e.to_ = dest) ∧
          (u = src ∧ e.to_ = dest → e1.cost = e.cost + 10000))
        (adj [[⟨1, 5⟩], [⟨0, 5⟩]] u) (adj graph1 u) :=
  increaseEdgeCost_frame [[⟨1, 5⟩], [⟨0, 5⟩]] [1, 0] 0 10000 (by decide) (by decide) (by decide)
    (by decide)

/-! ## Graph construction -/

theorem pushBoth_adj {graph graph1 : Graph} {s d c : Int}
    (h : pushBoth graph s d c = some graph1) :
    graph1.length = graph.length ∧
    ∀ (u : Int) (e : Edge), e ∈ adj graph1 u ↔
      e ∈ adj graph u ∨ (u = s ∧ e = ⟨d, c⟩) ∨ (u = d ∧ e = ⟨s, c⟩) := by
  unfold pushBoth at h
  cases hs : getAt? graph s with
  | none => simp [hs] at h
  | some rowS =>
    simp only [hs] at h
    cases hd : getAt? (setAt graph s (rowS ++ [⟨d, c⟩])) d with
    | none => simp [hd] at h
    | some rowD =>
      simp only [hd, Option.some.injEq] at h
      subst h
      obtain ⟨hs0, hs1⟩ := getAt?_lt hs
      obtain ⟨hd0, hd1⟩ := getAt?_lt hd
      rw [length_setAt] at hd1
      refine ⟨by simp [length_setAt], ?_⟩
      intro u e
      rw [adj_setAt hd0 (by rw [length_setAt]; exact hd1)]
      have hrowD : rowD = adj (setAt graph s (rowS ++ [⟨d, c⟩])) d := (adj_eq_of_getAt? hd).symm
      rw [adj_setAt hs0 hs1] at hrowD
      have hrowS : rowS = adj graph s := (adj_eq_of_getAt? hs).symm
      by_cases hdu : d = u
      · subst hdu
        simp only [if_true, List.mem_append, List.mem_singleton, hrowD]
        by_cases hsd : s = d
        · subst hsd
          simp [hrowS]
        · have hds : ¬ d = s := fun h => hsd h.symm
          simp [hsd, hds]
      · have hud : ¬ u = d := fun h => hdu h.symm
        simp only [hdu, if_false, hud, false_and, or_false]
        rw [adj_setAt hs0 hs1]
        by_cases hsu : s = u
        · subst hsu
          simp [hrowS]
        · have hus : ¬ u = s := fun h => hsu h.symm
          simp [hsu, hus]

theorem pushBoth_symmetric {graph graph1 : Graph} {s d c : Int}
    (h : pushBoth graph s d c = some graph1) (hsym : Symmetric graph) : Symmetric graph1 := by
  obtain ⟨-, hadj⟩ := pushBoth_adj h
  intro u e he
  rw [hadj] at he ⊢
  rcases he with he | ⟨rfl, rfl⟩ | ⟨rfl, rfl⟩
  · exact Or.inl (hsym u e he)
  · exact Or.inr (Or.inr ⟨rfl, rfl⟩)
  · exact Or.inr (Or.inl ⟨rfl, rfl⟩)

theorem connectVertices_symmetric {V : Type} [DecidableEq V] {geo : Geometry V}
    {points : List V} {graph graph1 : Graph} {a b : V}
    (h : connectVertices geo points graph a b = some graph1) (hsym : Symmetric graph) :
    Symmetric graph1 := by
  unfold connectVertices at h
  cases ha : geo.findNearest a with
  | none => simp [ha] at h
  | some ia =>
    cases hb : geo.findNearest b with
    | none => simp [ha, hb] at h
    | some ib =>
      simp only [ha, hb] at h
      split at h
      · exact pushBoth_symmetric h hsym
      · simp only [Option.some.injEq] at h
        subst h
        exact hsym

theorem addTriangle_symmetric {V : Type} [DecidableEq V] {geo : Geometry V}
    {points : List V} {graph graph1 : Graph} {t : Triangle V}
    (h : addTriangle geo points graph t = some graph1) (hsym : Symmetric graph) :
    Symmetric graph1 := by
  unfold addTriangle at h
  cases h1 : connectVertices geo points graph t.p0 t.p1 with
  | none => simp [h1] at h
  | some g1 =>
    simp only [h1] at h
    cases h2 : connectVertices geo points g1 t.p0 t.p2 with
    | none => simp [h2] at h
    | some g2 =>
      simp only [h2] at h
      exact connectVertices_symmetric h
        (connectVertices_symmetric h2 (connectVertices_symmetric h1 hsym))

theorem addTriangles_symmetric {V : Type} [DecidableEq V] {geo : Geometry V}
    {points : List V} (triangles : List (Triangle V)) :
    ∀ {graph graph1 : Graph}, addTriangles geo points graph triangles = some graph1 →
      Symmetric graph → Symmetric graph1 := by
  induction triangles with
  | nil =>
    intro graph graph1 h hsym
    simp only [addTriangles, Option.some.injEq] at h
    subst h
    exact hsym
  | cons t rest ih =>
    intro graph graph1 h hsym
    simp only [addTriangles] at h
    cases h1 : addTriangle geo points graph t with
    | none => simp [h1] at h
    | some g1 =>
      simp only [h1] at h
      exact ih h (addTriangle_symmetric h1 hsym)

theorem adj_replicate_nil (n : Nat) (u : Int) : adj (List.replicate n []) u = [] := by
  unfold adj
  cases h : getAt? (List.replicate n ([] : List Edge)) u with
  | none => rfl
  | some row =>
    have := List.eq_of_mem_replicate (getAt?_mem h)
    simp [this]

theorem createGraph_symmetric {V : Type} [DecidableEq V] {geo : Geometry V}
    {triangles : List (Triangle V)} {points : List V} {graph : Graph}
    (h : CreateGraphFromDelaunay geo triangles points = some graph) : Symmetric graph := by
  refine addTriangles_symmetric triangles h ?_
  intro u e he
  rw [adj_replicate_nil] at he
  simp at he

/-- After the penalty step on a symmetric graph every edge still has a twin; the costs of an
edge and its twin agree except across the penalised pair. -/
theorem increaseEdgeCost_twin {graph graph1 : Graph} {path : List Int}
    {k amount : Int} (h : IncreaseEdgeCost graph path k amount = some graph1)
    (hsym : Symmetric graph) :
    ∃ src dest, getAt? path k = some src ∧ getAt? path (k + 1) = some dest ∧
      ∀ u : Int, ∀ e ∈ adj graph1 u, ∃ e1 ∈ adj graph1 e.to_, e1.to_ = u ∧
        (e1.cost = e.cost ∨ (u = src ∧ e.to_ = dest ∧ e.cost = e1.cost + amount) ∨
          (e.to_ = src ∧ u = dest ∧ e1.cost = e.cost + amount)) := by
  obtain ⟨src, dest, hs, hd, -, hadj⟩ := increaseEdgeCost_adj h
  refine ⟨src, dest, hs, hd, ?_⟩
  intro u e he
  rw [hadj] at he
  obtain ⟨e0, he0, rfl⟩ := List.mem_map.mp he
  have he1 := hsym u e0 he0
  have hmem : (if e0.to_ = src ∧ u = dest then (⟨u, e0.cost + amount⟩ : Edge) else ⟨u, e0.cost⟩)
      ∈ adj graph1 e0.to_ := by
    rw [hadj]
    exact List.mem_map.mpr ⟨_, he1, rfl⟩
  by_cases h1 : u = src ∧ e0.to_ = dest <;> by_cases h2 : e0.to_ = src ∧ u = dest
  · rw [if_pos h2] at hmem
    rw [if_pos h1]
    exact ⟨_, hmem, rfl, Or.inl rfl⟩
  · rw [if_neg h2] at hmem
    rw [if_pos h1]
    exact ⟨_, hmem, rfl, Or.inr (Or.inl ⟨h1.1, h1.2, rfl⟩)⟩
  · rw [if_pos h2] at hmem
    rw [if_neg h1]
    exact ⟨_, hmem, rfl, Or.inr (Or.inr ⟨h2.1, h2.2, rfl⟩)⟩
  · rw [if_neg h2] at hmem
    rw [if_neg h1]
    exact ⟨_, hmem, rfl, Or.inl rfl⟩

/-- A symmetric graph accounts for the costs of twin edges with no penalty at all. -/
theorem symmetric_twinCosts {graph : Graph} (h : Symmetric graph) :
    TwinCosts graph (fun _ _ => 0) := by
  intro u e he
  exact ⟨_, h u e he, rfl, by simp⟩

/-- One penalty step adds its amount to the account of the pair it chose. -/
theorem increaseEdgeCost_twinCosts {graph graph1 : Graph} {path : List Int}
    {k amount : Int} {penalty : Int → Int → Int}
    (h : IncreaseEdgeCost graph path k amount = some graph1)
    (htwin : TwinCosts graph penalty) :
    TwinCosts graph1 (fun u v => penalty u v +
      (if getAt? path k = some u ∧ getAt? path (k + 1) = some v then amount else 0)) := by
  obtain ⟨src, dest, hs, hd, -, hadj⟩ := increaseEdgeCost_adj h
  have hcond : ∀ a b : Int, (getAt? path k = some a ∧ getAt? path (k + 1) = some b) ↔
      (a = src ∧ b = dest) := by
    intro a b
    rw [hs, hd]
    simp only [Option.some.injEq]
    constructor
    · rintro ⟨h1, h2⟩; exact ⟨h1.symm, h2.symm⟩
    · rintro ⟨h1, h2⟩; exact ⟨h1.symm, h2.symm⟩
  intro u e he
  rw [hadj] at he
  obtain ⟨e0, he0, rfl⟩ := List.mem_map.mp he
  obtain ⟨e1, he1, hto, hcost⟩ := htwin u e0 he0
  have hto0 : (if u = src ∧ e0.to_ = dest then { e0 with cost := e0.cost + amount } else e0).to_
      = e0.to_ := by split <;> rfl
  have hcost0 : (if u = src ∧ e0.to_ = dest then { e0 with cost := e0.cost + amount } else e0).cost
      = e0.cost + (if u = src ∧ e0.to_ = dest then amount else 0) := by
    split
    · rfl
    · simp
  have hmem : (if e0.to_ = src ∧ e1.to_ = dest then { e1 with cost := e1.cost + amount } else e1)
      ∈ adj graph1 e0.to_ := by
    rw [hadj]
    exact List.mem_map.mpr ⟨e1, he1, rfl⟩
  have hto1 : (if e0.to_ = src ∧ e1.to_ = dest then { e1 with cost := e1.cost + amount }
      else e1).to_ = u := by
    split
    · exact hto
    · exact hto
  have hcost1 : (if e0.to_ = src ∧ e1.to_ = dest then { e1 with cost := e1.cost + amount }
      else e1).cost = e1.cost + (if e0.to_ = src ∧ u = dest then amount else 0) := by
    rw [hto]
    split
    · rfl
    · simp
  rw [hto0]
  refine ⟨_, hmem, hto1, ?_⟩
  rw [hcost0, hcost1]
  simp only [hcond]
  omega

/-- Any number of penalty steps: each adds its amount to the account of the pair it chose. -/
theorem applyPenalties_twinCosts :
    ∀ (ps : List (List Int × Int × Int)) (graph graph1 : Graph) (penalty : Int → Int → Int),
      TwinCosts graph penalty → applyPenalties graph ps = some graph1 →
      TwinCosts graph1 (fun u v => penalty u v + penaltyOn ps u v) := by
  intro ps
  induction ps with
  | nil =>
    intro graph graph1 penalty htwin h
    simp only [applyPenalties, Option.some.injEq] at h
    subst h
    simpa [penaltyOn] using htwin
  | cons p rest ih =>
    intro graph graph1 penalty htwin h
    obtain ⟨path, k, amount⟩ := p
    simp only [applyPenalties] at h
    cases h1 : IncreaseEdgeCost graph path k amount with
    | none => simp [h1] at h
    | some g1 =>
      simp only [h1] at h
      have := ih g1 graph1 _ (increaseEdgeCost_twinCosts h1 htwin) h
      have hfun : (fun u v => penalty u v +
          (if getAt? path k = some u ∧ getAt? path (k + 1) = some v then amount else 0) +
          penaltyOn rest u v) = (fun u v => penalty u v + penaltyOn ((path, k, amount) :: rest) u v) := by
        funext u v
        simp only [penaltyOn]
        omega
      rw [hfun] at this
      exact this

/-- Starting from a symmetric graph, the costs of twin edges differ by the penalties that
the two directions have received. -/
theorem applyPenalties_symmetric {graph graph1 : Graph} {ps : List (List Int × Int × Int)}
    (hsym : Symmetric graph) (h : applyPenalties graph ps = some graph1) :
    TwinCosts graph1 (penaltyOn ps) := by
  have := applyPenalties_twinCosts ps graph graph1 _ (symmetric_twinCosts hsym) h
  simpa using this

/-! ## Conversion to double -/

theorem lostBits_of_lt (fuel n : Nat) (h : n < 2 ^ 53) : lostBits fuel n = 0 := by
  cases fuel with
  | zero => rfl
  | succ f => rw [lostBits, if_pos h]

theorem roundNat_of_lt (n : Nat) (h : n < 2 ^ 53) : roundNat n = n := by
  simp only [roundNat, lostBits_of_lt n n h, pow_zero, Nat.div_one, Nat.mod_one, Nat.mul_zero,
    Nat.mul_one]
  simp

theorem roundNat_two_pow : roundNat (2 ^ 53) = 2 ^ 53 := by
  have h : lostBits (2 ^ 53) (2 ^ 53) = 1 := by
    have : (2 : Nat) ^ 53 = (2 ^ 53 - 1) + 1 := by norm_num
    rw [this, lostBits]
    rw [if_neg (by norm_num), lostBits_of_lt _ _ (by norm_num)]
  simp only [roundNat, h]
  norm_num

/-- Every `long long` from 0 to 2^53 is converted to `double` exactly. -/
theorem toDouble_exact (d : Int) (h0 : 0 ≤ d) (h1 : d ≤ 2 ^ 53) : toDouble d = d := by
  unfold toDouble
  rw [if_pos h0]
  have hn : d.toNat ≤ 2 ^ 53 := by omega
  rcases Nat.lt_or_eq_of_le hn with hlt | heq
  · rw [roundNat_of_lt _ hlt]; omega
  · rw [heq, roundNat_two_pow]; omega

/-! ## Priority queue -/

theorem popMin_eq_none {q : List Pair} : popMin q = none ↔ q = [] := by
  cases q with
  | nil => simp [popMin]
  | cons x xs =>
    cases hxs : popMin xs with
    | none => simp [popMin, hxs]
    | some mr =>
      obtain ⟨m, r⟩ := mr
      simp only [popMin, hxs]
      split <;> simp

theorem popMin_spec : ∀ {q : List Pair} {m : Pair} {r : List Pair}, popMin q = some (m, r) →
    (∀ x, x ∈ q ↔ x = m ∨ x ∈ r) ∧ r.length + 1 = q.length := by
  intro q
  induction q with
  | nil => intro m r h; simp [popMin] at h
  | cons x xs ih =>
    intro m r h
    simp only [popMin] at h
    cases hxs : popMin xs with
    | none =>
      simp only [hxs, Option.some.injEq, Prod.mk.injEq] at h
      obtain ⟨rfl, rfl⟩ := h
      have := popMin_eq_none.mp hxs
      subst this
      simp
    | some mr =>
      obtain ⟨m1, r1⟩ := mr
      obtain ⟨hmem, hlen⟩ := ih hxs
      simp only [hxs] at h
      split at h
      · simp only [Option.some.injEq, Prod.mk.injEq] at h
        obtain ⟨rfl, rfl⟩ := h
        simp
      · simp only [Option.some.injEq, Prod.mk.injEq] at h
        obtain ⟨rfl, rfl⟩ := h
        refine ⟨?_, by simp [← hlen]⟩
        intro y
        simp only [List.mem_cons, hmem]
        tauto

theorem pairLe_total (a b : Pair) : pairLe a b = true ∨ pairLe b a = true := by
  simp only [pairLe, Bool.or_eq_true, Bool.and_eq_true, decide_eq_true_eq]
  omega

theorem pairLe_trans {a b c : Pair} (h1 : pairLe a b = true) (h2 : pairLe b c = true) :
    pairLe a c = true := by
  simp only [pairLe, Bool.or_eq_true, Bool.and_eq_true, decide_eq_true_eq] at h1 h2 ⊢
  omega

/-- The pair that `popMin` takes out is least among the entries of the queue. -/
theorem popMin_least : ∀ {q : List Pair} {m : Pair} {r : List Pair}, popMin q = some (m, r) →
    ∀ x ∈ r, pairLe m x = true := by
  intro q
  induction q with
  | nil => intro m r h; simp [popMin] at h
  | cons x xs ih =>
    intro m r h
    simp only [popMin] at h
    cases hxs : popMin xs with
    | none =>
      simp only [hxs, Option.some.injEq, Prod.mk.injEq] at h
      obtain ⟨rfl, rfl⟩ := h
      simp
    | some mr =>
      obtain ⟨m1, r1⟩ := mr
      obtain ⟨hmem, -⟩ := popMin_spec hxs
      have hleast := ih hxs
      simp only [hxs] at h
      by_cases hle : pairLe x m1 = true
      · rw [if_pos hle] at h
        simp only [Option.some.injEq, Prod.mk.injEq] at h
        obtain ⟨rfl, rfl⟩ := h
        intro y hy
        rcases (hmem y).mp hy with h1 | h1
        · subst h1; exact hle
        · exact pairLe_trans hle (hleast y h1)
      · rw [if_neg hle] at h
        simp only [Option.some.injEq, Prod.mk.injEq] at h
        obtain ⟨rfl, rfl⟩ := h
        intro y hy
        rcases List.mem_cons.mp hy with h1 | h1
        · subst h1
          rcases pairLe_total y m1 with h2 | h2
          · exact absurd h2 hle
          · exact h2
        · exact hleast y h1

/-! ## Sum of the distances -/

theorem sum_toNat_set (xs : List Int) (i : Nat) (old new : Int)
    (hget : xs[i]? = some old) (h0 : 0 ≤ new) (hlt : new < old) :
    ((xs.set i new).map Int.toNat).sum + 1 ≤ (xs.map Int.toNat).sum := by
  induction xs generalizing i with
  | nil => simp at hget
  | cons x rest ih =>
    cases i with
    | zero =>
      simp only [List.getElem?_cons_zero, Option.some.injEq] at hget
      subst hget
      simp only [List.set_cons_zero, List.map_cons, List.sum_cons]
      omega
    | succ j =>
      simp only [List.getElem?_cons_succ] at hget
      have := ih j hget
      simp only [List.set_cons_succ, List.map_cons, List.sum_cons]
      omega

theorem sum_toNat_setAt (xs : List Int) (i : Int) (old new : Int)
    (hget : getAt? xs i = some old) (h0 : 0 ≤ new) (hlt : new < old) :
    ((setAt xs i new).map Int.toNat).sum + 1 ≤ (xs.map Int.toNat).sum := by
  obtain ⟨hi, hget1⟩ := getAt?_eq_some_iff.mp hget
  simp only [setAt, hi, if_true]
  exact sum_toNat_set xs _ old new hget1 h0 hlt

/-! ## The predecessor walk -/

theorem walkBack_neg_one (p : List Int) (k : Nat) : walkBack p k (-1) = some [] := by
  cases k <;> simp [walkBack]

theorem walkBack_cons {p : List Int} {k : Nat} {i : Int} {c : List Int} (hi : i ≠ -1)
    (h : walkBack p k i = some c) :
    ∃ k1 next rest, k = k1 + 1 ∧ getAt? p i = some next ∧ walkBack p k1 next = some rest ∧
      c = i :: rest := by
  cases k with
  | zero => simp [walkBack, hi] at h
  | succ k1 =>
    simp only [walkBack, hi, if_false] at h
    cases hn : getAt? p i with
    | none => simp [hn] at h
    | some next =>
      simp only [hn] at h
      cases hr : walkBack p k1 next with
      | none => simp [hr] at h
      | some rest =>
        simp only [hr, Option.some.injEq] at h
        exact ⟨k1, next, rest, rfl, rfl, hr, h.symm⟩

theorem walkBack_step {p : List Int} {k : Nat} {i next : Int} {rest : List Int} (hi : i ≠ -1)
    (hn : getAt? p i = some next) (hr : walkBack p k next = some rest) :
    walkBack p (k + 1) i = some (i :: rest) := by
  simp [walkBack, hi, hn, hr]

/-- More fuel does not change a finished predecessor walk. -/
theorem walkBack_mono {p : List Int} : ∀ {k : Nat} {i : Int} {c : List Int},
    walkBack p k i = some c → ∀ k1, k ≤ k1 → walkBack p k1 i = some c := by
  intro k
  induction k with
  | zero =>
    intro i c h k1 _
    by_cases hi : i = -1
    · subst hi
      simp only [walkBack, if_true, Option.some.injEq] at h
      rw [walkBack_neg_one, h]
    · simp [walkBack, hi] at h
  | succ k ih =>
    intro i c h k1 hk
    by_cases hi : i = -1
    · subst hi
      rw [walkBack_neg_one] at h
      rw [walkBack_neg_one, h]
    · obtain ⟨k0, next, rest, hk0, hn, hr, rfl⟩ := walkBack_cons hi h
      have hk0' : k0 = k := by omega
      subst hk0'
      obtain ⟨k2, rfl⟩ : ∃ k2, k1 = k2 + 1 := ⟨k1 - 1, by omega⟩
      exact walkBack_step hi hn (ih hr k2 (by omega))

/-- Fuel equal to the number of indices pushed is enough. -/
theorem walkBack_length {p : List Int} : ∀ {k : Nat} {i : Int} {c : List Int},
    walkBack p k i = some c → walkBack p c.length i = some c := by
  intro k
  induction k with
  | zero =>
    intro i c h
    by_cases hi : i = -1
    · subst hi
      rw [walkBack_neg_one] at h
      rw [walkBack_neg_one, h]
    · simp [walkBack, hi] at h
  | succ k ih =>
    intro i c h
    by_cases hi : i = -1
    · subst hi
      rw [walkBack_neg_one] at h
      rw [walkBack_neg_one, h]
    · obtain ⟨k0, next, rest, hk0, hn, hr, rfl⟩ := walkBack_cons hi h
      have hk0' : k0 = k := by omega
      subst hk0'
      exact walkBack_step hi hn (ih hr)

/-- Every index pushed starts a predecessor walk of its own, a shorter one unless it is the first. -/
theorem walkBack_suffix {p : List Int} : ∀ {k : Nat} {i : Int} {c : List Int},
    walkBack p k i = some c → ∀ x ∈ c, ∃ c1, walkBack p k x = some c1 ∧ c1.length ≤ c.length ∧
      (x ≠ i → c1.length < c.length) := by
  intro k
  induction k with
  | zero =>
    intro i c h x hx
    by_cases hi : i = -1
    · subst hi
      rw [walkBack_neg_one] at h
      simp only [Option.some.injEq] at h
      subst h
      simp at hx
    · simp [walkBack, hi] at h
  | succ k ih =>
    intro i c h x hx
    by_cases hi : i = -1
    · subst hi
      rw [walkBack_neg_one] at h
      simp only [Option.some.injEq] at h
      subst h
      simp at hx
    · obtain ⟨k0, next, rest, hk0, hn, hr, rfl⟩ := walkBack_cons hi h
      have hk0' : k0 = k := by omega
      subst hk0'
      by_cases hxi : x = i
      · subst hxi
        exact ⟨_, h, le_refl _, fun hne => absurd rfl hne⟩
      · have hxr : x ∈ rest := by
          rcases List.mem_cons.mp hx with h1 | h1
          · exact absurd h1 hxi
          · exact h1
        obtain ⟨c1, hc1, hle, -⟩ := ih hr x hxr
        exact ⟨c1, walkBack_mono hc1 _ (by omega), by simp; omega, fun _ => by simp; omega⟩

/-- No index is pushed twice. -/
theorem walkBack_nodup {p : List Int} : ∀ {k : Nat} {i : Int} {c : List Int},
    walkBack p k i = some c → c.Nodup := by
  intro k
  induction k with
  | zero =>
    intro i c h
    by_cases hi : i = -1
    · subst hi
      rw [walkBack_neg_one] at h
      simp only [Option.some.injEq] at h
      subst h
      exact List.nodup_nil
    · simp [walkBack, hi] at h
  | succ k ih =>
    intro i c h
    by_cases hi : i = -1
    · subst hi
      rw [walkBack_neg_one] at h
      simp only [Option.some.injEq] at h
      subst h
      exact List.nodup_nil
    · obtain ⟨k0, next, rest, hk0, hn, hr, rfl⟩ := walkBack_cons hi h
      have hk0' : k0 = k := by omega
      subst hk0'
      refine List.nodup_cons.mpr ⟨?_, ih hr⟩
      intro hmem
      obtain ⟨c1, hc1, hle, -⟩ := walkBack_suffix hr i hmem
      have h2 := walkBack_mono hc1 _ (Nat.le_succ _)
      rw [h] at h2
      simp only [Option.some.injEq] at h2
      subst h2
      simp at hle

/-- Every index pushed is an index of `p`. -/
theorem walkBack_range {p : List Int} : ∀ {k : Nat} {i : Int} {c : List Int},
    walkBack p k i = some c → ∀ x ∈ c, 0 ≤ x ∧ x < (p.length : Int) := by
  intro k
  induction k with
  | zero =>
    intro i c h x hx
    by_cases hi : i = -1
    · subst hi
      rw [walkBack_neg_one] at h
      simp only [Option.some.injEq] at h
      subst h
      simp at hx
    · simp [walkBack, hi] at h
  | succ k ih =>
    intro i c h x hx
    by_cases hi : i = -1
    · subst hi
      rw [walkBack_neg_one] at h
      simp only [Option.some.injEq] at h
      subst h
      simp at hx
    · obtain ⟨k0, next, rest, hk0, hn, hr, rfl⟩ := walkBack_cons hi h
      have hk0' : k0 = k := by omega
      subst hk0'
      rcases List.mem_cons.mp hx with h1 | h1
      · subst h1
        exact getAt?_lt hn
      · exact ih hr x h1

/-- A finished predecessor walk fits in fuel `p.size()`. -/
theorem walkBack_fuel {p : List Int} {k : Nat} {i : Int} {c : List Int}
    (h : walkBack p k i = some c) : walkBack p p.length i = some c := by
  refine walkBack_mono (walkBack_length h) _ ?_
  have hnd := walkBack_nodup h
  have hr := walkBack_range h
  have hsub : c.map Int.toNat ⊆ List.range p.length := by
    intro y hy
    obtain ⟨x, hx, rfl⟩ := List.mem_map.mp hy
    have := hr x hx
    exact List.mem_range.mpr (by omega)
  have hnd2 : (c.map Int.toNat).Nodup := by
    refine List.Nodup.map_on ?_ hnd
    intro x hx y hy hxy
    have := hr x hx
    have := hr y hy
    omega
  have := (List.subperm_of_subset hnd2 hsub).length_le
  simpa using this

theorem walkBack_setAt_of_not_mem {p : List Int} {j x : Int} : ∀ {k : Nat} {i : Int}
    {c : List Int}, walkBack p k i = some c → j ∉ c → walkBack (setAt p j x) k i = some c := by
  intro k
  induction k with
  | zero =>
    intro i c h _
    by_cases hi : i = -1
    · subst hi
      rw [walkBack_neg_one] at h
      rw [walkBack_neg_one, h]
    · simp [walkBack, hi] at h
  | succ k ih =>
    intro i c h hj
    by_cases hi : i = -1
    · subst hi
      rw [walkBack_neg_one] at h
      rw [walkBack_neg_one, h]
    · obtain ⟨k0, next, rest, hk0, hn, hr, rfl⟩ := walkBack_cons hi h
      have hk0' : k0 = k := by omega
      subst hk0'
      have hji : j ≠ i := fun h => hj (by simp [h])
      have hjr : j ∉ rest := fun h => hj (by simp [h])
      exact walkBack_step hi (by rw [getAt?_setAt_ne x hji]; exact hn) (ih hr hjr)

theorem walkBack_reroute {p : List Int} {j x : Int}
    (hj : ∃ k c, walkBack (setAt p j x) k j = some c) : ∀ {k : Nat} {i : Int} {c : List Int},
    walkBack p k i = some c → ∃ k1 c1, walkBack (setAt p j x) k1 i = some c1 := by
  intro k
  induction k with
  | zero =>
    intro i c h
    by_cases hi : i = -1
    · subst hi
      exact ⟨0, [], walkBack_neg_one _ _⟩
    · simp [walkBack, hi] at h
  | succ k ih =>
    intro i c h
    by_cases hi : i = -1
    · subst hi
      exact ⟨0, [], walkBack_neg_one _ _⟩
    · by_cases hji : j = i
      · subst hji
        exact hj
      · obtain ⟨k0, next, rest, hk0, hn, hr, rfl⟩ := walkBack_cons hi h
        have hk0' : k0 = k := by omega
        subst hk0'
        obtain ⟨k1, c1, h1⟩ := ih hr
        exact ⟨k1 + 1, _, walkBack_step hi (by rw [getAt?_setAt_ne x hji]; exact hn) h1⟩

/-! ## Recorded distances -/

theorem INF_pos : (0 : Int) < INF := by decide

theorem distAt_of_getAt? {ds : List Int} {v x : Int} (h : getAt? ds v = some x) :
    distAt ds v = x := by
  simp [distAt, h]

theorem distAt_lt {ds : List Int} {v : Int} (h : distAt ds v < INF) :
    getAt? ds v = some (distAt ds v) := by
  unfold distAt at h ⊢
  cases hg : getAt? ds v with
  | none => simp [hg] at h
  | some x => simp

theorem distAt_setAt {ds : List Int} {j : Int} {old : Int} (x v : Int)
    (h : getAt? ds j = some old) :
    distAt (setAt ds j x) v = if j = v then x else distAt ds v := by
  obtain ⟨h0, h1⟩ := getAt?_lt h
  unfold distAt
  rw [getAt?_setAt]
  by_cases hjv : j = v
  · subst hjv
    simp [h0, h1]
  · simp [hjv]

/-! ## Realized paths -/

theorem Realized.lower {graph : Graph} {s : Int} {ds ds1 : List Int}
    (hle : ∀ v, distAt ds1 v ≤ distAt ds v) {v c : Int} {vs : List Int}
    (h : Realized graph s ds v c vs) : Realized graph s ds1 v c vs := by
  induction h with
  | nil h0 => exact Realized.nil (le_trans (hle s) h0)
  | snoc e _ he hnot hd ih => exact Realized.snoc e ih he hnot (le_trans (hle _) hd)

theorem Realized.dom {graph : Graph} (hc : NonNegCosts graph) {s : Int} {ds : List Int}
    {v c : Int} {vs : List Int} (h : Realized graph s ds v c vs) :
    ∀ x ∈ vs, distAt ds x ≤ c := by
  induction h with
  | nil h0 =>
    intro x hx
    simp only [List.mem_singleton] at hx
    subst hx
    exact h0
  | snoc e _ he hnot hd ih =>
    intro x hx
    rcases List.mem_cons.mp hx with h1 | h1
    · subst h1
      exact hd
    · have := ih x h1
      have := adj_nonneg hc he
      omega

theorem Realized.simple {graph : Graph} {s : Int} {ds : List Int}
    {v c : Int} {vs : List Int} (h : Realized graph s ds v c vs) :
    SimplePath graph s v c vs := by
  induction h with
  | nil _ => exact SimplePath.nil
  | snoc e _ he hnot _ ih => exact SimplePath.snoc e ih he hnot

/-! ## The invariant is kept by every relaxation -/

/-- Along a predecessor walk the recorded distances do not grow. -/
theorem Inv.chain_le {graph : Graph} (hc : NonNegCosts graph) {s : Int} {st : DState}
    (hinv : Inv graph s st) : ∀ (k : Nat) (v : Int) (c : List Int),
    walkBack st.p k v = some c → distAt st.distances v < INF →
    ∀ x ∈ c, distAt st.distances x ≤ distAt st.distances v := by
  intro k
  induction k with
  | zero =>
    intro v c h _ x hx
    by_cases hv : v = -1
    · subst hv
      rw [walkBack_neg_one] at h
      simp only [Option.some.injEq] at h
      subst h
      simp at hx
    · simp [walkBack, hv] at h
  | succ k ih =>
    intro v c h hlab x hx
    by_cases hv : v = -1
    · subst hv
      rw [walkBack_neg_one] at h
      simp only [Option.some.injEq] at h
      subst h
      simp at hx
    · obtain ⟨k0, next, rest, hk0, hn, hr, rfl⟩ := walkBack_cons hv h
      have hk0' : k0 = k := by omega
      subst hk0'
      rcases List.mem_cons.mp hx with h1 | h1
      · subst h1
        exact le_refl _
      · by_cases hvs : v = s
        · subst hvs
          rw [hinv.srcP] at hn
          simp only [Option.some.injEq] at hn
          subst hn
          rw [walkBack_neg_one] at hr
          simp only [Option.some.injEq] at hr
          subst hr
          simp at h1
        · obtain ⟨u, e, hu, he, -, hle⟩ := hinv.pred v hvs hlab
          rw [hn] at hu
          simp only [Option.some.injEq] at hu
          subst hu
          have hcost := adj_nonneg hc he
          have := ih next rest hr (by omega) x h1
          omega

theorem relaxEdge_eq {src : Int} {w : DState} {e : Edge} {dfrom dto : Int}
    (h1 : getAt? w.distances src = some dfrom) (h2 : getAt? w.distances e.to_ = some dto) :
    relaxEdge src w e = some (if dfrom + e.cost < dto then
      { distances := setAt w.distances e.to_ (dfrom + e.cost)
        p := setAt w.p e.to_ src
        q := (toDouble (dfrom + e.cost), e.to_) :: w.q } else w) := by
  simp only [relaxEdge, h1, h2]
  split <;> rfl

/-- A successful relaxation keeps the invariant. -/
theorem Inv.update {graph : Graph} (hc : NonNegCosts graph)
    {s : Int} {st : DState} (hinv : Inv graph s st) {src : Int} {e : Edge} {dfrom dto : Int}
    (he : e ∈ adj graph src) (h1 : getAt? st.distances src = some dfrom) (hlab : dfrom < INF)
    (h2 : getAt? st.distances e.to_ = some dto) (hlt : dfrom + e.cost < dto) :
    Inv graph s
      { distances := setAt st.distances e.to_ (dfrom + e.cost)
        p := setAt st.p e.to_ src
        q := (toDouble (dfrom + e.cost), e.to_) :: st.q } := by
  have hcost := adj_nonneg hc he
  have hd0 := (hinv.range _ _ h1).1
  have hdto := (hinv.range _ _ h2).2
  obtain ⟨ht0, ht1⟩ := getAt?_lt h2
  have hts : e.to_ ≠ s := by
    intro h
    rw [h, hinv.src0] at h2
    simp only [Option.some.injEq] at h2
    omega
  have htsrc : e.to_ ≠ src := by
    intro h
    rw [h, h1] at h2
    simp only [Option.some.injEq] at h2
    omega
  have hdsrc : distAt st.distances src = dfrom := distAt_of_getAt? h1
  have hdt : distAt st.distances e.to_ = dto := distAt_of_getAt? h2
  have hdist : ∀ v, distAt (setAt st.distances e.to_ (dfrom + e.cost)) v =
      if e.to_ = v then dfrom + e.cost else distAt st.distances v :=
    fun v => distAt_setAt _ v h2
  have hmono : ∀ v, distAt (setAt st.distances e.to_ (dfrom + e.cost)) v ≤
      distAt st.distances v := by
    intro v
    rw [hdist]
    split
    · rename_i h; rw [← h, hdt]; omega
    · exact le_refl _
  have htp : e.to_ < (st.p.length : Int) := by rw [hinv.lenP, ← hinv.lenD]; exact ht1
  refine ⟨?_, ?_, ?_, ?_, ?_, ?_, ?_, ?_, ?_⟩
  · simp [length_setAt, hinv.lenD]
  · simp [length_setAt, hinv.lenP]
  · intro v d hv
    simp only [getAt?_setAt] at hv
    split at hv
    · simp only [Option.some.injEq] at hv
      omega
    · exact hinv.range v d hv
  · show getAt? (setAt st.distances e.to_ _) s = some 0
    rw [getAt?_setAt_ne _ hts]
    exact hinv.src0
  · show getAt? (setAt st.p e.to_ _) s = some (-1)
    rw [getAt?_setAt_ne _ hts]
    exact hinv.srcP
  · intro x hx
    show distAt (setAt st.distances e.to_ _) x.2 < INF
    rcases List.mem_cons.mp hx with h | h
    · subst h
      rw [hdist]
      simp only [if_true]
      omega
    · exact lt_of_le_of_lt (hmono _) (hinv.queue x h)
  · intro v hvs hv
    show ∃ u e1, getAt? (setAt st.p e.to_ src) v = some u ∧ e1 ∈ adj graph u ∧ e1.to_ = v ∧
      distAt (setAt st.distances e.to_ _) u + e1.cost ≤ distAt (setAt st.distances e.to_ _) v
    change distAt (setAt st.distances e.to_ _) v < INF at hv
    by_cases hvt : e.to_ = v
    · subst hvt
      refine ⟨src, e, getAt?_setAt_self _ ht0 htp, he, rfl, ?_⟩
      rw [hdist, hdist, if_neg htsrc, if_pos rfl, hdsrc]
    · rw [hdist, if_neg hvt] at hv
      obtain ⟨u, e1, hu, he1, hto, hle⟩ := hinv.pred v hvs hv
      refine ⟨u, e1, ?_, he1, hto, ?_⟩
      · rw [getAt?_setAt_ne _ hvt]; exact hu
      · have := hmono u
        rw [hdist v, if_neg hvt]
        omega
  · -- predecessor walks
    obtain ⟨ks, cs, hcs⟩ := hinv.back src (by rw [hdsrc]; exact hlab)
    have hnot : e.to_ ∉ cs := by
      intro hmem
      have := hinv.chain_le hc ks src cs hcs (by rw [hdsrc]; exact hlab) _ hmem
      omega
    have hnew : ∃ k c, walkBack (setAt st.p e.to_ src) k e.to_ = some c := by
      refine ⟨ks + 1, e.to_ :: cs, walkBack_step (by omega) (getAt?_setAt_self _ ht0 htp) ?_⟩
      exact walkBack_setAt_of_not_mem hcs hnot
    intro v hv
    show ∃ k c, walkBack (setAt st.p e.to_ src) k v = some c
    change distAt (setAt st.distances e.to_ _) v < INF at hv
    by_cases hvt : e.to_ = v
    · subst hvt; exact hnew
    · rw [hdist, if_neg hvt] at hv
      obtain ⟨k, c, hkc⟩ := hinv.back v hv
      exact walkBack_reroute hnew hkc
  · intro v hv
    show ∃ vs, Realized graph s (setAt st.distances e.to_ _) v
      (distAt (setAt st.distances e.to_ _) v) vs
    change distAt (setAt st.distances e.to_ _) v < INF at hv
    by_cases hvt : e.to_ = v
    · subst hvt
      obtain ⟨vs, hvs⟩ := hinv.real src (by rw [hdsrc]; exact hlab)
      rw [hdsrc] at hvs
      have hnot : e.to_ ∉ vs := by
        intro hmem
        have := hvs.dom hc _ hmem
        omega
      refine ⟨e.to_ :: vs, ?_⟩
      rw [hdist, if_pos rfl]
      refine Realized.snoc e (hvs.lower hmono) he hnot ?_
      rw [hdist, if_pos rfl]
    · rw [hdist, if_neg hvt] at hv
      obtain ⟨vs, hvs⟩ := hinv.real v hv
      refine ⟨vs, ?_⟩
      rw [hdist, if_neg hvt]
      exact hvs.lower hmono

/-- One relaxation from a reached vertex: it is defined, keeps the invariant, does not raise
the iteration bound nor any distance, and leaves the edge relaxed. -/
theorem relaxEdge_inv {graph : Graph} (hv : ValidTargets graph) (hc : NonNegCosts graph)
    {s : Int} {st : DState} (hinv : Inv graph s st) {src : Int} {e : Edge} {dfrom : Int}
    (he : e ∈ adj graph src) (h1 : getAt? st.distances src = some dfrom) (hlab : dfrom < INF) :
    ∃ st1, relaxEdge src st e = some st1 ∧ Inv graph s st1 ∧ loopBound st1 ≤ loopBound st ∧
      (∀ v, distAt st1.distances v ≤ distAt st.distances v) ∧
      getAt? st1.distances src = some dfrom ∧
      distAt st1.distances e.to_ ≤ dfrom + e.cost ∧
      (∀ x ∈ st.q, x ∈ st1.q) := by
  obtain ⟨ht0, ht1⟩ := adj_valid hv he
  obtain ⟨dto, h2⟩ := getAt?_of_lt (l := st.distances) ht0 (by rw [hinv.lenD]; exact ht1)
  have hcost := adj_nonneg hc he
  have hd0 := (hinv.range _ _ h1).1
  rw [relaxEdge_eq h1 h2]
  by_cases hlt : dfrom + e.cost < dto
  · rw [if_pos hlt]
    have htsrc : e.to_ ≠ src := by
      intro h
      rw [h, h1] at h2
      simp only [Option.some.injEq] at h2
      omega
    refine ⟨_, rfl, hinv.update hc he h1 hlab h2 hlt, ?_, ?_, ?_, ?_, ?_⟩
    · have := sum_toNat_setAt st.distances e.to_ dto (dfrom + e.cost) h2 (by omega) hlt
      simp only [loopBound, List.length_cons]
      omega
    · intro v
      show distAt (setAt st.distances e.to_ _) v ≤ _
      rw [distAt_setAt _ v h2]
      split
      · rename_i h; rw [← h, distAt_of_getAt? h2]; omega
      · exact le_refl _
    · show getAt? (setAt st.distances e.to_ _) src = some dfrom
      rw [getAt?_setAt_ne _ htsrc]; exact h1
    · show distAt (setAt st.distances e.to_ _) e.to_ ≤ _
      rw [distAt_setAt _ _ h2, if_pos rfl]
    · intro x hx
      exact List.mem_cons_of_mem _ hx
  · rw [if_neg hlt]
    refine ⟨_, rfl, hinv, le_refl _, fun v => le_refl _, h1, ?_, fun x hx => hx⟩
    rw [distAt_of_getAt? h2]
    omega

/-- The inner `for` loop from a reached vertex. -/
theorem relaxAll_inv {graph : Graph} (hv : ValidTargets graph) (hc : NonNegCosts graph)
    {s : Int} {src : Int} {dfrom : Int} (hlab : dfrom < INF) :
    ∀ (row : List Edge) (st : DState), Inv graph s st → (∀ e ∈ row, e ∈ adj graph src) →
      getAt? st.distances src = some dfrom →
      ∃ st1, relaxAll src st row = some st1 ∧ Inv graph s st1 ∧ loopBound st1 ≤ loopBound st ∧
        (∀ v, distAt st1.distances v ≤ distAt st.distances v) ∧
        getAt? st1.distances src = some dfrom ∧
        (∀ e ∈ row, distAt st1.distances e.to_ ≤ dfrom + e.cost) ∧
        (∀ x ∈ st.q, x ∈ st1.q) := by
  intro row
  induction row with
  | nil =>
    intro st hinv _ h1
    exact ⟨st, rfl, hinv, le_refl _, fun v => le_refl _, h1, by simp, fun x hx => hx⟩
  | cons e rest ih =>
    intro st hinv hrow h1
    obtain ⟨st1, hst1, hinv1, hb1, hm1, hs1, hr1, hq1⟩ :=
      relaxEdge_inv hv hc hinv (hrow e (by simp)) h1 hlab
    obtain ⟨st2, hst2, hinv2, hb2, hm2, hs2, hr2, hq2⟩ :=
      ih st1 hinv1 (fun e1 he1 => hrow e1 (by simp [he1])) hs1
    refine ⟨st2, by simp [relaxAll, hst1, hst2], hinv2, le_trans hb2 hb1,
      fun v => le_trans (hm2 v) (hm1 v), hs2, ?_, fun x hx => hq2 x (hq1 x hx)⟩
    intro e1 he1
    rcases List.mem_cons.mp he1 with h | h
    · subst h
      exact le_trans (hm2 _) hr1
    · exact hr2 e1 h

/-- The invariant survives the removal of queue entries. -/
theorem Inv.dropQueue {graph : Graph} {s : Int} {st : DState} (hinv : Inv graph s st)
    {q1 : List Pair} (hsub : ∀ x ∈ q1, x ∈ st.q) : Inv graph s { st with q := q1 } :=
  ⟨hinv.lenD, hinv.lenP, hinv.range, hinv.src0, hinv.srcP,
    fun x hx => hinv.queue x (hsub x hx), hinv.pred, hinv.back, hinv.real⟩

/-- One iteration of the `while` loop: defined, keeps the invariant, lowers the bound. -/
theorem step_inv {graph : Graph} (hv : ValidTargets graph) (hc : NonNegCosts graph)
    {s : Int} {st : DState} (hinv : Inv graph s st) (hq : st.q ≠ []) :
    ∃ st1, step graph st = some st1 ∧ Inv graph s st1 ∧ loopBound st1 < loopBound st := by
  cases hpop : popMin st.q with
  | none => exact absurd (popMin_eq_none.mp hpop) hq
  | some mr =>
    obtain ⟨⟨key, src⟩, q1⟩ := mr
    obtain ⟨hmem, hlen⟩ := popMin_spec hpop
    have hlab := hinv.queue (key, src) ((hmem _).mpr (Or.inl rfl))
    have h1 := distAt_lt hlab
    have hinv1 : Inv graph s { st with q := q1 } :=
      hinv.dropQueue (fun x hx => (hmem x).mpr (Or.inr hx))
    have hb1 : loopBound { st with q := q1 } + 1 = loopBound st := by
      simp only [loopBound]
      omega
    simp only [step, hpop, h1]
    by_cases hskip : distAt st.distances src < key
    · rw [if_pos hskip]
      exact ⟨_, rfl, hinv1, by omega⟩
    · rw [if_neg hskip]
      obtain ⟨hs0, hs1⟩ := getAt?_lt h1
      obtain ⟨row, hrow⟩ := getAt?_of_lt (l := graph) hs0 (by rw [← hinv.lenD]; exact hs1)
      simp only [hrow]
      obtain ⟨st1, hst1, hinv2, hb2, -⟩ := relaxAll_inv hv hc hlab row _ hinv1
        (fun e he => by rw [adj_eq_of_getAt? hrow]; exact he) h1
      exact ⟨st1, hst1, hinv2, by omega⟩

/-- The `while` loop ends: with fuel for the bound it returns a state with an empty queue, and
any property that every iteration keeps holds of that state. -/
theorem loop_ends {graph : Graph} (P : DState → Prop)
    (hstep : ∀ st, P st → st.q ≠ [] →
      ∃ st1, step graph st = some st1 ∧ P st1 ∧ loopBound st1 < loopBound st) :
    ∀ (fuel : Nat) (st : DState), P st → loopBound st ≤ fuel + 1 →
      ∃ st1, loop graph fuel st = some st1 ∧ st1.q = [] ∧ P st1 := by
  intro fuel
  induction fuel with
  | zero =>
    intro st hP hb
    have hq : st.q = [] := by
      simp only [loopBound] at hb
      exact List.length_eq_zero.mp (by omega)
    exact ⟨st, by simp [loop, hq], hq, hP⟩
  | succ fuel ih =>
    intro st hP hb
    by_cases hq : st.q = []
    · exact ⟨st, by simp [loop, hq], hq, hP⟩
    · obtain ⟨st1, hst1, hP1, hb1⟩ := hstep st hP hq
      obtain ⟨st2, hst2, hq2, hP2⟩ := ih st1 hP1 (by omega)
      exact ⟨st2, by simp [loop, hq, hst1, hst2], hq2, hP2⟩

/-- More fuel does not change the result of a loop that has ended. -/
theorem loop_mono {graph : Graph} : ∀ (fuel : Nat) (st st1 : DState),
    loop graph fuel st = some st1 → ∀ fuel1, fuel ≤ fuel1 → loop graph fuel1 st = some st1 := by
  intro fuel
  induction fuel with
  | zero =>
    intro st st1 h fuel1 _
    by_cases hq : st.q = []
    · simp only [loop, hq, if_true] at h
      cases fuel1 <;> simp [loop, hq, h]
    · simp [loop, hq] at h
  | succ fuel ih =>
    intro st st1 h fuel1 hle
    obtain ⟨f, rfl⟩ : ∃ f, fuel1 = f + 1 := ⟨fuel1 - 1, by omega⟩
    by_cases hq : st.q = []
    · simp only [loop, hq, if_true] at h ⊢
      exact h
    · simp only [loop, hq, if_false] at h ⊢
      cases hs : step graph st with
      | none => simp [hs] at h
      | some st2 =>
        simp only [hs] at h ⊢
        exact ih st2 st1 h f (by omega)

/-! ## The run of `Dijkstra` from an all-`INF` array -/

theorem distAt_replicate (n : Nat) (v : Int) : distAt (List.replicate n INF) v = INF := by
  unfold distAt
  cases h : getAt? (List.replicate n INF) v with
  | none => rfl
  | some x => simp [List.eq_of_mem_replicate (getAt?_mem h)]

theorem toDouble_zero : toDouble 0 = 0 := toDouble_exact 0 (le_refl _) (by norm_num)

theorem initState_eq {n : Nat} {s : Int} (h0 : 0 ≤ s) (h1 : s < (n : Int)) :
    initState (List.replicate n INF) s = some
      { distances := setAt (List.replicate n INF) s 0
        p := List.replicate n (-1)
        q := [(0, s)] } := by
  simp [initState, getAt?_replicate h0 h1, toDouble_zero]

theorem distAt_init {n : Nat} {s : Int} (h0 : 0 ≤ s) (h1 : s < (n : Int)) (v : Int) :
    distAt (setAt (List.replicate n INF) s 0) v = if s = v then 0 else INF := by
  rw [distAt_setAt _ v (getAt?_replicate h0 h1), distAt_replicate]

/-- The invariant holds when the `while` loop is entered. -/
theorem Inv.init (graph : Graph) {s : Int} (h0 : 0 ≤ s) (h1 : s < (graph.length : Int)) :
    Inv graph s
      { distances := setAt (List.replicate graph.length INF) s 0
        p := List.replicate graph.length (-1)
        q := [(0, s)] } := by
  have hdist := distAt_init h0 h1
  have hlab : ∀ v, distAt (setAt (List.replicate graph.length INF) s 0) v < INF → v = s := by
    intro v hv
    rw [hdist] at hv
    by_contra hne
    rw [if_neg (fun h => hne h.symm)] at hv
    exact lt_irrefl _ hv
  have hp : getAt? (List.replicate graph.length (-1 : Int)) s = some (-1) :=
    getAt?_replicate h0 h1
  refine ⟨by simp [length_setAt], by simp, ?_, ?_, hp, ?_, ?_, ?_, ?_⟩
  · intro v d hv
    simp only [getAt?_setAt] at hv
    split at hv
    · simp only [Option.some.injEq] at hv
      subst hv
      exact ⟨le_refl _, le_of_lt INF_pos⟩
    · have := List.eq_of_mem_replicate (getAt?_mem hv)
      subst this
      exact ⟨le_of_lt INF_pos, le_refl _⟩
  · exact getAt?_setAt_self _ h0 (by simpa using h1)
  · intro x hx
    simp only [List.mem_singleton] at hx
    subst hx
    show distAt _ s < INF
    rw [hdist, if_pos rfl]
    exact INF_pos
  · intro v hvs hv
    exact absurd (hlab v hv) hvs
  · intro v hv
    have := hlab v hv
    subst this
    exact ⟨1, [v], walkBack_step (by omega) hp (walkBack_neg_one _ _)⟩
  · intro v hv
    have := hlab v hv
    subst this
    refine ⟨[v], ?_⟩
    show Realized graph v _ v (distAt _ v) [v]
    rw [hdist, if_pos rfl]
    refine Realized.nil ?_
    rw [hdist, if_pos rfl]

/-- The `while` loop of `Dijkstra` ends, for every property that each of its iterations keeps. -/
theorem dijkstraRun_ends (graph : Graph) {s : Int} (h0 : 0 ≤ s) (h1 : s < (graph.length : Int))
    (P : DState → Prop)
    (hinit : P { distances := setAt (List.replicate graph.length INF) s 0
                 p := List.replicate graph.length (-1)
                 q := [(0, s)] })
    (hstep : ∀ st, P st → st.q ≠ [] →
      ∃ st1, step graph st = some st1 ∧ P st1 ∧ loopBound st1 < loopBound st) :
    ∃ st, DijkstraRun graph (List.replicate graph.length INF) s = some st ∧ st.q = [] ∧ P st := by
  unfold DijkstraRun
  rw [initState_eq h0 h1]
  exact loop_ends P hstep _ _ hinit (Nat.le_succ _)

/-- The run of `Dijkstra` ends in a state with an empty queue that satisfies the invariant. -/
theorem dijkstraRun_inv {graph : Graph} (hv : ValidTargets graph) (hc : NonNegCosts graph)
    {s : Int} (h0 : 0 ≤ s) (h1 : s < (graph.length : Int)) :
    ∃ st, DijkstraRun graph (List.replicate graph.length INF) s = some st ∧ st.q = [] ∧
      Inv graph s st :=
  dijkstraRun_ends graph h0 h1 (Inv graph s) (Inv.init graph h0 h1)
    (fun _ hinv hq => step_inv hv hc hinv hq)

/-! ## Reconstruction of the path -/

/-- Shape of a predecessor walk that starts at a reached vertex: it starts there, ends at the
source, and every index is followed by a vertex that has an edge to it. -/
theorem Inv.chain_shape {graph : Graph} (hc : NonNegCosts graph) {s : Int} {st : DState}
    (hinv : Inv graph s st) : ∀ (k : Nat) (v : Int) (c : List Int),
    walkBack st.p k v = some c → distAt st.distances v < INF →
    c.head? = some v ∧ c.getLast? = some s ∧
      List.Chain' (fun a b => ∃ e ∈ adj graph b, e.to_ = a) c := by
  intro k
  induction k with
  | zero =>
    intro v c h hlab
    have hv0 := (getAt?_lt (distAt_lt hlab)).1
    simp [walkBack, show v ≠ -1 by omega] at h
  | succ k ih =>
    intro v c h hlab
    have hv0 := (getAt?_lt (distAt_lt hlab)).1
    have hv : v ≠ -1 := by omega
    obtain ⟨k0, next, rest, hk0, hn, hr, rfl⟩ := walkBack_cons hv h
    have hk0' : k0 = k := by omega
    subst hk0'
    by_cases hvs : v = s
    · subst hvs
      rw [hinv.srcP] at hn
      simp only [Option.some.injEq] at hn
      subst hn
      rw [walkBack_neg_one] at hr
      simp only [Option.some.injEq] at hr
      subst hr
      simp
    · obtain ⟨u, e, hu, he, hto, hle⟩ := hinv.pred v hvs hlab
      rw [hn] at hu
      simp only [Option.some.injEq] at hu
      subst hu
      have hcost := adj_nonneg hc he
      obtain ⟨hhead, hlast, hchain⟩ := ih next rest hr (by omega)
      obtain ⟨r0, rest1, rfl⟩ : ∃ r0 rest1, rest = r0 :: rest1 := by
        cases rest with
        | nil => simp at hhead
        | cons r0 rest1 => exact ⟨r0, rest1, rfl⟩
      simp only [List.head?_cons, Option.some.injEq] at hhead
      subst hhead
      refine ⟨rfl, ?_, ?_⟩
      · rw [List.getLast?_cons_cons]; exact hlast
      · exact List.Chain'.cons ⟨e, he, hto⟩ hchain

/-- What `Dijkstra` returns, in terms of the final state of its loop. -/
theorem dijkstra_of_run {graph : Graph} {ds : List Int} {s t : Int}
    {st : DState} (hrun : DijkstraRun graph ds s = some st) (hinv : Inv graph s st)
    (ht0 : 0 ≤ t) (ht1 : t < (graph.length : Int)) :
    (distAt st.distances t = INF ∧ Dijkstra graph ds s t [] = some []) ∨
    (distAt st.distances t < INF ∧ ∃ k c, walkBack st.p k t = some c ∧
      Dijkstra graph ds s t [] = some c.reverse) := by
  obtain ⟨dt, hdt⟩ := getAt?_of_lt (l := st.distances) ht0 (by rw [hinv.lenD]; exact ht1)
  have hdist := distAt_of_getAt? hdt
  by_cases hinf : dt = INF
  · left
    exact ⟨by rw [hdist, hinf], by simp [Dijkstra, hrun, hdt, hinf]⟩
  · right
    have hlab : distAt st.distances t < INF := by
      have := (hinv.range _ _ hdt).2
      rw [hdist]
      omega
    obtain ⟨k, c, hkc⟩ := hinv.back t hlab
    refine ⟨hlab, k, c, hkc, ?_⟩
    simp [Dijkstra, hrun, hdt, hinf, walkBack_fuel hkc]

/-- Path returned by `Dijkstra` on a graph with valid targets and non-negative costs from an
all-`INF` array: it is defined, and when it is not empty it starts at the source, ends at the
target and follows edges of the graph. -/
theorem dijkstra_wellformed {graph : Graph} (hv : ValidTargets graph) (hc : NonNegCosts graph)
    {s t : Int} (hs0 : 0 ≤ s) (hs1 : s < (graph.length : Int))
    (ht0 : 0 ≤ t) (ht1 : t < (graph.length : Int)) :
    ∃ path, Dijkstra graph (List.replicate graph.length INF) s t [] = some path ∧
      (path ≠ [] → path.head? = some s ∧ path.getLast? = some t ∧
        List.Chain' (fun a b => ∃ e ∈ adj graph a, e.to_ = b) path) := by
  obtain ⟨st, hrun, -, hinv⟩ := dijkstraRun_inv hv hc hs0 hs1
  rcases dijkstra_of_run hrun hinv ht0 ht1 with ⟨-, hd⟩ | ⟨hlab, k, c, hkc, hd⟩
  · exact ⟨[], hd, fun h => absurd rfl h⟩
  · refine ⟨c.reverse, hd, fun _ => ?_⟩
    obtain ⟨hhead, hlast, hchain⟩ := hinv.chain_shape hc k t c hkc hlab
    refine ⟨by rw [List.head?_reverse]; exact hlast, by rw [List.getLast?_reverse]; exact hhead, ?_⟩
    rw [List.chain'_reverse]
    exact hchain

/-! ## Exact keys: every reached vertex stays settled -/

theorem Inv.distAt_le {graph : Graph} {s : Int} {st : DState} (hinv : Inv graph s st) (v : Int) :
    distAt st.distances v ≤ INF := by
  unfold distAt
  cases h : getAt? st.distances v with
  | none => exact le_refl _
  | some x => exact (hinv.range v x h).2

theorem Inv.distAt_nonneg {graph : Graph} {s : Int} {st : DState} (hinv : Inv graph s st)
    (v : Int) : 0 ≤ distAt st.distances v := by
  unfold distAt
  cases h : getAt? st.distances v with
  | none => exact le_of_lt INF_pos
  | some x => exact (hinv.range v x h).1

/-- A distance that improves on a recorded one is the cost of a simple path. -/
theorem Inv.candidate_simple {graph : Graph} (hc : NonNegCosts graph) {s : Int} {st : DState}
    (hinv : Inv graph s st) {src : Int} {e : Edge} (he : e ∈ adj graph src)
    (hlab : distAt st.distances src < INF)
    (hlt : distAt st.distances src + e.cost < distAt st.distances e.to_) :
    ∃ vs, SimplePath graph s e.to_ (distAt st.distances src + e.cost) vs := by
  obtain ⟨vs, hvs⟩ := hinv.real src hlab
  have hcost := adj_nonneg hc he
  have hnot : e.to_ ∉ vs := by
    intro hmem
    have := hvs.dom hc _ hmem
    omega
  exact ⟨_, SimplePath.snoc e hvs.simple he hnot⟩

theorem relaxEdge_pending {graph : Graph} (hv : ValidTargets graph) (hc : NonNegCosts graph)
    {s : Int} (hexact : SimplePathCostsAtMost graph s (2 ^ 53))
    {st : DState} (hinv : Inv graph s st) {src : Int} {e : Edge} {dfrom : Int}
    (he : e ∈ adj graph src) (h1 : getAt? st.distances src = some dfrom) (hlab : dfrom < INF)
    (hpend : PendingExcept graph src st) {st1 : DState} (hst1 : relaxEdge src st e = some st1) :
    PendingExcept graph src st1 := by
  obtain ⟨ht0, ht1⟩ := adj_valid hv he
  obtain ⟨dto, h2⟩ := getAt?_of_lt (l := st.distances) ht0 (by rw [hinv.lenD]; exact ht1)
  have hcost := adj_nonneg hc he
  have hd0 := (hinv.range _ _ h1).1
  have hdsrc : distAt st.distances src = dfrom := distAt_of_getAt? h1
  have hdt : distAt st.distances e.to_ = dto := distAt_of_getAt? h2
  rw [relaxEdge_eq h1 h2] at hst1
  by_cases hlt : dfrom + e.cost < dto
  · rw [if_pos hlt] at hst1
    simp only [Option.some.injEq] at hst1
    subst hst1
    obtain ⟨vs, hsimple⟩ := hinv.candidate_simple hc he (by rw [hdsrc]; exact hlab)
      (by rw [hdsrc, hdt]; exact hlt)
    rw [hdsrc] at hsimple
    have hkey : toDouble (dfrom + e.cost) = dfrom + e.cost :=
      toDouble_exact _ (by omega) (hexact _ _ _ hsimple)
    have hdist : ∀ v, distAt (setAt st.distances e.to_ (dfrom + e.cost)) v =
        if e.to_ = v then dfrom + e.cost else distAt st.distances v :=
      fun v => distAt_setAt _ v h2
    have hmono : ∀ v, distAt (setAt st.distances e.to_ (dfrom + e.cost)) v ≤
        distAt st.distances v := by
      intro v
      rw [hdist]
      split
      · rename_i h; rw [← h, hdt]; omega
      · exact le_refl _
    intro v hvsrc hvlab
    change distAt (setAt st.distances e.to_ _) v < INF at hvlab
    by_cases hvt : e.to_ = v
    · subst hvt
      left
      refine ⟨dfrom + e.cost, ?_, ?_⟩
      · show (dfrom + e.cost, e.to_) ∈ (toDouble (dfrom + e.cost), e.to_) :: st.q
        rw [hkey]
        exact List.mem_cons_self _ _
      · show _ ≤ distAt (setAt st.distances e.to_ _) e.to_
        rw [hdist, if_pos rfl]
    · rw [hdist, if_neg hvt] at hvlab
      rcases hpend v hvsrc hvlab with ⟨key, hmem, hle⟩ | hclosed
      · left
        refine ⟨key, List.mem_cons_of_mem _ hmem, ?_⟩
        show _ ≤ distAt (setAt st.distances e.to_ _) v
        rw [hdist, if_neg hvt]
        exact hle
      · right
        intro e1 he1
        show distAt (setAt st.distances e.to_ _) e1.to_ ≤
          distAt (setAt st.distances e.to_ _) v + e1.cost
        rw [hdist v, if_neg hvt]
        exact le_trans (hmono _) (hclosed e1 he1)
  · rw [if_neg hlt] at hst1
    simp only [Option.some.injEq] at hst1
    subst hst1
    exact hpend

theorem relaxAll_pending {graph : Graph} (hv : ValidTargets graph) (hc : NonNegCosts graph)
    {s : Int} (hexact : SimplePathCostsAtMost graph s (2 ^ 53)) {src : Int} {dfrom : Int}
    (hlab : dfrom < INF) :
    ∀ (row : List Edge) (st : DState), Inv graph s st → (∀ e ∈ row, e ∈ adj graph src) →
      getAt? st.distances src = some dfrom → PendingExcept graph src st →
      ∀ st1, relaxAll src st row = some st1 → PendingExcept graph src st1 := by
  intro row
  induction row with
  | nil =>
    intro st _ _ _ hpend st1 hst1
    simp only [relaxAll, Option.some.injEq] at hst1
    subst hst1
    exact hpend
  | cons e rest ih =>
    intro st hinv hrow h1 hpend st1 hst1
    obtain ⟨st2, hst2, hinv2, -, -, hs2, -, -⟩ :=
      relaxEdge_inv hv hc hinv (hrow e (by simp)) h1 hlab
    simp only [relaxAll, hst2] at hst1
    exact ih st2 hinv2 (fun e1 he1 => hrow e1 (by simp [he1])) hs2
      (relaxEdge_pending hv hc hexact hinv (hrow e (by simp)) h1 hlab hpend hst2) st1 hst1

/-- With exact keys one iteration of the `while` loop keeps every reached vertex settled. -/
theorem step_pending {graph : Graph} (hv : ValidTargets graph) (hc : NonNegCosts graph)
    {s : Int} (hexact : SimplePathCostsAtMost graph s (2 ^ 53))
    {st : DState} (hinv : Inv graph s st) (hpend : Pending graph st)
    {st1 : DState} (hst1 : step graph st = some st1) : Pending graph st1 := by
  cases hpop : popMin st.q with
  | none =>
    simp only [step, hpop, Option.some.injEq] at hst1
    subst hst1
    exact hpend
  | some mr =>
    obtain ⟨⟨key, src⟩, q1⟩ := mr
    obtain ⟨hmem, -⟩ := popMin_spec hpop
    have hlab := hinv.queue (key, src) ((hmem _).mpr (Or.inl rfl))
    have h1 := distAt_lt hlab
    have hinv1 : Inv graph s { st with q := q1 } :=
      hinv.dropQueue (fun x hx => (hmem x).mpr (Or.inr hx))
    simp only [step, hpop, h1] at hst1
    by_cases hskip : distAt st.distances src < key
    · rw [if_pos hskip] at hst1
      simp only [Option.some.injEq] at hst1
      subst hst1
      intro v hvlab
      rcases hpend v hvlab with ⟨k1, hk1, hle⟩ | hclosed
      · left
        refine ⟨k1, ?_, hle⟩
        rcases (hmem _).mp hk1 with h | h
        · simp only [Prod.mk.injEq] at h
          obtain ⟨rfl, rfl⟩ := h
          omega
        · exact h
      · right
        exact hclosed
    · rw [if_neg hskip] at hst1
      obtain ⟨hs0, hs1⟩ := getAt?_lt h1
      obtain ⟨row, hrow⟩ := getAt?_of_lt (l := graph) hs0 (by rw [← hinv.lenD]; exact hs1)
      simp only [hrow] at hst1
      have hrowadj : ∀ e ∈ row, e ∈ adj graph src :=
        fun e he => by rw [adj_eq_of_getAt? hrow]; exact he
      have hpend1 : PendingExcept graph src { st with q := q1 } := by
        intro v hvsrc hvlab
        rcases hpend v hvlab with ⟨k1, hk1, hle⟩ | hclosed
        · left
          refine ⟨k1, ?_, hle⟩
          rcases (hmem _).mp hk1 with h | h
          · simp only [Prod.mk.injEq] at h
            exact absurd h.2 hvsrc
          · exact h
        · right
          exact hclosed
      have hpend2 := relaxAll_pending hv hc hexact hlab row _ hinv1 hrowadj h1 hpend1 st1 hst1
      obtain ⟨st2, hst2, -, -, -, hs2, hr2, -⟩ := relaxAll_inv hv hc hlab row _ hinv1 hrowadj h1
      rw [hst1] at hst2
      simp only [Option.some.injEq] at hst2
      subst hst2
      intro v hvlab
      by_cases hvsrc : v = src
      · subst hvsrc
        right
        intro e he
        rw [distAt_of_getAt? hs2]
        exact hr2 e (by rw [adj_eq_of_getAt? hrow] at he; exact he)
      · exact hpend2 v hvsrc hvlab

/-- With exact keys the run of `Dijkstra` ends in a state in which every edge that leaves a
reached vertex is relaxed. -/
theorem dijkstraRun_exact {graph : Graph} (hv : ValidTargets graph) (hc : NonNegCosts graph)
    {s : Int} (h0 : 0 ≤ s) (h1 : s < (graph.length : Int))
    (hexact : SimplePathCostsAtMost graph s (2 ^ 53)) :
    ∃ st, DijkstraRun graph (List.replicate graph.length INF) s = some st ∧ Inv graph s st ∧
      ∀ v, distAt st.distances v < INF →
        ∀ e ∈ adj graph v, distAt st.distances e.to_ ≤ distAt st.distances v + e.cost := by
  obtain ⟨st, hrun, hq, hinv, hpend⟩ :=
    dijkstraRun_ends graph h0 h1 (fun st => Inv graph s st ∧ Pending graph st)
      ⟨Inv.init graph h0 h1, by
        intro v hvlab
        change distAt (setAt (List.replicate graph.length INF) s 0) v < INF at hvlab
        rw [distAt_init h0 h1] at hvlab
        by_cases hsv : s = v
        · subst hsv
          left
          refine ⟨0, List.mem_singleton.mpr rfl, ?_⟩
          show 0 ≤ distAt (setAt (List.replicate graph.length INF) s 0) s
          rw [distAt_init h0 h1, if_pos rfl]
        · rw [if_neg hsv] at hvlab
          exact absurd hvlab (lt_irrefl _)⟩
      (fun st hP hq => by
        obtain ⟨st1, hst1, hinv1, hb⟩ := step_inv hv hc hP.1 hq
        exact ⟨st1, hst1, ⟨hinv1, step_pending hv hc hexact hP.1 hP.2 hst1⟩, hb⟩)
  refine ⟨st, hrun, hinv, ?_⟩
  intro v hvlab
  rcases hpend v hvlab with ⟨key, hmem, -⟩ | hclosed
  · rw [hq] at hmem
    simp at hmem
  · exact hclosed

/-! ## Walks -/

theorem Walk.nonneg {graph : Graph} (hc : NonNegCosts graph) {u v c : Int}
    (h : Walk graph u v c) : 0 ≤ c := by
  induction h with
  | nil u => exact le_refl _
  | cons e he _ ih =>
    have := adj_nonneg hc he
    omega

theorem Walk.snoc {graph : Graph} {u v c : Int} (h : Walk graph u v c) (e : Edge)
    (he : e ∈ adj graph v) : Walk graph u e.to_ (c + e.cost) := by
  induction h with
  | nil u =>
    have := Walk.cons e he (Walk.nil e.to_)
    simpa using this
  | cons e1 he1 _ ih =>
    have := Walk.cons e1 he1 (ih he)
    rw [← add_assoc] at this
    exact this

theorem SimplePath.walk {graph : Graph} {s v c : Int} {vs : List Int}
    (h : SimplePath graph s v c vs) : Walk graph s v c := by
  induction h with
  | nil => exact Walk.nil s
  | snoc e _ he _ ih => exact ih.snoc e he

/-- When every edge that leaves a reached vertex is relaxed, no walk beats the recorded
distances. -/
theorem relaxed_le_walk {graph : Graph} (hc : NonNegCosts graph) {s : Int} {st : DState}
    (hinv : Inv graph s st)
    (hrel : ∀ v, distAt st.distances v < INF →
      ∀ e ∈ adj graph v, distAt st.distances e.to_ ≤ distAt st.distances v + e.cost)
    {u v c : Int} (h : Walk graph u v c) :
    distAt st.distances v ≤ distAt st.distances u + c := by
  induction h with
  | nil u => omega
  | @cons u1 v1 c1 e he hw ih =>
    have hcost := adj_nonneg hc he
    have hc1 := hw.nonneg hc
    by_cases hlab : distAt st.distances u1 < INF
    · have := hrel u1 hlab e he
      omega
    · have := hinv.distAt_le v1
      omega

/-- With exact keys the reached vertices are closed under the edges of the graph. -/
theorem reached_of_walk {graph : Graph} (hc : NonNegCosts graph) {s : Int} {st : DState}
    (hinv : Inv graph s st) (hexact : SimplePathCostsAtMost graph s (2 ^ 53))
    (hrel : ∀ v, distAt st.distances v < INF →
      ∀ e ∈ adj graph v, distAt st.distances e.to_ ≤ distAt st.distances v + e.cost)
    {u v c : Int} (h : Walk graph u v c) (hlab : distAt st.distances u < INF) :
    distAt st.distances v < INF := by
  revert hlab
  induction h with
  | nil u => exact fun hlab => hlab
  | @cons u1 v1 c1 e he _ ih =>
    intro hlab
    apply ih
    have hcost := adj_nonneg hc he
    obtain ⟨vs, hvs⟩ := hinv.real u1 hlab
    by_cases hmem : e.to_ ∈ vs
    · have := hvs.dom hc _ hmem
      omega
    · have h1 := hexact _ _ _ (SimplePath.snoc e hvs.simple he hmem)
      have h2 := hrel u1 hlab e he
      have : (2 : Int) ^ 53 < INF := by decide
      omega

/-- A reached vertex is the end of a walk from the source whose cost is the recorded distance. -/
theorem Inv.walk_of_reached {graph : Graph} {s : Int} {st : DState} (hinv : Inv graph s st)
    {v : Int} (hlab : distAt st.distances v < INF) :
    Walk graph s v (distAt st.distances v) := by
  obtain ⟨vs, hvs⟩ := hinv.real v hlab
  exact hvs.simple.walk

/-! ## Cost of the returned path -/

theorem cheapest_eq_some {graph : Graph} {u v : Int} {e : Edge} (he : e ∈ adj graph u)
    (hto : e.to_ = v) (hmin : ∀ e1 ∈ adj graph u, e1.to_ = v → e.cost ≤ e1.cost) :
    cheapest graph u v = some e.cost := by
  unfold cheapest
  haveI : Std.Antisymm (fun a b : Int => a ≤ b) := ⟨Int.le_antisymm⟩
  rw [List.min?_eq_some_iff (fun a : Int => le_refl a) (fun a b => min_choice a b)
    (fun a b c => le_min_iff)]
  constructor
  · exact List.mem_map.mpr ⟨e, List.mem_filter.mpr ⟨he, by simp [hto]⟩, rfl⟩
  · intro b hb
    obtain ⟨e1, he1, rfl⟩ := List.mem_map.mp hb
    obtain ⟨hmem, hdec⟩ := List.mem_filter.mp he1
    exact hmin e1 hmem (by simpa using hdec)

theorem cheapest_mem {graph : Graph} {u v m : Int} (h : cheapest graph u v = some m) :
    ∃ e ∈ adj graph u, e.to_ = v ∧ e.cost = m ∧
      ∀ e1 ∈ adj graph u, e1.to_ = v → m ≤ e1.cost := by
  unfold cheapest at h
  haveI : Std.Antisymm (fun a b : Int => a ≤ b) := ⟨Int.le_antisymm⟩
  rw [List.min?_eq_some_iff (fun a : Int => le_refl a) (fun a b => min_choice a b)
    (fun a b c => le_min_iff)] at h
  obtain ⟨hm, hle⟩ := h
  obtain ⟨e, he, rfl⟩ := List.mem_map.mp hm
  obtain ⟨hmem, hdec⟩ := List.mem_filter.mp he
  refine ⟨e, hmem, by simpa using hdec, rfl, ?_⟩
  intro e1 he1 hto
  exact hle _ (List.mem_map.mpr ⟨e1, List.mem_filter.mpr ⟨he1, by simp [hto]⟩, rfl⟩)

theorem pathCost_cons_cons {graph : Graph} {x y : Int} {r : List Int} {c a : Int}
    (h1 : cheapest graph x y = some c) (h2 : pathCost graph (y :: r) = some a) :
    pathCost graph (x :: y :: r) = some (c + a) := by
  simp [pathCost, h1, h2]

theorem pathCost_cons_cons_inv {graph : Graph} {x y : Int} {r : List Int} {b : Int}
    (h : pathCost graph (x :: y :: r) = some b) :
    ∃ c a, cheapest graph x y = some c ∧ pathCost graph (y :: r) = some a ∧ b = c + a := by
  simp only [pathCost] at h
  cases h1 : cheapest graph x y with
  | none => simp [h1] at h
  | some c =>
    cases h2 : pathCost graph (y :: r) with
    | none => simp [h1, h2] at h
    | some a =>
      simp only [h1, h2, Option.some.injEq] at h
      exact ⟨c, a, rfl, rfl, h.symm⟩

/-- Cost of a path that is prolonged by one vertex at its end. -/
theorem pathCost_snoc {graph : Graph} {u v m : Int} (hm : cheapest graph u v = some m) :
    ∀ (l : List Int) (a : Int), pathCost graph (l ++ [u]) = some a →
      pathCost graph (l ++ [u, v]) = some (a + m) := by
  intro l
  induction l with
  | nil =>
    intro a h
    simp only [List.nil_append, pathCost, Option.some.injEq] at h
    subst h
    have := pathCost_cons_cons (r := []) hm (show pathCost graph [v] = some 0 by simp [pathCost])
    simpa using this
  | cons x l1 ih =>
    intro a h
    cases l1 with
    | nil =>
      obtain ⟨c, a1, hc1, ha1, rfl⟩ := pathCost_cons_cons_inv (r := []) h
      have := pathCost_cons_cons hc1 (ih a1 ha1)
      rw [add_assoc]
      exact this
    | cons y l2 =>
      obtain ⟨c, a1, hc1, ha1, rfl⟩ := pathCost_cons_cons_inv (r := l2 ++ [u]) h
      have := pathCost_cons_cons hc1 (ih a1 ha1)
      rw [add_assoc]
      exact this

/-- A path with a cost is a walk of that cost from its first to its last vertex. -/
theorem pathCost_walk {graph : Graph} : ∀ (l : List Int) (x : Int) (a : Int),
    pathCost graph (x :: l) = some a → Walk graph x ((x :: l).getLast (by simp)) a := by
  intro l
  induction l with
  | nil =>
    intro x a h
    simp only [pathCost, Option.some.injEq] at h
    subst h
    exact Walk.nil x
  | cons y r ih =>
    intro x a h
    obtain ⟨c, a1, hc1, ha1, rfl⟩ := pathCost_cons_cons_inv h
    obtain ⟨e, he, hto, hcost, -⟩ := cheapest_mem hc1
    subst hto
    have hw := ih e.to_ a1 ha1
    rw [List.getLast_cons (by simp)]
    rw [← hcost]
    exact Walk.cons e he hw

/-- In the final state of an exact run the cost of the reversed predecessor walk of a reached
vertex is its recorded distance. -/
theorem Inv.chain_cost {graph : Graph} (hc : NonNegCosts graph) {s : Int} {st : DState}
    (hinv : Inv graph s st)
    (hrel : ∀ v, distAt st.distances v < INF →
      ∀ e ∈ adj graph v, distAt st.distances e.to_ ≤ distAt st.distances v + e.cost) :
    ∀ (k : Nat) (v : Int) (c : List Int),
    walkBack st.p k v = some c → distAt st.distances v < INF →
    pathCost graph c.reverse = some (distAt st.distances v) := by
  intro k
  induction k with
  | zero =>
    intro v c h hlab
    have hv0 := (getAt?_lt (distAt_lt hlab)).1
    simp [walkBack, show v ≠ -1 by omega] at h
  | succ k ih =>
    intro v c h hlab
    have hv0 := (getAt?_lt (distAt_lt hlab)).1
    have hv : v ≠ -1 := by omega
    obtain ⟨k0, next, rest, hk0, hn, hr, rfl⟩ := walkBack_cons hv h
    have hk0' : k0 = k := by omega
    subst hk0'
    by_cases hvs : v = s
    · subst hvs
      rw [hinv.srcP] at hn
      simp only [Option.some.injEq] at hn
      subst hn
      rw [walkBack_neg_one] at hr
      simp only [Option.some.injEq] at hr
      subst hr
      simp [pathCost, distAt_of_getAt? hinv.src0]
    · obtain ⟨u, e, hu, he, hto, hle⟩ := hinv.pred v hvs hlab
      rw [hn] at hu
      simp only [Option.some.injEq] at hu
      subst hu
      have hcost := adj_nonneg hc he
      have hlabn : distAt st.distances next < INF := by omega
      have hrest := ih next rest hr hlabn
      obtain ⟨hhead, -, -⟩ := hinv.chain_shape hc k0 next rest hr hlabn
      obtain ⟨r0, rest1, rfl⟩ : ∃ r0 rest1, rest = r0 :: rest1 := by
        cases rest with
        | nil => simp at hhead
        | cons r0 rest1 => exact ⟨r0, rest1, rfl⟩
      simp only [List.head?_cons, Option.some.injEq] at hhead
      subst hhead
      have hmin : ∀ e1 ∈ adj graph r0, e1.to_ = v → e.cost ≤ e1.cost := by
        intro e1 he1 hto1
        have := hrel r0 hlabn e1 he1
        rw [hto1] at this
        omega
      have heq : distAt st.distances v = distAt st.distances r0 + e.cost := by
        have := hrel r0 hlabn e he
        rw [hto] at this
        omega
      have hch := cheapest_eq_some he hto hmin
      simp only [List.reverse_cons, List.append_assoc, List.singleton_append] at hrest ⊢
      rw [heq]
      exact pathCost_snoc hch _ _ hrest

/-! ## Optimality and reachability with exact keys -/

/-- Shortest paths with exact keys: `Dijkstra` returns a path, and when the path is not empty
its cost is the distance recorded for the target, which no walk from the source to the target
undercuts; the path is empty exactly when the recorded distance is `INF`. -/
theorem dijkstra_exact {graph : Graph} (hv : ValidTargets graph) (hc : NonNegCosts graph)
    {s t : Int} (hs0 : 0 ≤ s) (hs1 : s < (graph.length : Int))
    (ht0 : 0 ≤ t) (ht1 : t < (graph.length : Int))
    (hexact : SimplePathCostsAtMost graph s (2 ^ 53)) :
    ∃ path st, Dijkstra graph (List.replicate graph.length INF) s t [] = some path ∧
      DijkstraRun graph (List.replicate graph.length INF) s = some st ∧
      (path = [] ↔ distAt st.distances t = INF) ∧
      (path = [] ↔ ¬ ∃ c, Walk graph s t c) ∧
      (path ≠ [] → pathCost graph path = some (distAt st.distances t) ∧
        ∀ c, Walk graph s t c → distAt st.distances t ≤ c) := by
  obtain ⟨st, hrun, hinv, hrel⟩ := dijkstraRun_exact hv hc hs0 hs1 hexact
  have hsrc : distAt st.distances s = 0 := distAt_of_getAt? hinv.src0
  have hopt : ∀ c, Walk graph s t c → distAt st.distances t ≤ c := by
    intro c hw
    have := relaxed_le_walk hc hinv hrel hw
    omega
  rcases dijkstra_of_run hrun hinv ht0 ht1 with ⟨hinf, hd⟩ | ⟨hlab, k, c, hkc, hd⟩
  · refine ⟨[], st, hd, hrun, by simp [hinf], ?_, fun h => absurd rfl h⟩
    simp only [true_iff]
    rintro ⟨c, hw⟩
    have := reached_of_walk hc hinv hexact hrel hw (by rw [hsrc]; exact INF_pos)
    omega
  · obtain ⟨hhead, -, -⟩ := hinv.chain_shape hc k t c hkc hlab
    have hne : c.reverse ≠ [] := by
      intro h
      rw [List.reverse_eq_nil_iff] at h
      subst h
      simp at hhead
    refine ⟨c.reverse, st, hd, hrun, ?_, ?_, fun _ => ⟨hinv.chain_cost hc hrel k t c hkc hlab, hopt⟩⟩
    · simp only [hne, false_iff]
      omega
    · simp only [hne, false_iff, not_not]
      exact ⟨_, hinv.walk_of_reached hlab⟩

/-! ## The long chain -/

theorem getAt?_add_one {α : Type} (xs : List α) (k : Nat) :
    getAt? xs ((k : Int) + 1) = xs[k + 1]? := by
  rw [show ((k : Int) + 1) = ((k + 1 : Nat) : Int) by push_cast; rfl, getAt?_natCast]

theorem getAt?_add_two {α : Type} (xs : List α) (k : Nat) :
    getAt? xs ((k : Int) + 2) = xs[k + 2]? := by
  rw [show ((k : Int) + 2) = ((k + 2 : Nat) : Int) by push_cast; rfl, getAt?_natCast]

theorem getAt?_add_three {α : Type} (xs : List α) (k : Nat) :
    getAt? xs ((k : Int) + 3) = xs[k + 3]? := by
  rw [show ((k : Int) + 3) = ((k + 3 : Nat) : Int) by push_cast; rfl, getAt?_natCast]

theorem getAt?_add_four {α : Type} (xs : List α) (k : Nat) :
    getAt? xs ((k : Int) + 4) = xs[k + 4]? := by
  rw [show ((k : Int) + 4) = ((k + 4 : Nat) : Int) by push_cast; rfl, getAt?_natCast]

theorem chainGraph_length (k : Nat) (c : Int) : (chainGraph k c).length = k + 5 := by
  simp [chainGraph]

theorem chainGraph_getElem? (k : Nat) (c : Int) (j : Nat) :
    (chainGraph k c)[j]? =
      if j < k then some [({ to_ := (j : Int) + 1, cost := c } : Edge)]
      else if j = k then
        some [{ to_ := (k : Int) + 1, cost := c }, { to_ := (k : Int) + 2, cost := c - 1 }]
      else if j = k + 1 then
        some [{ to_ := (k : Int) + 3, cost := 1 }, { to_ := (k : Int) + 4, cost := 1 }]
      else if j = k + 2 then some [{ to_ := (k : Int) + 3, cost := 4 }]
      else if j = k + 3 then some []
      else if j = k + 4 then some []
      else none := by
  unfold chainGraph
  by_cases h : j < k
  · rw [if_pos h, List.getElem?_append_left (by simpa using h)]
    simp [List.getElem?_map, List.getElem?_range h]
  · rw [if_neg h, List.getElem?_append_right (by simpa using h)]
    simp only [List.length_map, List.length_range]
    obtain ⟨d, rfl⟩ : ∃ d, j = k + d := ⟨j - k, by omega⟩
    simp only [Nat.add_sub_cancel_left]
    match d with
    | 0 => simp
    | 1 => simp
    | 2 => simp
    | 3 => simp
    | 4 => simp
    | d + 5 => simp

/-- Every edge of the chain graph leads to a later vertex and costs between 0 and `c`. -/
theorem chainGraph_edge {k : Nat} {c : Int} (hc : 4 ≤ c) {u : Int} {e : Edge}
    (he : e ∈ adj (chainGraph k c) u) :
    0 ≤ u ∧ u < e.to_ ∧ e.to_ < ((k + 5 : Nat) : Int) ∧ 0 ≤ e.cost ∧ e.cost ≤ c := by
  obtain ⟨row, hrow, hmem⟩ := adj_mem_graph he
  obtain ⟨h0, h1⟩ := getAt?_eq_some_iff.mp hrow
  rw [chainGraph_getElem?] at h1
  have hu : u = (u.toNat : Int) := by omega
  generalize u.toNat = j at h1 hu
  subst hu
  split at h1
  · simp only [Option.some.injEq] at h1
    subst h1
    simp only [List.mem_singleton] at hmem
    subst hmem
    simp
    omega
  · split at h1
    · simp only [Option.some.injEq] at h1
      subst h1
      simp only [List.mem_cons, List.mem_singleton, List.not_mem_nil, or_false] at hmem
      rcases hmem with rfl | rfl <;> (simp; omega)
    · split at h1
      · simp only [Option.some.injEq] at h1
        subst h1
        simp only [List.mem_cons, List.mem_singleton, List.not_mem_nil, or_false] at hmem
        rcases hmem with rfl | rfl <;> (simp; omega)
      · split at h1
        · simp only [Option.some.injEq] at h1
          subst h1
          simp only [List.mem_cons, List.mem_singleton, List.not_mem_nil, or_false] at hmem
          subst hmem
          simp
          omega
        · split at h1
          · simp only [Option.some.injEq] at h1
            subst h1
            simp at hmem
          · split at h1
            · simp only [Option.some.injEq] at h1
              subst h1
              simp at hmem
            · simp at h1

theorem chainGraph_validTargets (k : Nat) {c : Int} (hc : 4 ≤ c) :
    ValidTargets (chainGraph k c) := by
  intro row hrow e he
  obtain ⟨i, hi⟩ := List.mem_iff_getElem?.mp hrow
  have hget : getAt? (chainGraph k c) (i : Int) = some row := by rw [getAt?_natCast]; exact hi
  have hmem : e ∈ adj (chainGraph k c) (i : Int) := by rw [adj_eq_of_getAt? hget]; exact he
  have := chainGraph_edge hc hmem
  rw [chainGraph_length]
  omega

theorem chainGraph_nonNeg (k : Nat) {c : Int} (hc : 4 ≤ c) :
    NonNegCosts (chainGraph k c) := by
  intro row hrow e he
  obtain ⟨i, hi⟩ := List.mem_iff_getElem?.mp hrow
  have hget : getAt? (chainGraph k c) (i : Int) = some row := by rw [getAt?_natCast]; exact hi
  have hmem : e ∈ adj (chainGraph k c) (i : Int) := by rw [adj_eq_of_getAt? hget]; exact he
  exact (chainGraph_edge hc hmem).2.2.2.1

/-- No walk in the chain graph costs more than `c` times the number of vertices. -/
theorem chainGraph_walk_le {k : Nat} {c : Int} (hc : 4 ≤ c) {u v w : Int}
    (h : Walk (chainGraph k c) u v w) :
    w = 0 ∨ (0 ≤ u ∧ u < ((k + 5 : Nat) : Int) ∧ w ≤ (((k + 5 : Nat) : Int) - u) * c) := by
  induction h with
  | nil u => exact Or.inl rfl
  | @cons u1 v1 c1 e he _ ih =>
    obtain ⟨h0, h1, h2, h3, h4⟩ := chainGraph_edge hc he
    right
    refine ⟨h0, by omega, ?_⟩
    rcases ih with h | ⟨-, -, h⟩
    · subst h
      have : (1 : Int) * c ≤ (((k + 5 : Nat) : Int) - u1) * c :=
        mul_le_mul_of_nonneg_right (by omega) (by omega)
      omega
    · have : (((k + 5 : Nat) : Int) - e.to_) * c + 1 * c ≤ (((k + 5 : Nat) : Int) - u1) * c := by
        rw [← add_mul]
        exact mul_le_mul_of_nonneg_right (by omega) (by omega)
      omega

/-! ## The run of `Dijkstra` on the long chain -/

theorem setAt_natCast {α : Type} (xs : List α) (n : Nat) (a : α) :
    setAt xs (n : Int) a = xs.set n a := by
  simp [setAt]

theorem chainDistances_getElem? (k : Nat) (c : Int) (i j : Nat) :
    (chainDistances k c i)[j]? =
      if j < k + 5 then some (if j ≤ i then (j : Int) * c else INF) else none := by
  unfold chainDistances
  by_cases h : j < k + 5
  · simp [List.getElem?_map, List.getElem?_range h, h]
  · rw [if_neg h]
    exact List.getElem?_eq_none (by simpa using h)

theorem chainPred_getElem? (k : Nat) (i j : Nat) :
    (chainPred k i)[j]? =
      if j < k + 5 then some (if 1 ≤ j ∧ j ≤ i then (j : Int) - 1 else -1) else none := by
  unfold chainPred
  by_cases h : j < k + 5
  · simp [List.getElem?_map, List.getElem?_range h, h]
  · rw [if_neg h]
    exact List.getElem?_eq_none (by simpa using h)

theorem chainDistances_length (k : Nat) (c : Int) (i : Nat) :
    (chainDistances k c i).length = k + 5 := by
  simp [chainDistances]

theorem chainPred_length (k : Nat) (i : Nat) : (chainPred k i).length = k + 5 := by
  simp [chainPred]

theorem chainDistances_succ (k : Nat) (c : Int) (i : Nat) :
    (chainDistances k c i).set (i + 1) (((i + 1 : Nat) : Int) * c) =
      chainDistances k c (i + 1) := by
  apply List.ext_getElem?
  intro j
  rw [List.getElem?_set, chainDistances_length, chainDistances_getElem?,
    chainDistances_getElem?]
  by_cases hj : i + 1 = j
  · subst hj
    by_cases h : i + 1 < k + 5 <;> simp [h]
  · by_cases h : j < k + 5
    · by_cases h1 : j ≤ i
      · have h2 : j ≤ i + 1 := by omega
        simp [hj, h, h1, h2]
      · have h2 : ¬ j ≤ i + 1 := by omega
        simp [hj, h, h1, h2]
    · simp [hj, h]

theorem chainPred_succ (k : Nat) (i : Nat) :
    (chainPred k i).set (i + 1) (i : Int) = chainPred k (i + 1) := by
  apply List.ext_getElem?
  intro j
  rw [List.getElem?_set, chainPred_length, chainPred_getElem?, chainPred_getElem?]
  by_cases hj : i + 1 = j
  · subst hj
    by_cases h : i + 1 < k + 5 <;> simp [h]
  · by_cases h : j < k + 5
    · by_cases h1 : j ≤ i
      · have h2 : j ≤ i + 1 := by omega
        simp [hj, h, h1, h2]
      · have h2 : ¬ j ≤ i + 1 := by omega
        simp [hj, h, h1, h2]
    · simp [hj, h]

theorem chainDistances_zero (k : Nat) (c : Int) :
    setAt (List.replicate (k + 5) INF) 0 0 = chainDistances k c 0 := by
  rw [show (0 : Int) = ((0 : Nat) : Int) by rfl, setAt_natCast]
  apply List.ext_getElem?
  intro j
  rw [List.getElem?_set, chainDistances_getElem?, List.getElem?_replicate]
  by_cases hj : 0 = j
  · subst hj
    simp
  · have hj1 : ¬ j ≤ 0 := by omega
    simp [hj, hj1]

theorem chainPred_zero (k : Nat) : List.replicate (k + 5) (-1 : Int) = chainPred k 0 := by
  apply List.ext_getElem?
  intro j
  rw [chainPred_getElem?, List.getElem?_replicate]
  have : ¬ (1 ≤ j ∧ j ≤ 0) := by omega
  rw [if_neg this]

theorem popMin_single (x : Pair) : popMin [x] = some (x, []) := by
  simp [popMin]

/-- One iteration of the `while` loop on the chain, before its end. -/
theorem chain_step {k : Nat} {c : Int} (hc : 4 ≤ c) (hk : (k : Int) * c ≤ 2 ^ 53) {i : Nat}
    (hi : i < k) :
    step (chainGraph k c) (chainState k c i) = some (chainState k c (i + 1)) := by
  have hle : ((i + 1 : Nat) : Int) * c ≤ 2 ^ 53 :=
    le_trans (mul_le_mul_of_nonneg_right (by exact_mod_cast hi) (by omega)) hk
  have hnn : 0 ≤ ((i + 1 : Nat) : Int) * c := mul_nonneg (by omega) (by omega)
  have hinf : (2 : Int) ^ 53 < INF := by decide
  have hd : getAt? (chainDistances k c i) (i : Int) = some ((i : Int) * c) := by
    rw [getAt?_natCast, chainDistances_getElem?, if_pos (by omega), if_pos (le_refl _)]
  have hd1 : getAt? (chainDistances k c i) (((i + 1 : Nat)) : Int) = some INF := by
    rw [getAt?_natCast, chainDistances_getElem?, if_pos (by omega), if_neg (by omega)]
  have hrow : getAt? (chainGraph k c) (i : Int) =
      some [({ to_ := (i : Int) + 1, cost := c } : Edge)] := by
    rw [getAt?_natCast, chainGraph_getElem?, if_pos hi]
  have hsum : (i : Int) * c + c = ((i + 1 : Nat) : Int) * c := by push_cast; ring
  have hto : (i : Int) + 1 = ((i + 1 : Nat) : Int) := by push_cast; rfl
  simp only [step, chainState, popMin_single, hd, lt_irrefl, if_false, hrow, relaxAll]
  rw [hto] at *
  rw [relaxEdge_eq (w := { distances := chainDistances k c i, p := chainPred k i, q := [] })
    (e := { to_ := ((i + 1 : Nat) : Int), cost := c }) hd hd1]
  simp only [hsum]
  rw [if_pos (by omega), toDouble_exact _ hnn hle, setAt_natCast, setAt_natCast,
    chainDistances_succ, chainPred_succ]

/-- Iterations of the `while` loop consume fuel one by one. -/
theorem loop_succ {graph : Graph} {st st1 : DState} (hq : st.q ≠ [])
    (hstep : step graph st = some st1) (fuel : Nat) :
    loop graph (fuel + 1) st = loop graph fuel st1 := by
  simp [loop, hq, hstep]

theorem chain_loop {k : Nat} {c : Int} (hc : 4 ≤ c) (hk : (k : Int) * c ≤ 2 ^ 53) :
    ∀ (i : Nat), i ≤ k → ∀ fuel,
      loop (chainGraph k c) (fuel + i) (chainState k c 0) =
        loop (chainGraph k c) fuel (chainState k c i) := by
  intro i
  induction i with
  | zero => intro _ fuel; rfl
  | succ i ih =>
    intro hi fuel
    rw [show fuel + (i + 1) = (fuel + 1) + i by omega, ih (by omega) (fuel + 1)]
    exact loop_succ (by simp [chainState]) (chain_step hc hk (by omega)) fuel

/-! ## The last iterations on the long chain -/

theorem chainDistances_at_end (k : Nat) (c : Int) :
    getAt? (chainDistances k c k) (k : Int) = some ((k : Int) * c) ∧
    getAt? (chainDistances k c k) ((k : Int) + 1) = some INF ∧
    getAt? (chainDistances k c k) ((k : Int) + 2) = some INF ∧
    getAt? (chainDistances k c k) ((k : Int) + 3) = some INF ∧
    getAt? (chainDistances k c k) ((k : Int) + 4) = some INF := by
  refine ⟨?_, ?_, ?_, ?_, ?_⟩
  · rw [getAt?_natCast, chainDistances_getElem?, if_pos (by omega), if_pos (le_refl _)]
  · rw [getAt?_add_one, chainDistances_getElem?, if_pos (by omega), if_neg (by omega)]
  · rw [getAt?_add_two, chainDistances_getElem?, if_pos (by omega), if_neg (by omega)]
  · rw [getAt?_add_three, chainDistances_getElem?, if_pos (by omega), if_neg (by omega)]
  · rw [getAt?_add_four, chainDistances_getElem?, if_pos (by omega), if_neg (by omega)]

theorem chainGraph_rows_at_end (k : Nat) (c : Int) :
    getAt? (chainGraph k c) (k : Int) =
      some [{ to_ := (k : Int) + 1, cost := c }, { to_ := (k : Int) + 2, cost := c - 1 }] ∧
    getAt? (chainGraph k c) ((k : Int) + 1) =
      some [{ to_ := (k : Int) + 3, cost := 1 }, { to_ := (k : Int) + 4, cost := 1 }] ∧
    getAt? (chainGraph k c) ((k : Int) + 2) = some [{ to_ := (k : Int) + 3, cost := 4 }] ∧
    getAt? (chainGraph k c) ((k : Int) + 3) = some [] := by
  refine ⟨?_, ?_, ?_, ?_⟩
  · rw [getAt?_natCast, chainGraph_getElem?, if_neg (by omega), if_pos rfl]
  · rw [getAt?_add_one, chainGraph_getElem?, if_neg (by omega), if_neg (by omega), if_pos rfl]
  · rw [getAt?_add_two, chainGraph_getElem?, if_neg (by omega), if_neg (by omega),
      if_neg (by omega), if_pos rfl]
  · rw [getAt?_add_three, chainGraph_getElem?, if_neg (by omega), if_neg (by omega),
      if_neg (by omega), if_neg (by omega), if_pos rfl]

/-- The four iterations that follow the chain: the entry of vertex `k+1`, whose key was rounded
up, is skipped. -/
theorem chain_end {k : Nat} {c : Int}
    (hX : toDouble (((k : Int) + 1) * c) = ((k : Int) + 1) * c + 1)
    (hX1 : toDouble (((k : Int) + 1) * c - 1) = ((k : Int) + 1) * c - 1)
    (hX3 : toDouble (((k : Int) + 1) * c + 3) = ((k : Int) + 1) * c + 3)
    (hXI : ((k : Int) + 1) * c + 3 < INF) :
    loop (chainGraph k c) 4 (chainState k c k) = some (chainFinal k c) := by
  obtain ⟨hd0, hd1, hd2, hd3, -⟩ := chainDistances_at_end k c
  obtain ⟨hr0, hr1, hr2, hr3⟩ := chainGraph_rows_at_end k c
  obtain ⟨-, hlen⟩ := getAt?_lt hd3
  have hk0 : (0 : Int) ≤ (k : Int) := by omega
  have hs1 : (k : Int) * c + c = ((k : Int) + 1) * c := by ring
  have hs2 : (k : Int) * c + (c - 1) = ((k : Int) + 1) * c - 1 := by ring
  have hs3 : ((k : Int) + 1) * c - 1 + 4 = ((k : Int) + 1) * c + 3 := by ring
  -- first iteration: vertex k
  have e1 : relaxEdge (k : Int) { distances := chainDistances k c k, p := chainPred k k, q := [] }
      { to_ := (k : Int) + 1, cost := c } = some
      { distances := setAt (chainDistances k c k) ((k : Int) + 1) (((k : Int) + 1) * c)
        p := setAt (chainPred k k) ((k : Int) + 1) (k : Int)
        q := [(((k : Int) + 1) * c + 1, (k : Int) + 1)] } := by
    rw [relaxEdge_eq hd0 hd1]
    simp only [hs1]
    rw [if_pos (by omega), hX]
  have hD1k : getAt? (setAt (chainDistances k c k) ((k : Int) + 1) (((k : Int) + 1) * c))
      (k : Int) = some ((k : Int) * c) := by
    rw [getAt?_setAt_ne _ (by omega)]; exact hd0
  have hD1k2 : getAt? (setAt (chainDistances k c k) ((k : Int) + 1) (((k : Int) + 1) * c))
      ((k : Int) + 2) = some INF := by
    rw [getAt?_setAt_ne _ (by omega)]; exact hd2
  have hD2k3 : getAt? (setAt (setAt (chainDistances k c k) ((k : Int) + 1) (((k : Int) + 1) * c))
      ((k : Int) + 2) (((k : Int) + 1) * c - 1)) ((k : Int) + 3) = some INF := by
    rw [getAt?_setAt_ne _ (by omega), getAt?_setAt_ne _ (by omega)]; exact hd3
  have e2 : relaxEdge (k : Int)
      { distances := setAt (chainDistances k c k) ((k : Int) + 1) (((k : Int) + 1) * c)
        p := setAt (chainPred k k) ((k : Int) + 1) (k : Int)
        q := [(((k : Int) + 1) * c + 1, (k : Int) + 1)] }
      { to_ := (k : Int) + 2, cost := c - 1 } = some
      { distances := setAt (setAt (chainDistances k c k) ((k : Int) + 1) (((k : Int) + 1) * c))
          ((k : Int) + 2) (((k : Int) + 1) * c - 1)
        p := setAt (setAt (chainPred k k) ((k : Int) + 1) (k : Int)) ((k : Int) + 2) (k : Int)
        q := [(((k : Int) + 1) * c - 1, (k : Int) + 2),
              (((k : Int) + 1) * c + 1, (k : Int) + 1)] } := by
    rw [relaxEdge_eq hD1k hD1k2]
    simp only [hs2]
    rw [if_pos (by omega), hX1]
  have s1 : step (chainGraph k c) (chainState k c k) = some
      { distances := setAt (setAt (chainDistances k c k) ((k : Int) + 1) (((k : Int) + 1) * c))
          ((k : Int) + 2) (((k : Int) + 1) * c - 1)
        p := setAt (setAt (chainPred k k) ((k : Int) + 1) (k : Int)) ((k : Int) + 2) (k : Int)
        q := [(((k : Int) + 1) * c - 1, (k : Int) + 2),
              (((k : Int) + 1) * c + 1, (k : Int) + 1)] } := by
    simp only [step, chainState, popMin_single, hd0, lt_irrefl, if_false, hr0, relaxAll, e1, e2]
  -- second iteration: vertex k+2
  have hpop2 : popMin [(((k : Int) + 1) * c - 1, (k : Int) + 2),
      (((k : Int) + 1) * c + 1, (k : Int) + 1)] =
      some ((((k : Int) + 1) * c - 1, (k : Int) + 2),
        [(((k : Int) + 1) * c + 1, (k : Int) + 1)]) := by
    have : pairLe (((k : Int) + 1) * c - 1, (k : Int) + 2)
        (((k : Int) + 1) * c + 1, (k : Int) + 1) = true := by
      simp [pairLe]
      omega
    simp [popMin, this]
  have hD2 : getAt? (setAt (setAt (chainDistances k c k) ((k : Int) + 1) (((k : Int) + 1) * c))
      ((k : Int) + 2) (((k : Int) + 1) * c - 1)) ((k : Int) + 2) =
      some (((k : Int) + 1) * c - 1) :=
    getAt?_setAt_self _ (by omega) (by rw [length_setAt]; omega)
  have e3 : relaxEdge ((k : Int) + 2)
      { distances := setAt (setAt (chainDistances k c k) ((k : Int) + 1) (((k : Int) + 1) * c))
          ((k : Int) + 2) (((k : Int) + 1) * c - 1)
        p := setAt (setAt (chainPred k k) ((k : Int) + 1) (k : Int)) ((k : Int) + 2) (k : Int)
        q := [(((k : Int) + 1) * c + 1, (k : Int) + 1)] }
      { to_ := (k : Int) + 3, cost := 4 } = some
      { distances := (chainFinal k c).distances
        p := (chainFinal k c).p
        q := [(((k : Int) + 1) * c + 3, (k : Int) + 3),
              (((k : Int) + 1) * c + 1, (k : Int) + 1)] } := by
    rw [relaxEdge_eq hD2 hD2k3]
    simp only [hs3]
    rw [if_pos (by omega), hX3]
    rfl
  have s2 : step (chainGraph k c)
      { distances := setAt (setAt (chainDistances k c k) ((k : Int) + 1) (((k : Int) + 1) * c))
          ((k : Int) + 2) (((k : Int) + 1) * c - 1)
        p := setAt (setAt (chainPred k k) ((k : Int) + 1) (k : Int)) ((k : Int) + 2) (k : Int)
        q := [(((k : Int) + 1) * c - 1, (k : Int) + 2),
              (((k : Int) + 1) * c + 1, (k : Int) + 1)] } = some
      { distances := (chainFinal k c).distances
        p := (chainFinal k c).p
        q := [(((k : Int) + 1) * c + 3, (k : Int) + 3),
              (((k : Int) + 1) * c + 1, (k : Int) + 1)] } := by
    simp only [step, hpop2, hD2, lt_irrefl, if_false, hr2, relaxAll, e3]
  -- third iteration: the entry of vertex k+1 is skipped
  have hpop3 : popMin [(((k : Int) + 1) * c + 3, (k : Int) + 3),
      (((k : Int) + 1) * c + 1, (k : Int) + 1)] =
      some ((((k : Int) + 1) * c + 1, (k : Int) + 1),
        [(((k : Int) + 1) * c + 3, (k : Int) + 3)]) := by
    have : pairLe (((k : Int) + 1) * c + 3, (k : Int) + 3)
        (((k : Int) + 1) * c + 1, (k : Int) + 1) = false := by
      simp [pairLe]
    simp [popMin, this]
  have hF1 : getAt? (chainFinal k c).distances ((k : Int) + 1) = some (((k : Int) + 1) * c) := by
    simp only [chainFinal]
    rw [getAt?_setAt_ne _ (by omega), getAt?_setAt_ne _ (by omega)]
    exact getAt?_setAt_self _ (by omega) (by omega)
  have s3 : step (chainGraph k c)
      { distances := (chainFinal k c).distances
        p := (chainFinal k c).p
        q := [(((k : Int) + 1) * c + 3, (k : Int) + 3),
              (((k : Int) + 1) * c + 1, (k : Int) + 1)] } = some
      { distances := (chainFinal k c).distances
        p := (chainFinal k c).p
        q := [(((k : Int) + 1) * c + 3, (k : Int) + 3)] } := by
    simp only [step, hpop3, hF1]
    rw [if_pos (by omega)]
  -- fourth iteration: vertex k+3 has no edges
  have hF3 : getAt? (chainFinal k c).distances ((k : Int) + 3) =
      some (((k : Int) + 1) * c + 3) := by
    simp only [chainFinal]
    exact getAt?_setAt_self _ (by omega) (by rw [length_setAt, length_setAt]; omega)
  have s4 : step (chainGraph k c)
      { distances := (chainFinal k c).distances
        p := (chainFinal k c).p
        q := [(((k : Int) + 1) * c + 3, (k : Int) + 3)] } = some (chainFinal k c) := by
    simp only [step, popMin_single, hF3, lt_irrefl, if_false, hr3, relaxAll]
    rfl
  rw [loop_succ (by simp [chainState]) s1, loop_succ (by simp) s2, loop_succ (by simp) s3,
    loop_succ (by simp) s4]
  simp [loop, chainFinal]

/-! ## What `Dijkstra` returns on the long chain -/

theorem chainState_zero (k : Nat) (c : Int) :
    ({ distances := setAt (List.replicate (chainGraph k c).length INF) 0 0
       p := List.replicate (chainGraph k c).length (-1)
       q := [(0, 0)] } : DState) = chainState k c 0 := by
  rw [chainGraph_length, chainDistances_zero k c, chainPred_zero]
  simp [chainState]

/-- Final state of `Dijkstra` on the chain when the key of vertex `k+1` is rounded up. -/
theorem chain_run {k : Nat} {c : Int} (hc : 4 ≤ c) (hk : (k : Int) * c ≤ 2 ^ 53)
    (hX : toDouble (((k : Int) + 1) * c) = ((k : Int) + 1) * c + 1)
    (hX1 : toDouble (((k : Int) + 1) * c - 1) = ((k : Int) + 1) * c - 1)
    (hX3 : toDouble (((k : Int) + 1) * c + 3) = ((k : Int) + 1) * c + 3)
    (hXI : ((k : Int) + 1) * c + 3 < INF) :
    DijkstraRun (chainGraph k c) (List.replicate (chainGraph k c).length INF) 0 =
      some (chainFinal k c) := by
  have hlen : (0 : Int) < ((chainGraph k c).length : Int) := by
    rw [chainGraph_length]; omega
  obtain ⟨st, hrun, -, -⟩ := dijkstraRun_inv (chainGraph_validTargets k hc)
    (chainGraph_nonNeg k hc) (le_refl 0) hlen
  rw [hrun]
  unfold DijkstraRun at hrun
  rw [initState_eq (le_refl 0) hlen, chainState_zero] at hrun
  have h1 : loop (chainGraph k c) (4 + k) (chainState k c 0) = some (chainFinal k c) := by
    rw [chain_loop hc hk k (le_refl _) 4]
    exact chain_end hX hX1 hX3 hXI
  have h2 := loop_mono _ _ _ hrun (max (loopBound (chainState k c 0)) (4 + k)) (le_max_left _ _)
  have h3 := loop_mono _ _ _ h1 (max (loopBound (chainState k c 0)) (4 + k)) (le_max_right _ _)
  rw [h2] at h3
  exact h3

theorem chain_walk {k : Nat} {c : Int} :
    ∀ i : Nat, i ≤ k → Walk (chainGraph k c) 0 (i : Int) ((i : Int) * c) := by
  intro i
  induction i with
  | zero =>
    intro _
    simpa using (Walk.nil 0 : Walk (chainGraph k c) 0 0 0)
  | succ i ih =>
    intro hi
    have hrow : getAt? (chainGraph k c) (i : Int) =
        some [({ to_ := (i : Int) + 1, cost := c } : Edge)] := by
      rw [getAt?_natCast, chainGraph_getElem?, if_pos (by omega)]
    have he : ({ to_ := (i : Int) + 1, cost := c } : Edge) ∈ adj (chainGraph k c) (i : Int) := by
      rw [adj_eq_of_getAt? hrow]; simp
    have := (ih (by omega)).snoc _ he
    have hcast : (((i + 1 : Nat) : Int)) = (i : Int) + 1 := by push_cast; rfl
    rw [hcast, add_mul, one_mul]
    exact this

/-- Walks of cost `(k+1) * c + 1` lead over vertex `k+1` to the vertices `k+3` and `k+4`. -/
theorem chain_walk_end (k : Nat) (c : Int) :
    Walk (chainGraph k c) 0 ((k : Int) + 3) (((k : Int) + 1) * c + 1) ∧
    Walk (chainGraph k c) 0 ((k : Int) + 4) (((k : Int) + 1) * c + 1) := by
  obtain ⟨hr0, hr1, -, -⟩ := chainGraph_rows_at_end k c
  have h0 := chain_walk (c := c) k (le_refl k)
  have he1 : ({ to_ := (k : Int) + 1, cost := c } : Edge) ∈ adj (chainGraph k c) (k : Int) := by
    rw [adj_eq_of_getAt? hr0]; simp
  have h1 := h0.snoc _ he1
  have he3 : ({ to_ := (k : Int) + 3, cost := 1 } : Edge) ∈
      adj (chainGraph k c) ((k : Int) + 1) := by
    rw [adj_eq_of_getAt? hr1]; simp
  have he4 : ({ to_ := (k : Int) + 4, cost := 1 } : Edge) ∈
      adj (chainGraph k c) ((k : Int) + 1) := by
    rw [adj_eq_of_getAt? hr1]; simp
  have hs : (k : Int) * c + c = ((k : Int) + 1) * c := by ring
  have h3 := h1.snoc _ he3
  have h4 := h1.snoc _ he4
  simp only [hs] at h3 h4
  exact ⟨h3, h4⟩

theorem chainFinal_distAt (k : Nat) (c : Int) :
    distAt (chainFinal k c).distances ((k : Int) + 3) = ((k : Int) + 1) * c + 3 ∧
    distAt (chainFinal k c).distances ((k : Int) + 4) = INF := by
  obtain ⟨-, -, -, hd3, hd4⟩ := chainDistances_at_end k c
  obtain ⟨-, hlen⟩ := getAt?_lt hd3
  constructor
  · apply distAt_of_getAt?
    simp only [chainFinal]
    exact getAt?_setAt_self _ (by omega) (by rw [length_setAt, length_setAt]; omega)
  · apply distAt_of_getAt?
    simp only [chainFinal]
    rw [getAt?_setAt_ne _ (by omega), getAt?_setAt_ne _ (by omega),
      getAt?_setAt_ne _ (by omega)]
    exact hd4

/-- On the chain `Dijkstra` returns a path to vertex `k+3` that a walk undercuts, and the empty
path for vertex `k+4` although a walk leads there. -/
theorem chain_result {k : Nat} {c : Int} (hc : 4 ≤ c) (hk : (k : Int) * c ≤ 2 ^ 53)
    (hX : toDouble (((k : Int) + 1) * c) = ((k : Int) + 1) * c + 1)
    (hX1 : toDouble (((k : Int) + 1) * c - 1) = ((k : Int) + 1) * c - 1)
    (hX3 : toDouble (((k : Int) + 1) * c + 3) = ((k : Int) + 1) * c + 3)
    (hXI : ((k : Int) + 1) * c + 3 < INF) :
    (∃ path, Dijkstra (chainGraph k c) (List.replicate (chainGraph k c).length INF) 0
        ((k : Int) + 3) [] = some path ∧ path ≠ []) ∧
    Dijkstra (chainGraph k c) (List.replicate (chainGraph k c).length INF) 0
        ((k : Int) + 4) [] = some [] := by
  have hrun := chain_run hc hk hX hX1 hX3 hXI
  have hlen : (0 : Int) < ((chainGraph k c).length : Int) := by
    rw [chainGraph_length]; omega
  obtain ⟨st, hrun1, -, hinv⟩ := dijkstraRun_inv (chainGraph_validTargets k hc)
    (chainGraph_nonNeg k hc) (le_refl 0) hlen
  rw [hrun] at hrun1
  simp only [Option.some.injEq] at hrun1
  subst hrun1
  obtain ⟨hd3, hd4⟩ := chainFinal_distAt k c
  constructor
  · rcases dijkstra_of_run hrun hinv (t := (k : Int) + 3) (by omega)
      (by rw [chainGraph_length]; push_cast; omega) with ⟨hinf, -⟩ | ⟨hlab, n, l, hl, hd⟩
    · rw [hd3] at hinf
      omega
    · refine ⟨_, hd, ?_⟩
      obtain ⟨hhead, -, -⟩ := hinv.chain_shape (chainGraph_nonNeg k hc) n _ l hl hlab
      intro h
      rw [List.reverse_eq_nil_iff] at h
      subst h
      simp at hhead
  · rcases dijkstra_of_run hrun hinv (t := (k : Int) + 4) (by omega)
      (by rw [chainGraph_length]; push_cast; omega) with ⟨-, hd⟩ | ⟨hlab, -⟩
    · exact hd
    · rw [hd4] at hlab
      exact absurd hlab (lt_irrefl _)

/-! ## A size bound that makes the keys exact -/

theorem adj_costsAtMost {graph : Graph} {bound : Int} (hb : CostsAtMost graph bound) {u : Int}
    {e : Edge} (h : e ∈ adj graph u) : e.cost ≤ bound := by
  obtain ⟨row, hrow, hmem⟩ := adj_mem_graph h
  exact hb row (getAt?_mem hrow) e hmem

theorem SimplePath.facts {graph : Graph} (hv : ValidTargets graph) {bound : Int}
    (hb : CostsAtMost graph bound) {s : Int} (hs0 : 0 ≤ s) (hs1 : s < (graph.length : Int))
    {v c : Int} {vs : List Int} (h : SimplePath graph s v c vs) :
    vs.Nodup ∧ (∀ x ∈ vs, 0 ≤ x ∧ x < (graph.length : Int)) ∧
      c + bound ≤ (vs.length : Int) * bound := by
  induction h with
  | nil => simp [hs0, hs1]
  | @snoc u c1 vs1 e _ he hnot ih =>
    obtain ⟨hnd, hr, hcost⟩ := ih
    refine ⟨List.nodup_cons.mpr ⟨hnot, hnd⟩, ?_, ?_⟩
    · intro x hx
      rcases List.mem_cons.mp hx with h1 | h1
      · subst h1; exact adj_valid hv he
      · exact hr x h1
    · have := adj_costsAtMost hb he
      simp only [List.length_cons]
      push_cast
      rw [add_mul, one_mul]
      omega

/-- In a graph of `n` vertices whose edges cost at most `bound`, no simple path costs more
than `(n - 1) * bound`. -/
theorem simplePathCosts_of_size {graph : Graph} (hv : ValidTargets graph) {bound : Int}
    (hb0 : 0 ≤ bound) (hb : CostsAtMost graph bound) {s : Int} (hs0 : 0 ≤ s)
    (hs1 : s < (graph.length : Int)) {limit : Int}
    (hsize : (graph.length : Int) * bound ≤ limit + bound) :
    SimplePathCostsAtMost graph s limit := by
  intro v c vs h
  obtain ⟨hnd, hr, hcost⟩ := h.facts hv hb hs0 hs1
  have hsub : vs.map Int.toNat ⊆ List.range graph.length := by
    intro y hy
    obtain ⟨x, hx, rfl⟩ := List.mem_map.mp hy
    have := hr x hx
    exact List.mem_range.mpr (by omega)
  have hnd2 : (vs.map Int.toNat).Nodup := by
    refine List.Nodup.map_on ?_ hnd
    intro x hx y hy hxy
    have := hr x hx
    have := hr y hy
    omega
  have hlen := (List.subperm_of_subset hnd2 hsub).length_le
  simp only [List.length_map, List.length_range] at hlen
  have : (vs.length : Int) * bound ≤ (graph.length : Int) * bound :=
    mul_le_mul_of_nonneg_right (by exact_mod_cast hlen) hb0
  omega

/-! ## The graph after a penalty -/

/-- A simple path of the penalised graph is a simple path of the graph before, dearer by the
amount at most once. -/
theorem simplePath_of_penalised {graph graph1 : Graph} {path : List Int} {k amount : Int}
    (h : IncreaseEdgeCost graph path k amount = some graph1) {dest : Int}
    (hd : getAt? path (k + 1) = some dest) {s v c : Int} {vs : List Int}
    (hp : SimplePath graph1 s v c vs) :
    ∃ c0, SimplePath graph s v c0 vs ∧ (c = c0 ∨ (c = c0 + amount ∧ dest ∈ vs)) := by
  obtain ⟨src, dest1, -, hd1, -, hadj⟩ := increaseEdgeCost_adj h
  rw [hd] at hd1
  simp only [Option.some.injEq] at hd1
  subst hd1
  induction hp with
  | nil => exact ⟨0, SimplePath.nil, Or.inl rfl⟩
  | @snoc u c1 vs1 e _ he hnot ih =>
    obtain ⟨c0, hp0, hc0⟩ := ih
    rw [hadj] at he
    obtain ⟨e0, he0, rfl⟩ := List.mem_map.mp he
    by_cases hcase : u = src ∧ e0.to_ = dest
    · rw [if_pos hcase] at hnot ⊢
      simp only at hnot ⊢
      refine ⟨c0 + e0.cost, SimplePath.snoc e0 hp0 he0 hnot, Or.inr ⟨?_, ?_⟩⟩
      · rcases hc0 with h1 | ⟨-, h1⟩
        · omega
        · rw [hcase.2] at hnot
          exact absurd h1 hnot
      · rw [hcase.2]
        exact List.mem_cons_self _ _
    · rw [if_neg hcase] at hnot ⊢
      refine ⟨c0 + e0.cost, SimplePath.snoc e0 hp0 he0 hnot, ?_⟩
      rcases hc0 with h1 | ⟨h1, h2⟩
      · left; omega
      · right; exact ⟨by omega, List.mem_cons_of_mem _ h2⟩

theorem simplePathCosts_penalised {graph graph1 : Graph} {path : List Int} {k amount : Int}
    (h : IncreaseEdgeCost graph path k amount = some graph1) (hamount : 0 ≤ amount)
    {s limit : Int} (hb : SimplePathCostsAtMost graph s limit) :
    SimplePathCostsAtMost graph1 s (limit + amount) := by
  obtain ⟨src, dest, -, hd, -, -⟩ := increaseEdgeCost_adj h
  intro v c vs hp
  obtain ⟨c0, hp0, hc0⟩ := simplePath_of_penalised h hd hp
  have := hb v c0 vs hp0
  rcases hc0 with h1 | ⟨h1, -⟩ <;> omega

/-- A walk that avoids the penalised edge is a walk of the same cost after the penalty. -/
theorem WalkAvoiding.walk_penalised {graph graph1 : Graph} {path : List Int} {k amount : Int}
    (h : IncreaseEdgeCost graph path k amount = some graph1) {a b : Int}
    (ha : getAt? path k = some a) (hb : getAt? path (k + 1) = some b) {u v c : Int}
    (hw : WalkAvoiding graph a b u v c) : Walk graph1 u v c := by
  obtain ⟨src, dest, hs, hd, -, hadj⟩ := increaseEdgeCost_adj h
  rw [ha] at hs
  rw [hb] at hd
  simp only [Option.some.injEq] at hs hd
  subst hs hd
  induction hw with
  | nil u => exact Walk.nil u
  | @cons u1 v1 c1 e he hne _ ih =>
    refine Walk.cons e ?_ ih
    rw [hadj]
    exact List.mem_map.mpr ⟨e, he, by rw [if_neg hne]⟩

/-- Cheapest edge after the penalty: dearer by the amount between the penalised pair, the same
elsewhere. -/
theorem cheapest_penalised {graph graph1 : Graph} {path : List Int} {k amount : Int}
    (h : IncreaseEdgeCost graph path k amount = some graph1) {a b : Int}
    (ha : getAt? path k = some a) (hb : getAt? path (k + 1) = some b) {x y m : Int}
    (hm : cheapest graph1 x y = some m) :
    cheapest graph x y = some (if x = a ∧ y = b then m - amount else m) := by
  obtain ⟨src, dest, hs, hd, -, hadj⟩ := increaseEdgeCost_adj h
  rw [ha] at hs
  rw [hb] at hd
  simp only [Option.some.injEq] at hs hd
  subst hs hd
  obtain ⟨e1, he1, hto1, hcost1, hmin1⟩ := cheapest_mem hm
  rw [hadj] at he1
  obtain ⟨e0, he0, rfl⟩ := List.mem_map.mp he1
  have hbump : ∀ e ∈ adj graph x, e.to_ = y →
      (if x = a ∧ e.to_ = b then ({ e with cost := e.cost + amount } : Edge) else e) ∈
        adj graph1 x := by
    intro e he _
    rw [hadj]
    exact List.mem_map.mpr ⟨e, he, rfl⟩
  by_cases hcase : x = a ∧ y = b
  · obtain ⟨hxa, hyb⟩ := hcase
    subst hxa hyb
    have hto0 : e0.to_ = y := by
      by_cases h0 : e0.to_ = y
      · exact h0
      · rw [if_neg (fun hh => h0 hh.2)] at hto1; exact hto1
    rw [if_pos ⟨rfl, hto0⟩] at hcost1
    simp only at hcost1
    rw [if_pos ⟨rfl, rfl⟩]
    have : m - amount = e0.cost := by omega
    rw [this]
    refine cheapest_eq_some he0 hto0 ?_
    intro e he hto
    have hmem := hbump e he hto
    rw [if_pos ⟨rfl, hto⟩] at hmem
    have := hmin1 _ hmem hto
    simp only at this
    omega
  · rw [if_neg hcase]
    have hto0 : e0.to_ = y := by
      by_cases h0 : x = a ∧ e0.to_ = b
      · rw [if_pos h0] at hto1; exact hto1
      · rw [if_neg h0] at hto1; exact hto1
    have hne : ¬ (x = a ∧ e0.to_ = b) := by rw [hto0]; exact hcase
    rw [if_neg hne] at hcost1
    rw [← hcost1]
    refine cheapest_eq_some he0 hto0 ?_
    intro e he hto
    have hmem := hbump e he hto
    have hne1 : ¬ (x = a ∧ e.to_ = b) := by rw [hto]; exact hcase
    rw [if_neg hne1] at hmem
    have := hmin1 _ hmem hto
    omega

/-- Cost of a path before the penalty, from its cost after: lower by the amount for every
passage over the penalised pair, in particular when there is one. -/
theorem pathCost_penalised {graph graph1 : Graph} {path : List Int} {k amount : Int}
    (h : IncreaseEdgeCost graph path k amount = some graph1) (hamount : 0 ≤ amount) {a b : Int}
    (ha : getAt? path k = some a) (hb : getAt? path (k + 1) = some b) :
    ∀ (l : List Int) (x : Int) (m : Int), pathCost graph1 (x :: l) = some m →
      ∃ m0, pathCost graph (x :: l) = some m0 ∧ m0 ≤ m ∧
        ([a, b] <:+: (x :: l) → m0 + amount ≤ m) := by
  intro l
  induction l with
  | nil =>
    intro x m hm
    simp only [pathCost, Option.some.injEq] at hm
    subst hm
    refine ⟨0, by simp [pathCost], le_refl _, ?_⟩
    intro hinf
    have := hinf.length_le
    simp at this
  | cons y r ih =>
    intro x m hm
    obtain ⟨c1, m1, hc1, hm1, rfl⟩ := pathCost_cons_cons_inv hm
    obtain ⟨m0, hm0, hle, hinf⟩ := ih y m1 hm1
    have hc0 := cheapest_penalised h ha hb hc1
    refine ⟨_, pathCost_cons_cons hc0 hm0, ?_, ?_⟩
    · split <;> omega
    · intro hin
      by_cases hcase : x = a ∧ y = b
      · rw [if_pos hcase]; omega
      · have htail : [a, b] <:+: (y :: r) := by
          rcases List.infix_cons_iff.mp hin with hpre | htl
          · exfalso
            obtain ⟨t, ht⟩ := hpre
            simp only [List.cons_append, List.nil_append, List.cons.injEq] at ht
            exact hcase ⟨ht.1.symm, ht.2.1.symm⟩
          · exact htl
        have := hinf htail
        rw [if_neg hcase]
        omega

/-- Two consecutive entries of a list form an infix of it. -/
theorem infix_of_getAt? {l : List Int} {k a b : Int} (ha : getAt? l k = some a)
    (hb : getAt? l (k + 1) = some b) : [a, b] <:+: l := by
  obtain ⟨hk0, h1⟩ := getAt?_eq_some_iff.mp ha
  obtain ⟨-, h2⟩ := getAt?_eq_some_iff.mp hb
  have hk : (k + 1).toNat = k.toNat + 1 := by omega
  rw [hk] at h2
  obtain ⟨hlt1, rfl⟩ := List.getElem?_eq_some.mp h1
  obtain ⟨hlt2, rfl⟩ := List.getElem?_eq_some.mp h2
  refine ⟨l.take k.toNat, l.drop (k.toNat + 2), ?_⟩
  have e1 : l.drop k.toNat = l[k.toNat] :: l.drop (k.toNat + 1) := List.drop_eq_getElem_cons hlt1
  have e2 : l.drop (k.toNat + 1) = l[k.toNat + 1] :: l.drop (k.toNat + 2) :=
    List.drop_eq_getElem_cons hlt2
  calc l.take k.toNat ++ [l[k.toNat], l[k.toNat + 1]] ++ l.drop (k.toNat + 2)
      = l.take k.toNat ++ (l[k.toNat] :: l[k.toNat + 1] :: l.drop (k.toNat + 2)) := by simp
    _ = l.take k.toNat ++ l.drop k.toNat := by rw [e1, e2]
    _ = l := List.take_append_drop _ _

/-! ## Shortest paths: claims C1, C2, C3 -/

theorem chainGraph_costsAtMost (k : Nat) {c : Int} (hc : 4 ≤ c) :
    CostsAtMost (chainGraph k c) c := by
  intro row hrow e he
  obtain ⟨i, hi⟩ := List.mem_iff_getElem?.mp hrow
  have hget : getAt? (chainGraph k c) (i : Int) = some row := by rw [getAt?_natCast]; exact hi
  have hmem : e ∈ adj (chainGraph k c) (i : Int) := by rw [adj_eq_of_getAt? hget]; exact he
  exact (chainGraph_edge hc hmem).2.2.2.2

theorem chainGraph_simplePaths (k : Nat) {c : Int} (hc : 4 ≤ c) (s : Int) :
    SimplePathCostsAtMost (chainGraph k c) s (((k + 5 : Nat) : Int) * c) := by
  intro v w vs hp
  have hpos : (0 : Int) ≤ ((k + 5 : Nat) : Int) * c := mul_nonneg (by omega) (by omega)
  rcases chainGraph_walk_le hc hp.walk with h | ⟨h0, -, h⟩
  · omega
  · have : (((k + 5 : Nat) : Int) - s) * c ≤ ((k + 5 : Nat) : Int) * c :=
      mul_le_mul_of_nonneg_right (by omega) (by omega)
    omega

theorem longChain_keys :
    ((4194304 : Nat) : Int) * 2147483647 ≤ 2 ^ 53 ∧
    toDouble ((((4194304 : Nat) : Int) + 1) * 2147483647) =
      (((4194304 : Nat) : Int) + 1) * 2147483647 + 1 ∧
    toDouble ((((4194304 : Nat) : Int) + 1) * 2147483647 - 1) =
      (((4194304 : Nat) : Int) + 1) * 2147483647 - 1 ∧
    toDouble ((((4194304 : Nat) : Int) + 1) * 2147483647 + 3) =
      (((4194304 : Nat) : Int) + 1) * 2147483647 + 3 ∧
    (((4194304 : Nat) : Int) + 1) * 2147483647 + 3 < INF := by
  refine ⟨by norm_num, by decide, by decide, by decide, by decide⟩

/-- C1: `Dijkstra` can return a path that is not a cheapest one. On the chain of 2^22 edges
of cost 2^31 - 1 (valid targets, every cost a non-negative `int`, 4194309 vertices, all
distances `INF`) the distance 9007201398030335 of vertex 4194305 is queued as the `double`
9007201398030336, and the test `distances[from] < distance` drops the entry as stale, so the
edge of cost 1 from 4194305 to the target 4194307 is never relaxed. `Dijkstra` returns a
non-empty path whose recorded distance is 9007201398030338, while a walk of cost
9007201398030336 leads from the source to the target. -/
theorem dijkstra_not_cheapest :
    ValidTargets longChain ∧ NonNegCosts longChain ∧ CostsAtMost longChain 2147483647 ∧
    longChain.length = 4194309 ∧
    ∃ path st, Dijkstra longChain (List.replicate longChain.length INF) 0 4194307 [] = some path ∧
      path ≠ [] ∧
      DijkstraRun longChain (List.replicate longChain.length INF) 0 = some st ∧
      distAt st.distances 4194307 = 9007201398030338 ∧
      Walk longChain 0 4194307 9007201398030336 := by
  obtain ⟨hk, hX, hX1, hX3, hXI⟩ := longChain_keys
  have hc : (4 : Int) ≤ 2147483647 := by norm_num
  obtain ⟨⟨path, hpath, hne⟩, -⟩ := chain_result hc hk hX hX1 hX3 hXI
  have hrun := chain_run hc hk hX hX1 hX3 hXI
  obtain ⟨hd3, -⟩ := chainFinal_distAt 4194304 2147483647
  obtain ⟨hw3, -⟩ := chain_walk_end 4194304 2147483647
  have e1 : ((4194304 : Nat) : Int) + 3 = 4194307 := by norm_num
  have e2 : (((4194304 : Nat) : Int) + 1) * 2147483647 + 3 = 9007201398030338 := by norm_num
  have e3 : (((4194304 : Nat) : Int) + 1) * 2147483647 + 1 = 9007201398030336 := by norm_num
  rw [e1] at hpath hd3 hw3
  rw [e2] at hd3
  rw [e3] at hw3
  exact ⟨chainGraph_validTargets _ hc, chainGraph_nonNeg _ hc, chainGraph_costsAtMost _ hc,
    chainGraph_length _ _, path, _, hpath, hne, hrun, hd3, hw3⟩

theorem fourPoints_valid : ValidTargets fourPoints := by
  unfold ValidTargets; decide

theorem fourPoints_nonNeg : NonNegCosts fourPoints := by
  unfold NonNegCosts; decide

/-- C2. For every graph with valid edge targets and non-negative costs, every in-range source
and target and the all-`INF` distance array, `Dijkstra` returns a path, and when the path is
not empty it begins with the source, ends with the target, and every index on it is followed
by the target of an edge that leaves it. -/
theorem dijkstra_path_wellformed (graph : Graph) (s t : Int) (hv : ValidTargets graph)
    (hc : NonNegCosts graph) (hs0 : 0 ≤ s) (hs1 : s < (graph.length : Int))
    (ht0 : 0 ≤ t) (ht1 : t < (graph.length : Int)) :
    ∃ path, Dijkstra graph (List.replicate graph.length INF) s t [] = some path ∧
      (path ≠ [] → path.head? = some s ∧ path.getLast? = some t ∧
        List.Chain' (fun a b => ∃ e ∈ adj graph a, e.to_ = b) path) :=
  dijkstra_wellformed hv hc hs0 hs1 ht0 ht1

/-- C2 on the four-point example. -/
theorem dijkstra_path_wellformed_witness :
    ∃ path, Dijkstra fourPoints (List.replicate fourPoints.length INF) 2 3 [] = some path ∧
      (path ≠ [] → path.head? = some 2 ∧ path.getLast? = some 3 ∧
        List.Chain' (fun a b => ∃ e ∈ adj fourPoints a, e.to_ = b) path) :=
  dijkstra_path_wellformed fourPoints 2 3 fourPoints_valid fourPoints_nonNeg (by decide)
    (by decide) (by decide) (by decide)

/-- C3: `Dijkstra` can return the empty path for a target that is reachable. On the chain
of 2^22 edges of cost 2^31 - 1 (valid targets, non-negative costs, every simple path cheaper
than `INF`) a walk of cost 9007201398030336 leads from the source to vertex 4194308, and
`Dijkstra` returns the empty path for that target: vertex 4194305, the only one before it, is
never expanded, because its distance was queued as a `double` rounded up and the entry was
dropped as stale. -/
theorem dijkstra_empty_but_reachable :
    ValidTargets longChain ∧ NonNegCosts longChain ∧
    (∀ s, SimplePathCostsAtMost longChain s (INF - 1)) ∧
    Dijkstra longChain (List.replicate longChain.length INF) 0 4194308 [] = some [] ∧
    Walk longChain 0 4194308 9007201398030336 := by
  obtain ⟨hk, hX, hX1, hX3, hXI⟩ := longChain_keys
  have hc : (4 : Int) ≤ 2147483647 := by norm_num
  obtain ⟨-, hempty⟩ := chain_result hc hk hX hX1 hX3 hXI
  obtain ⟨-, hw4⟩ := chain_walk_end 4194304 2147483647
  have e1 : ((4194304 : Nat) : Int) + 4 = 4194308 := by norm_num
  have e3 : (((4194304 : Nat) : Int) + 1) * 2147483647 + 1 = 9007201398030336 := by norm_num
  rw [e1] at hempty hw4
  rw [e3] at hw4
  refine ⟨chainGraph_validTargets _ hc, chainGraph_nonNeg _ hc, ?_, hempty, hw4⟩
  intro s v w vs hp
  have := chainGraph_simplePaths 4194304 hc s v w vs hp
  have hb : (((4194304 + 5 : Nat) : Nat) : Int) * 2147483647 ≤ INF - 1 := by decide
  omega

/-! ## Graph symmetry: claim C4 -/

/-- Symmetry can be checked row by row. -/
theorem symmetric_of_rows {graph : Graph}
    (h : ∀ i : Nat, i < graph.length → ∀ e ∈ adj graph (i : Int),
      ({ to_ := (i : Int), cost := e.cost } : Edge) ∈ adj graph e.to_) : Symmetric graph := by
  intro u e he
  obtain ⟨h0, h1⟩ := adj_src_lt he
  have hu : u = (u.toNat : Int) := by omega
  rw [hu] at he ⊢
  exact h u.toNat (by omega) e he

/-- C4, the claim as stated fails. The two-point graph with the edge 0-1 of cost 5 in both
directions is symmetric; `IncreaseEdgeCost` on the path `[0, 1]` raises the edge `0 -> 1` to
10005 and leaves `1 -> 0` at 5, so the graph is symmetric no more. -/
theorem symmetry_counterexample :
    Symmetric twoPoints ∧
    IncreaseEdgeCost twoPoints [0, 1] 0 10000 =
      some [[{ to_ := 1, cost := 10005 }], [{ to_ := 0, cost := 5 }]] ∧
    ¬ Symmetric [[{ to_ := 1, cost := 10005 }], [{ to_ := 0, cost := 5 }]] := by
  refine ⟨symmetric_of_rows (by decide), by decide, ?_⟩
  intro h
  have := h 0 { to_ := 1, cost := 10005 } (by decide)
  revert this
  decide

/-- C4, amended. The graph that `CreateGraphFromDelaunay` builds is symmetric. As long as
every cost stays in the range of `int`: after `IncreaseEdgeCost` on a symmetric graph every
edge `u -> v` still has a twin `v -> u`, and the two costs agree except across the penalised
pair `path[k]`, `path[k+1]`, where the edge from `path[k]` to `path[k+1]` alone is dearer by
the amount; and after any number of penalty steps with non-negative amounts every edge
`u -> v` has a twin `v -> u` whose cost differs by exactly the penalties that the two
directions have received, so the costs are equal wherever neither direction was chosen. -/
theorem symmetry_under_penalty :
    (∀ (V : Type) [DecidableEq V] (geo : Geometry V) (triangles : List (Triangle V))
        (points : List V) (graph : Graph),
      CreateGraphFromDelaunay geo triangles points = some graph → Symmetric graph) ∧
    (∀ (graph graph1 : Graph) (path : List Int) (k amount : Int),
      Symmetric graph → IntCosts graph → InIntRange amount →
      IncreaseEdgeCost graph path k amount = some graph1 → IntCosts graph1 →
      ∃ src dest, getAt? path k = some src ∧ getAt? path (k + 1) = some dest ∧
        ∀ u : Int, ∀ e ∈ adj graph1 u, ∃ e1 ∈ adj graph1 e.to_, e1.to_ = u ∧
          (e1.cost = e.cost ∨ (u = src ∧ e.to_ = dest ∧ e.cost = e1.cost + amount) ∨
            (e.to_ = src ∧ u = dest ∧ e1.cost = e.cost + amount))) ∧
    (∀ (graph graph1 : Graph) (ps : List (List Int × Int × Int)),
      Symmetric graph → IntCosts graph → (∀ p ∈ ps, 0 ≤ p.2.2 ∧ InIntRange p.2.2) →
      applyPenalties graph ps = some graph1 → IntCosts graph1 →
      ∀ u : Int, ∀ e ∈ adj graph1 u, ∃ e1 ∈ adj graph1 e.to_, e1.to_ = u ∧
        e.cost - penaltyOn ps u e.to_ = e1.cost - penaltyOn ps e.to_ u) :=
  ⟨fun _ _ _ _ _ _ h => createGraph_symmetric h,
   fun _ _ _ _ _ hsym _ _ h _ => increaseEdgeCost_twin h hsym,
   fun _ _ _ hsym _ _ h _ => applyPenalties_symmetric hsym h⟩

/-- The amended C4 on the four points of the line: the graph built is symmetric, and after
the two penalty steps of two presses of "add Path" the costs of twin edges differ by the
penalties received. -/
theorem symmetry_under_penalty_witness :
    CreateGraphFromDelaunay lineGeometry lineTriangles linePoints = some lineSession.graph ∧
    Symmetric lineSession.graph ∧ IntCosts lineSession.graph ∧
    applyPenalties lineSession.graph [([2, 3], 0, 10000), ([2, 1, 3], 0, 10000)] =
      some lineSessionAfter.graph ∧
    IntCosts lineSessionAfter.graph ∧
    ∀ u : Int, ∀ e ∈ adj lineSessionAfter.graph u, ∃ e1 ∈ adj lineSessionAfter.graph e.to_,
      e1.to_ = u ∧
      e.cost - penaltyOn [([2, 3], 0, 10000), ([2, 1, 3], 0, 10000)] u e.to_ =
        e1.cost - penaltyOn [([2, 3], 0, 10000), ([2, 1, 3], 0, 10000)] e.to_ u :=
  ⟨by decide,
   symmetry_under_penalty.1 Int lineGeometry lineTriangles linePoints _ (by decide),
   by unfold IntCosts InIntRange; decide,
   by decide,
   by unfold IntCosts InIntRange; decide,
   symmetry_under_penalty.2.2 lineSession.graph lineSessionAfter.graph
     [([2, 3], 0, 10000), ([2, 1, 3], 0, 10000)]
     (symmetry_under_penalty.1 Int lineGeometry lineTriangles linePoints _ (by decide))
     (by unfold IntCosts InIntRange; decide) (by unfold InIntRange; decide) (by decide)
     (by unfold IntCosts InIntRange; decide)⟩

/-! ## `addPath` on an unreachable target: claim C5 -/

theorem addPath_eq_some {graph : Graph} {distances : List Int} {n : Nat}
    {paths : List (List Int)} {r : Int} {graph1 : Graph} {distances1 : List Int}
    {paths1 : List (List Int)}
    (h : addPath graph distances n paths r = some (graph1, distances1, paths1)) :
    ∃ path, Dijkstra graph distances ((n : Int) - 2) ((n : Int) - 1) [] = some path ∧
      IncreaseEdgeCost graph path r 10000 = some graph1 ∧ distances1 = distances ∧
      paths1 = paths ++ [path] := by
  unfold addPath at h
  split at h
  · simp at h
  · rename_i path hd
    split at h
    · simp at h
    · rename_i g1 hi
      simp only [Option.some.injEq, Prod.mk.injEq] at h
      obtain ⟨h1, h2, h3⟩ := h
      subst h1 h2 h3
      exact ⟨path, hd, hi, rfl, rfl⟩

theorem increaseEdgeCost_nil (graph : Graph) (r amount : Int) :
    IncreaseEdgeCost graph [] r amount = none := by
  have : getAt? ([] : List Int) r = none := by
    unfold getAt?
    split <;> simp
  simp [IncreaseEdgeCost, this]

/-- C5, the code against the claim. On two points without an edge `Dijkstra` returns the
empty path, and `addPath` goes on to `IncreaseEdgeCost`, which reads `path[randomIndex]` of the
empty path: the call has no defined result, whatever index is drawn. The same holds for every
graph on which `Dijkstra` returns the empty path. -/
theorem addPath_unreachable_undefined :
    Dijkstra [[], []] (List.replicate 2 INF) 0 1 [] = some [] ∧
    (∀ r : Int, addPath [[], []] (List.replicate 2 INF) 2 [] r = none) ∧
    (∀ (graph : Graph) (distances : List Int) (n : Nat) (paths : List (List Int)) (r : Int),
      Dijkstra graph distances ((n : Int) - 2) ((n : Int) - 1) [] = some [] →
      addPath graph distances n paths r = none) := by
  have hgen : ∀ (graph : Graph) (distances : List Int) (n : Nat) (paths : List (List Int))
      (r : Int), Dijkstra graph distances ((n : Int) - 2) ((n : Int) - 1) [] = some [] →
      addPath graph distances n paths r = none := by
    intro graph distances n paths r h
    simp [addPath, h, increaseEdgeCost_nil]
  exact ⟨by decide, fun r => hgen _ _ 2 _ r (by decide), hgen⟩

/-! ## The four-point example: claim C6 -/

theorem secondCallOk_spec {graph : Graph} {n : Nat} {path1 path2 : List Int} {cost2 r : Int}
    (h : secondCallOk graph n path1 path2 cost2 r = true) :
    ∃ graph1, addPath graph (List.replicate n INF) n [] r =
        some (graph1, List.replicate n INF, [path1]) ∧
      pathCost graph1 path2 = some cost2 ∧
      ∀ r2 : Int, 0 ≤ r2 → r2 ≤ (path2.length : Int) - 2 →
        ∃ graph2, addPath graph1 (List.replicate n INF) n [path1] r2 =
          some (graph2, List.replicate n INF, [path1, path2]) := by
  unfold secondCallOk at h
  split at h
  · simp at h
  · rename_i graph1 distances1 paths1 hadd
    simp only [Bool.and_eq_true, decide_eq_true_eq, List.all_eq_true, List.mem_range] at h
    obtain ⟨⟨⟨hd, hp⟩, hcost⟩, hall⟩ := h
    subst hd hp
    refine ⟨graph1, hadd, hcost, ?_⟩
    intro r2 h0 h1
    have hr2 : r2 = (r2.toNat : Int) := by omega
    have := hall r2.toNat (by omega)
    rw [← hr2] at this
    split at this
    · simp at this
    · rename_i graph2 distances2 paths2 hadd2
      simp only [decide_eq_true_eq] at this
      subst this
      obtain ⟨-, -, -, hd2, -⟩ := addPath_eq_some hadd2
      subst hd2
      exact ⟨graph2, hadd2⟩

set_option maxRecDepth 100000 in
theorem fourPoints_orders :
    ∀ r0 ∈ List.permutations' [(⟨2, 7⟩ : Edge), ⟨3, 7⟩, ⟨1, 10⟩],
    ∀ r1 ∈ List.permutations' [(⟨2, 7⟩ : Edge), ⟨3, 7⟩, ⟨0, 10⟩],
    ∀ r2 ∈ List.permutations' [(⟨0, 7⟩ : Edge), ⟨1, 7⟩],
    ∀ r3 ∈ List.permutations' [(⟨0, 7⟩ : Edge), ⟨1, 7⟩],
      Dijkstra [r0, r1, r2, r3] (List.replicate 4 INF) 2 3 [] = some [2, 0, 3] ∧
      pathCost [r0, r1, r2, r3] [2, 0, 3] = some 14 ∧
      secondCallOk [r0, r1, r2, r3] 4 [2, 0, 3] [2, 1, 3] 14 0 = true ∧
      secondCallOk [r0, r1, r2, r3] 4 [2, 0, 3] [2, 1, 3] 14 1 = true := by
  decide

/-- C6. On the four points `p1` (index 0), `p2` (index 1), `start` (index 2), `end`
(index 3) with the edges start-p1, start-p2, p1-end, p2-end of cost 7 and p1-p2 of cost 10 in
both directions, in whatever order the adjacency lists hold them: the first `addPath` records
`[start, p1, end]`, of cost 14, and for either index that can be drawn on that path the
second `addPath` records `[start, p2, end]`, whose cost in the penalised graph is 14. -/
theorem four_point_example (r0 r1 r2 r3 : List Edge)
    (h0 : r0.Perm [⟨2, 7⟩, ⟨3, 7⟩, ⟨1, 10⟩]) (h1 : r1.Perm [⟨2, 7⟩, ⟨3, 7⟩, ⟨0, 10⟩])
    (h2 : r2.Perm [⟨0, 7⟩, ⟨1, 7⟩]) (h3 : r3.Perm [⟨0, 7⟩, ⟨1, 7⟩]) :
    Dijkstra [r0, r1, r2, r3] (List.replicate 4 INF) 2 3 [] = some [2, 0, 3] ∧
    pathCost [r0, r1, r2, r3] [2, 0, 3] = some 14 ∧
    ∀ r : Int, 0 ≤ r → r ≤ (([2, 0, 3] : List Int).length : Int) - 2 →
      ∃ graph1, addPath [r0, r1, r2, r3] (List.replicate 4 INF) 4 [] r =
          some (graph1, List.replicate 4 INF, [[2, 0, 3]]) ∧
        pathCost graph1 [2, 1, 3] = some 14 ∧
        ∀ r2 : Int, 0 ≤ r2 → r2 ≤ (([2, 1, 3] : List Int).length : Int) - 2 →
          ∃ graph2, addPath graph1 (List.replicate 4 INF) 4 [[2, 0, 3]] r2 =
            some (graph2, List.replicate 4 INF, [[2, 0, 3], [2, 1, 3]]) := by
  obtain ⟨hd, hcost, hs0, hs1⟩ := fourPoints_orders r0 (List.mem_permutations'.mpr h0)
    r1 (List.mem_permutations'.mpr h1) r2 (List.mem_permutations'.mpr h2)
    r3 (List.mem_permutations'.mpr h3)
  refine ⟨hd, hcost, ?_⟩
  intro r hr0 hr1
  have hr1' : r ≤ 1 := by simpa using hr1
  interval_cases r
  · exact secondCallOk_spec hs0
  · exact secondCallOk_spec hs1

/-- C6 on the adjacency lists of `fourPoints`. -/
theorem four_point_example_witness :
    Dijkstra fourPoints (List.replicate 4 INF) 2 3 [] = some [2, 0, 3] ∧
    pathCost fourPoints [2, 0, 3] = some 14 ∧
    ∀ r : Int, 0 ≤ r → r ≤ (([2, 0, 3] : List Int).length : Int) - 2 →
      ∃ graph1, addPath fourPoints (List.replicate 4 INF) 4 [] r =
          some (graph1, List.replicate 4 INF, [[2, 0, 3]]) ∧
        pathCost graph1 [2, 1, 3] = some 14 ∧
        ∀ r2 : Int, 0 ≤ r2 → r2 ≤ (([2, 1, 3] : List Int).length : Int) - 2 →
          ∃ graph2, addPath graph1 (List.replicate 4 INF) 4 [[2, 0, 3]] r2 =
            some (graph2, List.replicate 4 INF, [[2, 0, 3], [2, 1, 3]]) :=
  four_point_example _ _ _ _ (List.Perm.refl _) (List.Perm.refl _) (List.Perm.refl _)
    (List.Perm.refl _)

/-! ## Reset: claim C7 -/

theorem addPathButton_eq_some {n : Nat} {s s1 : Session} {r : Int}
    (h : addPathButton n s r = some s1) :
    ∃ path, Dijkstra s.graph s.distances ((n : Int) - 2) ((n : Int) - 1) [] = some path ∧
      IncreaseEdgeCost s.graph path r 10000 = some s1.graph ∧ s1.distances = s.distances ∧
      s1.paths = s.paths ++ [path] := by
  unfold addPathButton at h
  split at h
  · simp at h
  · rename_i g1 d1 p1 hadd
    simp only [Option.some.injEq] at h
    subst h
    exact addPath_eq_some hadd

/-- C7. For every triangle list and point list from which `Main` can build its session, and
every sequence of presses of "add Path" with any drawn indices: the reset button yields the
session first built (the same graph, no accepted path, every distance `INF`), and `Dijkstra`
from the source anchor to the target anchor on the reset session returns the path that a
first press of "add Path" records on the pristine session. -/
theorem reset_restores {V : Type} [DecidableEq V] (geo : Geometry V)
    (triangles : List (Triangle V)) (points : List V) (s0 s : Session) (rs : List Int)
    (hstart : startSession geo triangles points = some s0)
    (_hpress : addPathPresses points.length s0 rs = some s) :
    resetButton geo triangles points s = some s0 ∧
    CreateGraphFromDelaunay geo triangles points = some s0.graph ∧
    s0.paths = [] ∧ s0.distances = List.replicate points.length INF ∧
    ∀ (r : Int) (s1 : Session), addPathButton points.length s0 r = some s1 →
      ∃ path, s1.paths = [path] ∧
        Dijkstra s0.graph s0.distances ((points.length : Int) - 2) ((points.length : Int) - 1)
          [] = some path := by
  have hreset : resetButton geo triangles points s = some s0 := by
    unfold resetButton
    unfold startSession at hstart
    exact hstart
  unfold startSession at hstart
  cases hbuild : CreateGraphFromDelaunay geo triangles points with
  | none => simp [hbuild] at hstart
  | some graph =>
    simp only [hbuild, Option.some.injEq] at hstart
    subst hstart
    refine ⟨hreset, rfl, rfl, rfl, ?_⟩
    intro r s1 h1
    obtain ⟨path, hd, -, -, hp⟩ := addPathButton_eq_some h1
    exact ⟨path, by simpa using hp, hd⟩

/-- C7 on the four points of the line, after two presses of "add Path". -/
theorem reset_restores_witness :
    resetButton lineGeometry lineTriangles linePoints lineSessionAfter = some lineSession ∧
    CreateGraphFromDelaunay lineGeometry lineTriangles linePoints = some lineSession.graph ∧
    lineSession.paths = [] ∧ lineSession.distances = List.replicate linePoints.length INF ∧
    ∀ (r : Int) (s1 : Session), addPathButton linePoints.length lineSession r = some s1 →
      ∃ path, s1.paths = [path] ∧
        Dijkstra lineSession.graph lineSession.distances ((linePoints.length : Int) - 2)
          ((linePoints.length : Int) - 1) [] = some path :=
  reset_restores lineGeometry lineTriangles linePoints lineSession lineSessionAfter [0, 0]
    (by decide) (by decide)

/-! ## The distance array of the caller: claim C10 -/

theorem addPathPresses_distances (n : Nat) : ∀ (rs : List Int) (s s1 : Session),
    addPathPresses n s rs = some s1 → s1.distances = s.distances := by
  intro rs
  induction rs with
  | nil =>
    intro s s1 h
    simp only [addPathPresses, Option.some.injEq] at h
    rw [h]
  | cons r rest ih =>
    intro s s1 h
    simp only [addPathPresses] at h
    cases h1 : addPathButton n s r with
    | none => simp [h1] at h
    | some s2 =>
      simp only [h1] at h
      obtain ⟨-, -, -, hd, -⟩ := addPathButton_eq_some h1
      rw [ih s2 s1 h, hd]

/-- C10. `addPath` leaves the distance array of its caller as it was: when a call returns,
the array it hands back is the array it received, for every graph, number of points and
array; so after any number of presses of "add Path" the array of the session is unchanged,
and an array that was all `INF` is all `INF` still. -/
theorem addPath_keeps_distances (graph : Graph) (distances : List Int) (n : Nat)
    (paths : List (List Int)) (r : Int) (graph1 : Graph) (distances1 : List Int)
    (paths1 : List (List Int))
    (h : addPath graph distances n paths r = some (graph1, distances1, paths1)) :
    distances1 = distances ∧
    ∀ (rs : List Int) (s s1 : Session), addPathPresses n s rs = some s1 →
      s1.distances = s.distances ∧
      (s.distances = List.replicate n INF → s1.distances = List.replicate n INF) := by
  obtain ⟨-, -, -, hd, -⟩ := addPath_eq_some h
  refine ⟨hd, ?_⟩
  intro rs s s1 hp
  have := addPathPresses_distances n rs s s1 hp
  exact ⟨this, fun h0 => by rw [this, h0]⟩

/-- C10 on the four-point example. -/
theorem addPath_keeps_distances_witness :
    List.replicate 4 INF = List.replicate 4 INF ∧
    ∀ (rs : List Int) (s s1 : Session), addPathPresses 4 s rs = some s1 →
      s1.distances = s.distances ∧
      (s.distances = List.replicate 4 INF → s1.distances = List.replicate 4 INF) :=
  addPath_keeps_distances fourPoints (List.replicate 4 INF) 4 [] 0
    [[⟨2, 7⟩, ⟨3, 7⟩, ⟨1, 10⟩], [⟨2, 7⟩, ⟨3, 7⟩, ⟨0, 10⟩], [⟨0, 10007⟩, ⟨1, 7⟩],
      [⟨0, 7⟩, ⟨1, 7⟩]] (List.replicate 4 INF) [[2, 0, 3]] (by decide)

/-! ## The second path and the penalised edge: claim C8 -/

theorem dijkstra_some_range {graph : Graph} {distances : List Int} {s t : Int}
    {path0 path : List Int} (h : Dijkstra graph distances s t path0 = some path) :
    0 ≤ s ∧ s < (distances.length : Int) := by
  unfold Dijkstra DijkstraRun initState at h
  cases hs : getAt? distances s with
  | none => simp [hs] at h
  | some d => exact getAt?_lt hs

theorem SimplePathCostsAtMost.weaken {graph : Graph} {s a b : Int}
    (h : SimplePathCostsAtMost graph s a) (hab : a ≤ b) : SimplePathCostsAtMost graph s b :=
  fun v c vs hp => le_trans (h v c vs hp) hab

/-- C8, the claim as stated fails. On three points with a direct edge of cost 1 from the
source (index 1) to the target (index 2) and a detour over index 0 of cost 40000, the first
`addPath` records `[1, 2]` and penalises the edge `1 -> 2`; a route that avoids that edge
exists, and yet the second `addPath` records `[1, 2]` again, the penalised edge (now 10001)
being cheaper than the detour. -/
theorem penalised_edge_counterexample :
    ValidTargets detour ∧ NonNegCosts detour ∧
    addPath detour (List.replicate 3 INF) 3 [] 0 =
      some ([[⟨1, 20000⟩, ⟨2, 20000⟩], [⟨2, 10001⟩, ⟨0, 20000⟩], [⟨1, 1⟩, ⟨0, 20000⟩]],
        List.replicate 3 INF, [[1, 2]]) ∧
    WalkAvoiding detour 1 2 1 2 40000 ∧
    addPath [[⟨1, 20000⟩, ⟨2, 20000⟩], [⟨2, 10001⟩, ⟨0, 20000⟩], [⟨1, 1⟩, ⟨0, 20000⟩]]
        (List.replicate 3 INF) 3 [[1, 2]] 0 =
      some ([[⟨1, 20000⟩, ⟨2, 20000⟩], [⟨2, 20001⟩, ⟨0, 20000⟩], [⟨1, 1⟩, ⟨0, 20000⟩]],
        List.replicate 3 INF, [[1, 2], [1, 2]]) := by
  refine ⟨by unfold ValidTargets; decide, by unfold NonNegCosts; decide, by decide, ?_,
    by decide⟩
  have h2 : WalkAvoiding detour 1 2 2 2 0 := WalkAvoiding.nil 2
  have h1 : WalkAvoiding detour 1 2 0 2 (20000 + 0) :=
    WalkAvoiding.cons ⟨2, 20000⟩ (by decide) (by decide) h2
  exact WalkAvoiding.cons ⟨0, 20000⟩ (by decide) (by decide) h1

/-- C8, amended. For every graph with valid edge targets and non-negative costs of at most
2147483647 - 10000 each (so that the penalty stays in the range of `int`) in which no simple
path from the source anchor costs more than 2^53 - 10000: when a first `addPath` has recorded
`path1` and penalised its edge from `u = path1[r]` to `v = path1[r+1]`, every cost of the
penalised graph is an `int`, and when some route from the source anchor to the target anchor
avoids the edges from `u` to `v` and costs less than `path1` plus 10000, then the path that
the second call computes is not empty, does not contain `u` immediately followed by `v`, and
differs from `path1`. -/
theorem second_path_avoids_penalised (graph : Graph) (n : Nat) (paths : List (List Int))
    (r : Int) (graph1 : Graph) (distances1 : List Int) (paths1 : List (List Int))
    (hv : ValidTargets graph) (hc : NonNegCosts graph)
    (hint : CostsAtMost graph (2147483647 - 10000)) (hn : graph.length = n)
    (hexact : SimplePathCostsAtMost graph ((n : Int) - 2) (2 ^ 53 - 10000))
    (hfirst : addPath graph (List.replicate n INF) n paths r =
      some (graph1, distances1, paths1)) :
    NonNegCosts graph1 ∧ CostsAtMost graph1 2147483647 ∧
    ∃ path1 u v cost1, paths1 = paths ++ [path1] ∧ getAt? path1 r = some u ∧
      getAt? path1 (r + 1) = some v ∧ pathCost graph path1 = some cost1 ∧
      ∀ c, WalkAvoiding graph u v ((n : Int) - 2) ((n : Int) - 1) c → c < cost1 + 10000 →
        ∃ path2, Dijkstra graph1 distances1 ((n : Int) - 2) ((n : Int) - 1) [] = some path2 ∧
          path2 ≠ [] ∧ ¬ [u, v] <:+: path2 ∧ path2 ≠ path1 := by
  obtain ⟨path1, hd1, hinc, hdist, hpaths⟩ := addPath_eq_some hfirst
  subst hdist
  obtain ⟨u, v, hu, hv1, hlen1, -⟩ := increaseEdgeCost_adj hinc
  obtain ⟨hs0, hs1⟩ := dijkstra_some_range hd1
  simp only [List.length_replicate] at hs1
  subst hn
  have ht0 : (0 : Int) ≤ (graph.length : Int) - 1 := by omega
  have ht1 : (graph.length : Int) - 1 < (graph.length : Int) := by omega
  have hne1 : path1 ≠ [] := by
    intro h
    subst h
    have := getAt?_mem hu
    simp at this
  -- the first path is optimal in the graph
  obtain ⟨p1, st1, hp1, -, -, -, hopt1⟩ :=
    dijkstra_exact hv hc hs0 hs1 ht0 ht1 (hexact.weaken (by norm_num))
  rw [hd1] at hp1
  simp only [Option.some.injEq] at hp1
  subst hp1
  obtain ⟨hcost1, hmin1⟩ := hopt1 hne1
  have hv2 := increaseEdgeCost_validTargets hinc hv
  have hc2 := increaseEdgeCost_nonNeg hinc hc (by norm_num)
  have hint2 : CostsAtMost graph1 2147483647 := by
    have := increaseEdgeCost_costsAtMost hinc hint (by norm_num : (0 : Int) ≤ 10000)
    simpa using this
  refine ⟨hc2, hint2, path1, u, v, _, hpaths, hu, hv1, hcost1, ?_⟩
  intro c hw hlt
  -- the second run, on the penalised graph
  have hexact2 : SimplePathCostsAtMost graph1 ((graph.length : Int) - 2) (2 ^ 53) :=
    (simplePathCosts_penalised hinc (by norm_num) hexact).weaken (by norm_num)
  have hs1' : (graph.length : Int) - 2 < (graph1.length : Int) := by rw [hlen1]; exact hs1
  have ht1' : (graph.length : Int) - 1 < (graph1.length : Int) := by rw [hlen1]; exact ht1
  obtain ⟨path2, st2, hp2, -, -, hiff2, hopt2⟩ :=
    dijkstra_exact hv2 hc2 hs0 hs1' ht0 ht1' hexact2
  obtain ⟨p2, hp2', hshape⟩ := dijkstra_wellformed hv2 hc2 hs0 hs1' ht0 ht1'
  rw [hp2] at hp2'
  simp only [Option.some.injEq] at hp2'
  subst hp2'
  rw [hlen1] at hp2
  have hwalk2 : Walk graph1 ((graph.length : Int) - 2) ((graph.length : Int) - 1) c :=
    hw.walk_penalised hinc hu hv1
  have hne2 : path2 ≠ [] := fun h => (hiff2.mp h) ⟨c, hwalk2⟩
  obtain ⟨hcost2, hmin2⟩ := hopt2 hne2
  have hle2 := hmin2 c hwalk2
  obtain ⟨hhead, hlast, -⟩ := hshape hne2
  have hnot : ¬ [u, v] <:+: path2 := by
    intro hinf
    obtain ⟨x, l, rfl⟩ : ∃ x l, path2 = x :: l := by
      cases path2 with
      | nil => exact absurd rfl hne2
      | cons x l => exact ⟨x, l, rfl⟩
    obtain ⟨m0, hm0, -, hpen⟩ := pathCost_penalised hinc (by norm_num) hu hv1 l x _ hcost2
    have hw0 := pathCost_walk l x m0 hm0
    simp only [List.head?_cons, Option.some.injEq] at hhead
    rw [List.getLast?_eq_getLast _ (by simp)] at hlast
    simp only [Option.some.injEq] at hlast
    subst hhead
    rw [hlast] at hw0
    have := hmin1 m0 hw0
    have := hpen hinf
    omega
  refine ⟨path2, hp2, hne2, hnot, ?_⟩
  intro h
  subst h
  exact hnot (infix_of_getAt? hu hv1)

/-- The amended C8 on the four-point example: the first call penalises `start -> p1`. -/
theorem second_path_avoids_penalised_witness :
    NonNegCosts
      [[⟨2, 7⟩, ⟨3, 7⟩, ⟨1, 10⟩], [⟨2, 7⟩, ⟨3, 7⟩, ⟨0, 10⟩], [⟨0, 10007⟩, ⟨1, 7⟩],
        [⟨0, 7⟩, ⟨1, 7⟩]] ∧
    CostsAtMost
      [[⟨2, 7⟩, ⟨3, 7⟩, ⟨1, 10⟩], [⟨2, 7⟩, ⟨3, 7⟩, ⟨0, 10⟩], [⟨0, 10007⟩, ⟨1, 7⟩],
        [⟨0, 7⟩, ⟨1, 7⟩]] 2147483647 ∧
    ∃ path1 u v cost1, [[2, 0, 3]] = ([] : List (List Int)) ++ [path1] ∧
      getAt? path1 0 = some u ∧
      getAt? path1 (0 + 1) = some v ∧ pathCost fourPoints path1 = some cost1 ∧
      ∀ c, WalkAvoiding fourPoints u v (((4 : Nat) : Int) - 2) (((4 : Nat) : Int) - 1) c →
        c < cost1 + 10000 →
        ∃ path2, Dijkstra
            [[⟨2, 7⟩, ⟨3, 7⟩, ⟨1, 10⟩], [⟨2, 7⟩, ⟨3, 7⟩, ⟨0, 10⟩], [⟨0, 10007⟩, ⟨1, 7⟩],
              [⟨0, 7⟩, ⟨1, 7⟩]]
            (List.replicate 4 INF) (((4 : Nat) : Int) - 2) (((4 : Nat) : Int) - 1) [] =
            some path2 ∧
          path2 ≠ [] ∧ ¬ [u, v] <:+: path2 ∧ path2 ≠ path1 :=
  second_path_avoids_penalised fourPoints 4 [] 0
    [[⟨2, 7⟩, ⟨3, 7⟩, ⟨1, 10⟩], [⟨2, 7⟩, ⟨3, 7⟩, ⟨0, 10⟩], [⟨0, 10007⟩, ⟨1, 7⟩],
      [⟨0, 7⟩, ⟨1, 7⟩]] (List.replicate 4 INF) [[2, 0, 3]]
    fourPoints_valid fourPoints_nonNeg (by unfold CostsAtMost; decide) (by decide)
    (simplePathCosts_of_size fourPoints_valid (by norm_num : (0 : Int) ≤ 10)
      (by unfold CostsAtMost; decide) (by decide) (by decide) (by decide))
    (by decide)

end StsMapGen
